import Mathlib

/-!
# Decimal amounts of `amount.cc`

A shallow embedding of the amount arithmetic of `src/amount.cc` and the
properties of it that the specification states.

Conventions of the embedding.

* GMP integers (`mpz_t`) are `Int`; `mpz_tdiv_q` is `Int.tdiv`, `mpz_tdiv_r` is
  `Int.tmod`, `mpz_ui_pow_ui (10, n)` is `10 ^ n`.
* The stored precision `bigint_t::prec` is an `unsigned short`: every store of a
  computed precision is taken modulo `65536`.
* A failed `assert` and a thrown `amount_error` are values of `failure`.
* Amounts are copy-on-write handles on a quantity cell.  Every mutating member
  calls `_dup ()` before it writes, so a mutation is never seen through another
  handle; the embedding therefore gives an amount its cell by value (mantissa
  and precision), and leaves out the sharing bookkeeping (`ref`, `flags`,
  `index`).
* Commodities live in the registry and are referred to by pointer.  A pointer is
  a natural number, `commodity_ = none` is the C++ `NULL`, and the registry is
  the function that dereferences a pointer.
-/

namespace ledger

/-- The ways a call can end other than by returning: an `amount_error` exception
carrying its message, or a failed `assert`. -/
inductive failure where
  | amount_error (what : String)
  | assertion
deriving DecidableEq, Repr

/-- The quantity cell `amount_t::bigint_t`: the mantissa `val` and the number
`prec` of implied decimal digits. -/
structure bigint_t where
  val : Int
  prec : Nat
deriving DecidableEq, Repr

/-- An amount: an optional quantity cell and an optional commodity pointer. -/
structure amount_t where
  quantity : Option bigint_t
  commodity_ : Option Nat
deriving DecidableEq, Repr

/-- Modelled from the spec: the price history of a commodity, a `std::map` from
time to amount declared in `amount.h`, which is not among the sources: the
entries in the order of the map, that is, by ascending time. -/
abbrev history_map := List (Int × amount_t)

/-- Modelled from the spec: the record `commodity_t`, declared in `amount.h`,
which is not among the sources.  The fields are those of the data model: symbol,
quoting, display precision, display flags, the two conversion links and the
optional price history. -/
structure commodity_t where
  symbol : String
  quote : Bool
  precision : Nat
  flags : Nat
  smaller : Option amount_t
  larger : Option amount_t
  history : Option history_map
deriving Repr

/-- The commodity objects, by pointer. -/
abbrev commodities_t := Nat → commodity_t

/-- The pointer `commodity_t::null_commodity`: the commodity of the empty
symbol, the first one `_init_amounts` creates. -/
def null_commodity : Nat := 0

/-- Modelled from the spec: the conversion of a commodity to `bool` used by the
comparisons (`commodity () && amt.commodity ()`), declared in `amount.h`: a
commodity counts as true exactly when it is not the null commodity. -/
def commodity_bool (c : Nat) : Bool := c != null_commodity

/-- The state of `*this` when a mutating member ends, and what it threw. -/
structure result_t where
  self : amount_t
  thrown : Option failure
deriving DecidableEq, Repr

/-- The sign of a GMP integer: `-1`, `0` or `1`. -/
def mpz_sgn (x : Int) : Int := Int.sign x

/-- The comparison of two GMP integers: negative, zero or positive. -/
def mpz_cmp (a b : Int) : Int := Int.sign (a - b)

/-- The macro `MPZ (x)`, the mantissa of the cell `x` points to. -/
def MPZ (x : Option bigint_t) : Int :=
  match x with
  | some q => q.val
  | none => 0

/-- The function `mpz_round (out, value, value_prec, round_prec)`: the value of
`out` on return.  The quotient that `mpz_tdiv_qr` stores next to the remainder is
never read. -/
def mpz_round (value : Int) (value_prec round_prec : Nat) : Except failure Int :=
  if ¬ (value_prec > round_prec) then .error .assertion else
  let divisor : Int := 10 ^ (value_prec - round_prec)
  let remainder : Int := Int.tmod value divisor
  let divisor : Int := divisor / 10
  let divisor : Int := divisor * 5
  let out : Int :=
    if mpz_sgn remainder < 0 then
      let divisor : Int := -divisor
      if mpz_cmp remainder divisor < 0 then
        let divisor : Int := 10 ^ (value_prec - round_prec)
        let remainder : Int := divisor + remainder
        let remainder : Int := 0 - remainder
        value + remainder
      else
        value - remainder
    else
      if mpz_cmp remainder divisor ≥ 0 then
        let divisor : Int := 10 ^ (value_prec - round_prec)
        let remainder : Int := divisor - remainder
        value + remainder
      else
        value - remainder
  let divisor : Int := 10 ^ (value_prec - round_prec)
  .ok (Int.tdiv out divisor)

namespace amount_t

/-- Modelled from the spec: the accessor `commodity ()` of `amount.h`: the
commodity an amount points to, the null commodity when `commodity_` is `NULL`
(see also the comment in `valid ()`). -/
def commodity (self : amount_t) : Nat :=
  match self.commodity_ with
  | some c => c
  | none => null_commodity

/-- Replace the mantissa of the cell (a write through `MPZ (quantity)`). -/
def set_val (self : amount_t) (v : Int) : amount_t :=
  { self with quantity := self.quantity.map fun q => { q with val := v } }

/-- Replace the precision of the cell (a write to `quantity->prec`). -/
def set_prec (self : amount_t) (p : Nat) : amount_t :=
  { self with quantity := self.quantity.map fun q => { q with prec := p % 65536 } }

/-- The stored precision `quantity->prec`. -/
def prec (self : amount_t) : Nat :=
  match self.quantity with
  | some q => q.prec
  | none => 0

/-- Modelled from the spec: `_clear ()` of `amount.h`: the no-quantity state,
with both the quantity and the commodity cleared. -/
def _clear (_self : amount_t) : amount_t := ⟨none, none⟩

/-- The member `_copy (amt)`: take over the cell and the commodity of `amt`. -/
def _copy (_self amt : amount_t) : amount_t :=
  ⟨amt.quantity, amt.commodity_⟩

/-- The assignment `*this = amt`. -/
def operator_assign (self amt : amount_t) : amount_t :=
  if amt.quantity.isSome then _copy self amt
  else if self.quantity.isSome then _clear self
  else self

/-- The member `_resize (prec)`: bring the cell to the precision `prec`. -/
def _resize (self : amount_t) (prec : Nat) : Except failure amount_t :=
  if ¬ (prec < 256) then .error .assertion else
  match self.quantity with
  | none => .ok self
  | some q =>
    if prec = q.prec then .ok self
    else if prec < q.prec then
      .ok (set_prec (set_val self (Int.tdiv q.val (10 ^ (q.prec - prec)))) prec)
    else
      .ok (set_prec (set_val self (q.val * 10 ^ (prec - q.prec))) prec)

/-- The member `negate ()`. -/
def negate (self : amount_t) : amount_t :=
  if self.quantity.isSome then set_val self (-(MPZ self.quantity)) else self

/-- The member `sign ()`. -/
def sign (self : amount_t) : Int :=
  match self.quantity with
  | some q => mpz_sgn q.val
  | none => 0

/-- The member `round (prec)`: a rounded copy of the amount. -/
def round (self : amount_t) (prec : Nat) : Except failure amount_t :=
  match self.quantity with
  | none => .ok self
  | some q =>
    if q.prec ≤ prec then .ok self
    else
      match mpz_round q.val q.prec prec with
      | .error e => .error e
      | .ok out => .ok (set_prec (set_val self out) prec)

/-- The conversion `operator bool ()`. -/
def operator_bool (cs : commodities_t) (self : amount_t) : Bool :=
  match self.quantity with
  | none => false
  | some q =>
    if q.prec ≤ (cs self.commodity).precision then
      mpz_sgn q.val != 0
    else
      let temp : Int := q.val
      let divisor : Int :=
        if self.commodity_.isSome then 10 ^ (q.prec - (cs self.commodity).precision)
        else 10 ^ q.prec
      let temp : Int := Int.tdiv temp divisor
      let zero : Bool := mpz_sgn temp == 0
      !zero

/-- The member `operator+= (amt)`. -/
def operator_plus_eq (self amt : amount_t) : result_t :=
  match amt.quantity with
  | none => ⟨self, none⟩
  | some aq =>
    match self.quantity with
    | none => ⟨_copy self amt, none⟩
    | some q =>
      if self.commodity_ ≠ amt.commodity_ then
        ⟨self, some (.amount_error "Adding amounts with different commodities")⟩
      else if q.prec = aq.prec then
        ⟨set_val self (q.val + aq.val), none⟩
      else if q.prec < aq.prec then
        match _resize self aq.prec with
        | .error e => ⟨self, some e⟩
        | .ok self => ⟨set_val self (MPZ self.quantity + aq.val), none⟩
      else
        match _resize amt q.prec with
        | .error e => ⟨self, some e⟩
        | .ok temp => ⟨set_val self (q.val + MPZ temp.quantity), none⟩

/-- The member `operator-= (amt)`. -/
def operator_minus_eq (self amt : amount_t) : result_t :=
  match amt.quantity with
  | none => ⟨self, none⟩
  | some aq =>
    match self.quantity with
    | none => ⟨⟨some ⟨-aq.val, aq.prec⟩, amt.commodity_⟩, none⟩
    | some q =>
      if self.commodity_ ≠ amt.commodity_ then
        ⟨self, some (.amount_error "Subtracting amounts with different commodities")⟩
      else if q.prec = aq.prec then
        ⟨set_val self (q.val - aq.val), none⟩
      else if q.prec < aq.prec then
        match _resize self aq.prec with
        | .error e => ⟨self, some e⟩
        | .ok self => ⟨set_val self (MPZ self.quantity - aq.val), none⟩
      else
        match _resize amt q.prec with
        | .error e => ⟨self, some e⟩
        | .ok temp => ⟨set_val self (q.val - MPZ temp.quantity), none⟩

/-- The trim shared by `operator*=` and `operator/=`: when the stored precision
exceeds the display precision of the commodity by more than six digits, round
to six digits more than the display precision. -/
def trim (cs : commodities_t) (self : amount_t) : result_t :=
  let comm_prec : Nat := (cs self.commodity).precision
  if self.prec > comm_prec + 6 then
    match mpz_round (MPZ self.quantity) self.prec (comm_prec + 6) with
    | .error e => ⟨self, some e⟩
    | .ok out => ⟨set_prec (set_val self out) (comm_prec + 6), none⟩
  else
    ⟨self, none⟩

/-- The member `operator*= (amt)`. -/
def operator_mul_eq (cs : commodities_t) (self amt : amount_t) : result_t :=
  match amt.quantity with
  | none => ⟨operator_assign self amt, none⟩
  | some aq =>
    match self.quantity with
    | none => ⟨self, none⟩
    | some q =>
      let self := set_val self (q.val * aq.val)
      let self := set_prec self (q.prec + aq.prec)
      trim cs self

/-- The member `operator/= (amt)`. -/
def operator_div_eq (cs : commodities_t) (self amt : amount_t) : result_t :=
  match amt.quantity with
  | none => ⟨self, some (.amount_error "Divide by zero")⟩
  | some aq =>
    if !(operator_bool cs amt) then
      ⟨self, some (.amount_error "Divide by zero")⟩
    else
      match self.quantity with
      | none => ⟨self, none⟩
      | some q =>
        let divisor : Int := 10 ^ (aq.prec + 6)
        let self := set_val self (q.val * divisor)
        let self := set_val self (Int.tdiv (MPZ self.quantity) aq.val)
        let self := set_prec self (q.prec + 6)
        trim cs self

/-- Modelled from the spec: the comparison `amt OP 0` of an amount with the
integer zero, declared in `amount.h`: the amount is compared numerically against
zero, that is, its `sign ()` is compared with `0`. -/
def cmp_int_zero (OP : Int → Int → Bool) (amt : amount_t) : Bool :=
  OP (sign amt) 0

/-- The macro `AMOUNT_CMP_AMOUNT (OP)`: the comparison `*this OP amt`. -/
def AMOUNT_CMP_AMOUNT (OP : Int → Int → Bool) (self amt : amount_t) :
    Except failure Bool :=
  match self.quantity with
  | none => .ok (cmp_int_zero OP amt)
  | some q =>
    match amt.quantity with
    | none => .ok (cmp_int_zero OP self)
    | some aq =>
      if commodity_bool self.commodity && commodity_bool amt.commodity &&
          self.commodity != amt.commodity then
        .ok false
      else if q.prec = aq.prec then
        .ok (OP (mpz_cmp q.val aq.val) 0)
      else if q.prec < aq.prec then
        match _resize self aq.prec with
        | .error e => .error e
        | .ok temp => .ok (OP (mpz_cmp (MPZ temp.quantity) aq.val) 0)
      else
        match _resize amt q.prec with
        | .error e => .error e
        | .ok temp => .ok (OP (mpz_cmp q.val (MPZ temp.quantity)) 0)

/-- The comparison `*this < amt`. -/
def operator_lt : amount_t → amount_t → Except failure Bool :=
  AMOUNT_CMP_AMOUNT fun x y => decide (x < y)

/-- The comparison `*this <= amt`. -/
def operator_le : amount_t → amount_t → Except failure Bool :=
  AMOUNT_CMP_AMOUNT fun x y => decide (x ≤ y)

/-- The comparison `*this > amt`. -/
def operator_gt : amount_t → amount_t → Except failure Bool :=
  AMOUNT_CMP_AMOUNT fun x y => decide (x > y)

/-- The comparison `*this >= amt`. -/
def operator_ge : amount_t → amount_t → Except failure Bool :=
  AMOUNT_CMP_AMOUNT fun x y => decide (x ≥ y)

/-- The comparison `*this == amt`. -/
def operator_eq : amount_t → amount_t → Except failure Bool :=
  AMOUNT_CMP_AMOUNT fun x y => decide (x = y)

/-- The member `valid ()`, on the part of the state the embedding keeps: an
amount without quantity has no commodity. -/
def valid (self : amount_t) : Bool :=
  if self.quantity.isSome then true
  else if self.commodity_.isSome then false
  else true

/-- The numeric value of an amount, `mantissa / 10 ^ precision`, an amount
without quantity counting as zero. -/
def numeric_value (self : amount_t) : ℚ :=
  match self.quantity with
  | some q => (q.val : ℚ) / 10 ^ q.prec
  | none => 0

end amount_t

/-- The zero amount: no quantity and no commodity. -/
def zero : amount_t := ⟨none, none⟩

/-- The truthiness of an amount as the specification words it: false without a
quantity, and otherwise whether the mantissa, truncated toward zero to the display
precision of the commodity (the null commodity when the amount carries none), is
non-zero. -/
def truthiness_by_display_precision (cs : commodities_t) (a : amount_t) : Bool :=
  match a.quantity with
  | none => false
  | some q => Int.tdiv q.val (10 ^ (q.prec - (cs a.commodity).precision)) != 0

/-- A registry for the examples: commodity 1 is `$` with display precision 2, and
every other pointer, the null commodity among them, is a commodity of display
precision 0. -/
def dollars : commodities_t := fun c =>
  if c = 1 then ⟨"$", false, 2, 0, none, none, none⟩
  else ⟨"", false, 0, 0, none, none, none⟩

/-- A registry for the examples in which the null commodity has display
precision 2, as it has once `-0,50` has been parsed. -/
def null_precision_two : commodities_t := fun _ => ⟨"", false, 2, 0, none, none, none⟩

/-! ## Price history -/

/-- Modelled from the spec: the callback type `commodity_t::updater_t`, declared
in `amount.h`: called with the commodity, the requested moment, the age of the
price found, the latest moment of the history and the price, it gives the price
to use. -/
abbrev updater_t := commodity_t → Int → Int → Int → amount_t → amount_t

/-- The position `prices.lower_bound (moment)` of a map: the first entry whose
time is not less than `moment`, the length of the list standing for `end ()`. -/
def lower_bound : history_map → Int → Nat
  | [], _ => 0
  | p :: ps, moment => if p.1 < moment then lower_bound ps moment + 1 else 0

namespace commodity_t

/-- The member `commodity_t::value (moment)`, with the static `updater` as a
parameter.  The test `difftime (moment, age) != 0` is the test that the two times
differ.  Dereferencing an iterator that points at no entry is a failure. -/
def value (self : commodity_t) (updater : Option updater_t) (moment : Int) :
    Except failure amount_t :=
  let age : Int := 0
  let price : amount_t := ⟨none, none⟩
  let found : Except failure (Int × amount_t) :=
    match self.history with
    | none => .ok (age, price)
    | some prices =>
      if ¬ (prices.length > 0) then .error .assertion
      else if moment = 0 then
        match prices.getLast? with
        | none => .error .assertion
        | some r => .ok (r.1, amount_t.operator_assign price r.2)
      else
        let i : Nat := lower_bound prices moment
        if i = prices.length then
          match prices.getLast? with
          | none => .error .assertion
          | some r => .ok (r.1, amount_t.operator_assign price r.2)
        else
          match prices[i]? with
          | none => .error .assertion
          | some e =>
            let age : Int := e.1
            if moment - age ≠ 0 then
              if i ≠ 0 then
                match prices[i - 1]? with
                | none => .error .assertion
                | some e => .ok (e.1, amount_t.operator_assign price e.2)
              else
                .ok (0, price)
            else
              .ok (age, amount_t.operator_assign price e.2)
  match found with
  | .error e => .error e
  | .ok (age, price) =>
    match updater with
    | some u =>
      let latest : Int :=
        match self.history with
        | some prices =>
          match prices.getLast? with
          | some r => r.1
          | none => 0
        | none => 0
      .ok (u self moment age latest price)
    | none => .ok price

end commodity_t

/-- A commodity for the examples whose history holds the single price 5 at
time 10. -/
def priced_at_ten : commodity_t :=
  ⟨"AAPL", false, 0, 0, none, none, some [(10, ⟨some ⟨5, 0⟩, some 1⟩)]⟩

/-- A commodity for the examples with the prices 5 at time 10, 6 at time 20 and
7 at time 30. -/
def priced_thrice : commodity_t :=
  ⟨"AAPL", false, 0, 0, none, none,
    some [(10, ⟨some ⟨5, 0⟩, some 1⟩), (20, ⟨some ⟨6, 0⟩, some 1⟩),
      (30, ⟨some ⟨7, 0⟩, some 1⟩)]⟩

/-! ## Quantity cells in memory

The members once more, this time with the quantity cells in a memory and the
amounts as handles on them, so that sharing, reference counts and the serializer
index can be stated.  The right operand of a binary member is another object
than `*this`. -/

namespace store

/-- The cell `amount_t::bigint_t` with all its fields: mantissa, precision
(`unsigned short`), flags (`unsigned short`), reference count (`unsigned int`)
and serializer index (`unsigned int`). -/
structure bigint_t where
  val : Int
  prec : Nat
  flags : Nat
  ref : Nat
  index : Nat
deriving DecidableEq, Repr

/-- The flag `BIGINT_BULK_ALLOC`. -/
def BIGINT_BULK_ALLOC : Nat := 1

/-- An amount as the two pointers it consists of: to its quantity cell and to
its commodity. -/
structure amount_t where
  quantity : Option Nat
  commodity_ : Option Nat
deriving DecidableEq, Repr

/-- The memory of the quantity cells: the cell at each address, if one lives
there, and the address the next `new` hands out. -/
structure heap_t where
  cells : Nat → Option bigint_t
  next : Nat

namespace heap_t

/-- Read the cell at an address (all fields zero where no cell lives). -/
def get (h : heap_t) (p : Nat) : bigint_t :=
  match h.cells p with
  | some q => q
  | none => ⟨0, 0, 0, 0, 0⟩

/-- Write the cell at an address. -/
def set (h : heap_t) (p : Nat) (q : bigint_t) : heap_t :=
  { h with cells := fun x => if x = p then some q else h.cells x }

/-- The effect of `delete` on the cell at an address. -/
def free (h : heap_t) (p : Nat) : heap_t :=
  { h with cells := fun x => if x = p then none else h.cells x }

/-- The effect of `new` with the given initial cell: the memory afterwards, and
the address of the new cell. -/
def alloc (h : heap_t) (q : bigint_t) : heap_t × Nat :=
  (⟨fun x => if x = h.next then some q else h.cells x, h.next + 1⟩, h.next)

end heap_t

/-- The state after a member ends: the memory, `*this`, and what was thrown. -/
structure result_t where
  heap : heap_t
  self : amount_t
  thrown : Option failure

namespace amount_t

/-- Modelled from the spec: the accessor `commodity ()` of `amount.h`, the null
commodity standing in for `NULL`. -/
def commodity (self : amount_t) : Nat :=
  match self.commodity_ with
  | some c => c
  | none => null_commodity

/-- The cell `*quantity` of an amount. -/
def cell (h : heap_t) (self : amount_t) : bigint_t :=
  match self.quantity with
  | some p => h.get p
  | none => ⟨0, 0, 0, 0, 0⟩

/-- A write to the cell `*quantity` of an amount. -/
def put (h : heap_t) (self : amount_t) (q : bigint_t) : heap_t :=
  match self.quantity with
  | some p => h.set p q
  | none => h

/-- The amount as the members of the first part see it: the mantissa and the
precision of its cell, and its commodity. -/
def view (h : heap_t) (self : amount_t) : ledger.amount_t :=
  ⟨self.quantity.map fun p => ⟨(h.get p).val, (h.get p).prec⟩, self.commodity_⟩

/-- The member `_release ()`; the decrement is that of an `unsigned int`. -/
def _release (h : heap_t) (self : amount_t) : heap_t :=
  match self.quantity with
  | none => h
  | some p =>
    let q : bigint_t :=
      { h.get p with ref := if (h.get p).ref = 0 then 4294967295 else (h.get p).ref - 1 }
    if q.ref = 0 then
      if q.flags &&& BIGINT_BULK_ALLOC = 0 then h.free p
      else h.set p q
    else h.set p q

/-- The member `_dup ()`. -/
def _dup (h : heap_t) (self : amount_t) : heap_t × amount_t :=
  if (cell h self).ref > 1 then
    let a := h.alloc ⟨(cell h self).val, (cell h self).prec, 0, 1, 0⟩
    (_release a.1 self, { self with quantity := some a.2 })
  else (h, self)

/-- The member `_copy (amt)`. -/
def _copy (h : heap_t) (self amt : amount_t) : heap_t × amount_t :=
  if self.quantity ≠ amt.quantity then
    let h : heap_t := if self.quantity.isSome then _release h self else h
    if (cell h amt).flags &&& BIGINT_BULK_ALLOC ≠ 0 then
      let a := h.alloc ⟨(cell h amt).val, (cell h amt).prec, 0, 1, 0⟩
      (a.1, ⟨some a.2, amt.commodity_⟩)
    else
      (put h amt { cell h amt with ref := ((cell h amt).ref + 1) % 4294967296 },
        ⟨amt.quantity, amt.commodity_⟩)
  else (h, { self with commodity_ := amt.commodity_ })

/-- Modelled from the spec: the copy constructor of `amount.h`: a copy shares
the cell and counts as one more reference; a cell of the arena is copied
deeply. -/
def copy_of (h : heap_t) (amt : amount_t) : heap_t × amount_t :=
  if amt.quantity.isSome then _copy h ⟨none, none⟩ amt else (h, ⟨none, none⟩)

/-- Modelled from the spec: the destructor of `amount.h`: an amount that goes
away releases its cell. -/
def destroy (h : heap_t) (self : amount_t) : heap_t :=
  if self.quantity.isSome then _release h self else h

/-- Modelled from the spec: `_clear ()` of `amount.h`: release the cell and
clear both pointers. -/
def _clear (h : heap_t) (self : amount_t) : heap_t × amount_t :=
  if self.quantity.isSome then (_release h self, ⟨none, none⟩) else (h, ⟨none, none⟩)

/-- The assignment `*this = amt`. -/
def operator_assign (h : heap_t) (self amt : amount_t) : heap_t × amount_t :=
  if amt.quantity.isSome then _copy h self amt
  else if self.quantity.isSome then _clear h self
  else (h, self)

/-- The member `_resize (prec)`. -/
def _resize (h : heap_t) (self : amount_t) (prec : Nat) : result_t :=
  if ¬ (prec < 256) then ⟨h, self, some .assertion⟩
  else if self.quantity.isNone || prec = (cell h self).prec then ⟨h, self, none⟩
  else
    let d := _dup h self
    let q : bigint_t := cell d.1 d.2
    if prec < q.prec then
      ⟨put d.1 d.2 { q with val := Int.tdiv q.val (10 ^ (q.prec - prec)),
                            prec := prec % 65536 }, d.2, none⟩
    else
      ⟨put d.1 d.2 { q with val := q.val * 10 ^ (prec - q.prec),
                            prec := prec % 65536 }, d.2, none⟩

/-- The member `negate ()`. -/
def negate (h : heap_t) (self : amount_t) : result_t :=
  if self.quantity.isSome then
    let d := _dup h self
    ⟨put d.1 d.2 { cell d.1 d.2 with val := -(cell d.1 d.2).val }, d.2, none⟩
  else ⟨h, self, none⟩

/-- The common part of `operator+=` and `operator-=` once both amounts have a
quantity, `f` being `mpz_add` or `mpz_sub` and `what` the message of the
exception. -/
def add_or_sub (f : Int → Int → Int) (what : String) (h : heap_t) (self amt : amount_t) :
    result_t :=
  let d := _dup h self
  let h : heap_t := d.1
  let self : amount_t := d.2
  if self.commodity_ ≠ amt.commodity_ then ⟨h, self, some (.amount_error what)⟩
  else if (cell h self).prec = (cell h amt).prec then
    ⟨put h self { cell h self with val := f (cell h self).val (cell h amt).val }, self, none⟩
  else if (cell h self).prec < (cell h amt).prec then
    let r := _resize h self (cell h amt).prec
    match r.thrown with
    | some e => ⟨r.heap, r.self, some e⟩
    | none =>
      ⟨put r.heap r.self
          { cell r.heap r.self with val := f (cell r.heap r.self).val (cell r.heap amt).val },
        r.self, none⟩
  else
    let t := copy_of h amt
    let r := _resize t.1 t.2 (cell t.1 self).prec
    match r.thrown with
    | some e => ⟨r.heap, self, some e⟩
    | none =>
      let h : heap_t :=
        put r.heap self
          { cell r.heap self with val := f (cell r.heap self).val (cell r.heap r.self).val }
      ⟨destroy h r.self, self, none⟩

/-- The member `operator+= (amt)`. -/
def operator_plus_eq (h : heap_t) (self amt : amount_t) : result_t :=
  if amt.quantity.isNone then ⟨h, self, none⟩
  else if self.quantity.isNone then
    let c := _copy h self amt
    ⟨c.1, c.2, none⟩
  else add_or_sub (fun x y => x + y) "Adding amounts with different commodities" h self amt

/-- The member `operator-= (amt)`. -/
def operator_minus_eq (h : heap_t) (self amt : amount_t) : result_t :=
  if amt.quantity.isNone then ⟨h, self, none⟩
  else if self.quantity.isNone then
    let a := h.alloc ⟨(cell h amt).val, (cell h amt).prec, 0, 1, 0⟩
    let self : amount_t := ⟨some a.2, amt.commodity_⟩
    ⟨put a.1 self { cell a.1 self with val := -(cell a.1 self).val }, self, none⟩
  else
    add_or_sub (fun x y => x - y) "Subtracting amounts with different commodities" h self amt

/-- The trim that ends `operator*=` and `operator/=`. -/
def trim (cs : commodities_t) (h : heap_t) (self : amount_t) : result_t :=
  let comm_prec : Nat := (cs self.commodity).precision
  if (cell h self).prec > comm_prec + 6 then
    match mpz_round (cell h self).val (cell h self).prec (comm_prec + 6) with
    | .error e => ⟨h, self, some e⟩
    | .ok out =>
      ⟨put h self { cell h self with val := out, prec := (comm_prec + 6) % 65536 }, self, none⟩
  else ⟨h, self, none⟩

/-- The member `operator*= (amt)`. -/
def operator_mul_eq (cs : commodities_t) (h : heap_t) (self amt : amount_t) : result_t :=
  if amt.quantity.isNone then
    let c := operator_assign h self amt
    ⟨c.1, c.2, none⟩
  else if self.quantity.isNone then ⟨h, self, none⟩
  else
    let d := _dup h self
    let h : heap_t := d.1
    let self : amount_t := d.2
    let h : heap_t :=
      put h self { cell h self with val := (cell h self).val * (cell h amt).val }
    let h : heap_t :=
      put h self { cell h self with prec := ((cell h self).prec + (cell h amt).prec) % 65536 }
    trim cs h self

/-- The member `operator/= (amt)`. -/
def operator_div_eq (cs : commodities_t) (h : heap_t) (self amt : amount_t) : result_t :=
  if amt.quantity.isNone || !(ledger.amount_t.operator_bool cs (view h amt)) then
    ⟨h, self, some (.amount_error "Divide by zero")⟩
  else if self.quantity.isNone then ⟨h, self, none⟩
  else
    let d := _dup h self
    let h : heap_t := d.1
    let self : amount_t := d.2
    let divisor : Int := 10 ^ ((cell h amt).prec + 6)
    let h : heap_t := put h self { cell h self with val := (cell h self).val * divisor }
    let h : heap_t :=
      put h self { cell h self with val := Int.tdiv (cell h self).val (cell h amt).val }
    let h : heap_t := put h self { cell h self with prec := ((cell h self).prec + 6) % 65536 }
    trim cs h self

end amount_t

end store

namespace store

/-- No cell lives at or beyond the address the next `new` hands out. -/
def fresh (h : heap_t) : Prop := ∀ x, h.next ≤ x → h.cells x = none

/-- The state in which the handle `b` has left the cell at `p`, which it shared,
for a cell of its own: the cell at `p` is the cell `c0` with one reference less,
and the cell of `b` is another one, with the reference count 1. -/
def detached (h : heap_t) (p : Nat) (c0 : bigint_t) (b : amount_t) : Prop :=
  h.cells p = some { c0 with ref := c0.ref - 1 } ∧
  ∃ p' c', b.quantity = some p' ∧ p' ≠ p ∧ h.cells p' = some c' ∧ c'.ref = 1

/-- A memory for the examples: one cell at address 0, the mantissa 15 at
precision 1, referenced twice. -/
def one_shared_cell : heap_t :=
  ⟨fun x => if x = 0 then some ⟨15, 1, 0, 2, 0⟩ else none, 1⟩

end store

namespace store

/-- The state while a temporary handle `t` is at work next to the detached handle
on the cell at `p'`: the cell at `p` is the cell `c0` up to its reference count,
which is at least 1, and at least 2 while `t` is a handle on it; the cell at `p'`
has the reference count 1 and `t` is no handle on it; and `t` points at a cell
below the next address. -/
def guarded (h : heap_t) (p : Nat) (c0 : bigint_t) (p' : Nat) (t : amount_t) : Prop :=
  (∃ n, h.cells p = some { c0 with ref := n } ∧ 1 ≤ n ∧ n < 4294967296 ∧
    (t.quantity = some p → 2 ≤ n)) ∧
  (∃ c', h.cells p' = some c' ∧ c'.ref = 1) ∧
  p ≠ p' ∧ p < h.next ∧ p' < h.next ∧ t.quantity ≠ some p' ∧
  (∀ pt, t.quantity = some pt → pt < h.next)

end store

namespace store

/-- The outcome for two handles that shared the cell at `p`: the cell at `p` is
still the cell `c0` up to its reference count, which is at least 1, and the
handle `b` is on another cell, whose reference count is 1. -/
def separated (h : heap_t) (p : Nat) (c0 : bigint_t) (b : amount_t) : Prop :=
  (∃ n, h.cells p = some { c0 with ref := n } ∧ 1 ≤ n) ∧
  ∃ p' c', b.quantity = some p' ∧ p' ≠ p ∧ h.cells p' = some c' ∧ c'.ref = 1

end store

/-! ## The binary codec

Bytes are natural numbers below 256, a stream is the list of its bytes, and
`be` says whether the host stores the most significant byte of an integer first.
A reader that runs out of bytes gives no result. -/

namespace store

/-- The globals of the codec: the arena `bigints`, the next free slot
`bigints_next` (addresses in units of one cell), and the two counters. -/
structure globals_t where
  bigints : Nat
  bigints_next : Nat
  bigints_index : Nat
  bigints_count : Nat
deriving DecidableEq, Repr

/-- The two bytes of an `unsigned short` in the memory of the host. -/
def u16_bytes (be : Bool) (n : Nat) : List Nat :=
  if be then [n / 256 % 256, n % 256] else [n % 256, n / 256 % 256]

/-- The `unsigned short` that two bytes of the memory of the host make up. -/
def u16_of (be : Bool) (b0 b1 : Nat) : Nat :=
  if be then b0 * 256 + b1 else b1 * 256 + b0

/-- The four bytes of an `unsigned int` in the memory of the host. -/
def u32_bytes (be : Bool) (n : Nat) : List Nat :=
  if be then [n / 16777216 % 256, n / 65536 % 256, n / 256 % 256, n % 256]
  else [n % 256, n / 256 % 256, n / 65536 % 256, n / 16777216 % 256]

/-- The `unsigned int` that four bytes of the memory of the host make up. -/
def u32_of (be : Bool) (b0 b1 b2 b3 : Nat) : Nat :=
  if be then b0 * 16777216 + b1 * 65536 + b2 * 256 + b3
  else b3 * 16777216 + b2 * 65536 + b1 * 256 + b0

/-- The bytes of a sequence of 16-bit words, each in the byte order of the
host. -/
def words_bytes (be : Bool) : List Nat → List Nat
  | [] => []
  | w :: ws => u16_bytes be w ++ words_bytes be ws

/-- The count `size` that `mpz_export (buf, &size, 1, sizeof (short), 0, 0, op)`
reports: the number of 16-bit words of the magnitude of `op`. -/
def mpz_export_size (op : Int) : Nat := (Nat.digits 65536 op.natAbs).length

/-- The bytes that `mpz_export (buf, &size, 1, sizeof (short), 0, 0, op)` stores:
the 16-bit words of the magnitude of `op`, the most significant word first, each
word in the byte order of the host. -/
def mpz_export (be : Bool) (op : Int) : List Nat :=
  words_bytes be (Nat.digits 65536 op.natAbs).reverse

/-- The value `mpz_import (rop, count, 1, sizeof (short), 0, 0, data)` gives to
`rop`, with the words read so far in `acc`: `count` 16-bit words, the most
significant word first, each in the byte order of the host. -/
def mpz_import (be : Bool) : Nat → List Nat → Nat → Nat
  | 0, _, acc => acc
  | count + 1, b0 :: b1 :: data, acc =>
    mpz_import be count data (acc * 65536 + u16_of be b0 b1)
  | _ + 1, _, acc => acc

/-- The state after `write_quantity`: memory, globals, the bytes written, and a
failure if one occurred. -/
structure written_t where
  heap : heap_t
  globals : globals_t
  out : List Nat
  thrown : Option failure

/-- The state after `read_quantity`: memory, globals, `*this`, the bytes not yet
read, and a failure if one occurred. -/
structure read_t where
  heap : heap_t
  globals : globals_t
  self : amount_t
  rest : List Nat
  thrown : Option failure

namespace amount_t

/-- The member `write_quantity (out)`.  An export that does not fit the 4096
bytes of `buf` counts as a failed assertion. -/
def write_quantity (be : Bool) (g : globals_t) (h : heap_t) (self : amount_t) : written_t :=
  match self.quantity with
  | none => ⟨h, g, [0], none⟩
  | some p =>
    if (h.get p).index = 0 then
      let g : globals_t := { g with bigints_index := (g.bigints_index + 1) % 4294967296 }
      let h : heap_t := h.set p { h.get p with index := g.bigints_index }
      let g : globals_t := { g with bigints_count := (g.bigints_count + 1) % 4294967296 }
      let byte : Nat := 1
      let out : List Nat := [byte]
      let size : Nat := mpz_export_size (h.get p).val
      if 4096 < size * 2 then ⟨h, g, out, some .assertion⟩ else
      let len : Nat := (size * 2) % 65536
      let out : List Nat := out ++ u16_bytes be len
      if len ≠ 0 ∧ ¬ (len < 4096) then ⟨h, g, out, some .assertion⟩ else
      let out : List Nat := if len ≠ 0 then out ++ (mpz_export be (h.get p).val).take len else out
      let byte : Nat := if mpz_sgn (h.get p).val < 0 then 1 else 0
      let out : List Nat := out ++ [byte]
      let out : List Nat := out ++ u16_bytes be (h.get p).prec
      ⟨h, g, out, none⟩
    else
      if ¬ ((h.get p).ref > 1) then ⟨h, g, [], some .assertion⟩ else
      let byte : Nat := 2
      ⟨h, g, [byte] ++ u32_bytes be (h.get p).index, none⟩

/-- The member `read_quantity (std::istream&)`. -/
def read_quantity_stream (be : Bool) (g : globals_t) (h : heap_t) (self : amount_t)
    (input : List Nat) : Option read_t :=
  match input with
  | [] => none
  | byte :: input =>
    if byte = 0 then some ⟨h, g, { self with quantity := none }, input, none⟩
    else if byte = 1 then
      let a := h.alloc ⟨0, 0, 0, 1, 0⟩
      let h : heap_t := a.1
      let self : amount_t := { self with quantity := some a.2 }
      match input with
      | l0 :: l1 :: input =>
        let len : Nat := u16_of be l0 l1
        if ¬ (len < 4096) then some ⟨h, g, self, input, some .assertion⟩
        else if input.length < len then none
        else
          let buf : List Nat := input.take len
          let input : List Nat := input.drop len
          let h : heap_t :=
            put h self { cell h self with val := (mpz_import be (len / 2) buf 0 : Nat) }
          match input with
          | negative :: p0 :: p1 :: input =>
            let h : heap_t :=
              if negative ≠ 0 then put h self { cell h self with val := -(cell h self).val }
              else h
            let h : heap_t := put h self { cell h self with prec := u16_of be p0 p1 }
            some ⟨h, g, self, input, none⟩
          | _ => none
      | _ => none
    else some ⟨h, g, self, input, some .assertion⟩

/-- The member `read_quantity (char *&)`, which reads into the arena. -/
def read_quantity (be : Bool) (g : globals_t) (h : heap_t) (self : amount_t)
    (data : List Nat) : Option read_t :=
  match data with
  | [] => none
  | byte :: data =>
    if byte = 0 then some ⟨h, g, { self with quantity := none }, data, none⟩
    else if byte = 1 then
      let self : amount_t := { self with quantity := some g.bigints_next }
      let h : heap_t := h.set g.bigints_next ⟨0, 0, 0, 1, 0⟩
      let g : globals_t := { g with bigints_next := g.bigints_next + 1 }
      let h : heap_t :=
        put h self { cell h self with
          flags := ((cell h self).flags ||| BIGINT_BULK_ALLOC) % 65536 }
      match data with
      | l0 :: l1 :: data =>
        let len : Nat := u16_of be l0 l1
        if data.length < len then none
        else
          let h : heap_t :=
            put h self { cell h self with val := (mpz_import be (len / 2) data 0 : Nat) }
          let data : List Nat := data.drop len
          match data with
          | negative :: p0 :: p1 :: data =>
            let h : heap_t :=
              if negative ≠ 0 then put h self { cell h self with val := -(cell h self).val }
              else h
            let h : heap_t := put h self { cell h self with prec := u16_of be p0 p1 }
            some ⟨h, g, self, data, none⟩
          | _ => none
      | _ => none
    else
      match data with
      | i0 :: i1 :: i2 :: i3 :: data =>
        let index : Nat := u32_of be i0 i1 i2 i3
        let self : amount_t :=
          { self with
            quantity := some (g.bigints + (if index = 0 then 4294967295 else index - 1)) }
        let h : heap_t :=
          put h self { cell h self with ref := ((cell h self).ref + 1) % 4294967296 }
        some ⟨h, g, self, data, none⟩
      | _ => none

end amount_t

/-- Write a sequence of amounts one after the other with `write_quantity`,
stopping at the first failure. -/
def write_all (be : Bool) (g : globals_t) (h : heap_t) : List amount_t → written_t
  | [] => ⟨h, g, [], none⟩
  | a :: rest =>
    let w := amount_t.write_quantity be g h a
    match w.thrown with
    | some e => ⟨w.heap, w.globals, w.out, some e⟩
    | none =>
      let ws := write_all be w.globals w.heap rest
      ⟨ws.heap, ws.globals, w.out ++ ws.out, ws.thrown⟩

/-- The state after reading a sequence of amounts: memory, globals, the amounts
read, the bytes not yet read, and a failure if one occurred. -/
structure read_all_t where
  heap : heap_t
  globals : globals_t
  amounts : List amount_t
  rest : List Nat
  thrown : Option failure

/-- Read a number of amounts one after the other with the arena reader, each
into a fresh amount, stopping at the first failure. -/
def read_all (be : Bool) (g : globals_t) (h : heap_t) : Nat → List Nat → Option read_all_t
  | 0, data => some ⟨h, g, [], data, none⟩
  | n + 1, data =>
    match amount_t.read_quantity be g h ⟨none, none⟩ data with
    | none => none
    | some r =>
      match r.thrown with
      | some e => some ⟨r.heap, r.globals, [r.self], r.rest, some e⟩
      | none =>
        match read_all be r.globals r.heap n r.rest with
        | none => none
        | some rs => some ⟨rs.heap, rs.globals, r.self :: rs.amounts, rs.rest, rs.thrown⟩

end store

namespace store

/-- The record of a cell that is written for the first time: tag 1, the length
of the magnitude, the magnitude, the sign byte and the precision. -/
def tag1_record (be : Bool) (val : Int) (prec : Nat) : List Nat :=
  [1] ++ u16_bytes be (mpz_export_size val * 2) ++ mpz_export be val ++
    [if val < 0 then 1 else 0] ++ u16_bytes be prec

/-- The record of a cell that has been written before: tag 2 and its index. -/
def tag2_record (be : Bool) (index : Nat) : List Nat :=
  [2] ++ u32_bytes be index

/-- A record repeated `n` times. -/
def repeated : Nat → List Nat → List Nat
  | 0, _ => []
  | n + 1, r => r ++ repeated n r

/-- A memory for the examples: one cell at address 7, the mantissa `-70000` at
precision 2, referenced three times and not yet written. -/
def cell_at_seven : heap_t :=
  ⟨fun x => if x = 7 then some ⟨-70000, 2, 0, 3, 0⟩ else none, 8⟩

/-- The memory of a reader for the examples: no cell at all. -/
def no_cell : heap_t := ⟨fun _ => none, 0⟩

end store

namespace store

/-- The number of amounts of a list that are handles on the cell at `p`. -/
def references (amounts : List amount_t) (p : Nat) : Nat :=
  amounts.countP fun a => decide (a.quantity = some p)

/-- The relation between the memory and counter of a writer and the arena of a
reader that has read what the writer wrote, `B` being the start of the arena and
`R p` the number of records written so far for the cell at `p`: the arena holds
as many cells as the counter says; the indices of the written cells are distinct
and at most the counter; the arena cell of a written cell carries its mantissa
and precision, the flag `BIGINT_BULK_ALLOC`, and the reference count `R p`. -/
def mirrored (B : Nat) (hw : heap_t) (gw : globals_t) (hr : heap_t) (gr : globals_t)
    (R : Nat → Nat) : Prop :=
  gr.bigints = B ∧ gr.bigints_next = B + gw.bigints_index ∧
  (∀ p c, hw.cells p = some c → c.index ≤ gw.bigints_index) ∧
  (∀ p q c d, hw.cells p = some c → hw.cells q = some d → c.index ≠ 0 →
    c.index = d.index → p = q) ∧
  (∀ p c, hw.cells p = some c → c.index ≠ 0 →
    hr.cells (B + (c.index - 1)) = some ⟨c.val, c.prec, BIGINT_BULK_ALLOC, R p, 0⟩ ∧
      1 ≤ R p) ∧
  (∀ p c, hw.cells p = some c → c.index = 0 → R p = 0)

/-- What the writer needs of the amounts still to be written: each points at a
living cell whose magnitude fits the export buffer, whose precision is an
`unsigned short`, and whose reference count (an `unsigned int`) covers the
records written so far and the handles still to come; and the counter has room
for as many cells as there are amounts. -/
def writable (hw : heap_t) (gw : globals_t) (R : Nat → Nat) (amounts : List amount_t) :
    Prop :=
  gw.bigints_index + amounts.length < 4294967296 ∧
  ∀ a ∈ amounts, ∀ p, a.quantity = some p →
    ∃ c, hw.cells p = some c ∧ mpz_export_size c.val * 2 < 4096 ∧ c.prec < 65536 ∧
      R p + references amounts p ≤ c.ref ∧ c.ref < 4294967296

end store

namespace store

/-- Every cell of the first memory lives in the second with the same mantissa,
precision and reference count, and with the same index if it had one. -/
def stable (h h' : heap_t) : Prop :=
  ∀ p c, h.cells p = some c →
    ∃ c', h'.cells p = some c' ∧ c'.val = c.val ∧ c'.prec = c.prec ∧ c'.ref = c.ref ∧
      (c.index ≠ 0 → c'.index = c.index)

end store

/-! ## The textual parser -/

/-- Modelled from the spec: the display flag `COMMODITY_STYLE_DEFAULTS` of
`amount.h`, which is not among the sources: no flag at all. -/
def COMMODITY_STYLE_DEFAULTS : Nat := 0

/-- Modelled from the spec: the display flag `COMMODITY_STYLE_SUFFIXED` of
`amount.h`: the symbol is printed after the number.  Every flag is one bit. -/
def COMMODITY_STYLE_SUFFIXED : Nat := 1

/-- Modelled from the spec: the display flag `COMMODITY_STYLE_SEPARATED` of
`amount.h`: one space stands between the number and the symbol. -/
def COMMODITY_STYLE_SEPARATED : Nat := 2

/-- Modelled from the spec: the display flag `COMMODITY_STYLE_EUROPEAN` of
`amount.h`: the comma is the decimal mark and the period groups thousands. -/
def COMMODITY_STYLE_EUROPEAN : Nat := 4

/-- Modelled from the spec: the display flag `COMMODITY_STYLE_THOUSANDS` of
`amount.h`: the integer part is printed in groups of three digits. -/
def COMMODITY_STYLE_THOUSANDS : Nat := 8

/-- Modelled from the spec: the display flag `COMMODITY_STYLE_NOMARKET` of
`amount.h`: the commodity is never priced. -/
def COMMODITY_STYLE_NOMARKET : Nat := 16

/-- Modelled from the spec: the display flag `COMMODITY_STYLE_VARIABLE` of
`amount.h`: the amount is printed at its own stored precision. -/
def COMMODITY_STYLE_VARIABLE : Nat := 32

/-- Modelled from the spec: the display flag `COMMODITY_STYLE_BUILTIN` of
`amount.h`: the commodity was created by the library itself. -/
def COMMODITY_STYLE_BUILTIN : Nat := 64

/-- Modelled from the spec: the parse flag `AMOUNT_PARSE_NO_MIGRATE` of
`amount.h`: a commodity seen before keeps its display flags and precision. -/
def AMOUNT_PARSE_NO_MIGRATE : Nat := 1

/-- Modelled from the spec: the parse flag `AMOUNT_PARSE_NO_REDUCE` of
`amount.h`: the parsed amount is not reduced to the smallest unit. -/
def AMOUNT_PARSE_NO_REDUCE : Nat := 2

/-- The test `std::isspace (c)` in the C locale: space, tab, line feed, vertical
tab, form feed and carriage return. -/
def isspace (c : Char) : Bool :=
  c = ' ' || c = Char.ofNat 9 || c = Char.ofNat 10 || c = Char.ofNat 11 ||
    c = Char.ofNat 12 || c = Char.ofNat 13

/-- The test `std::isdigit (c)`: one of the ten decimal digits. -/
def isdigit (c : Char) : Bool := '0' ≤ c && c ≤ '9'

/-- The double quote character. -/
def dquote : Char := Char.ofNat 34

/-- The line feed character. -/
def newline : Char := Char.ofNat 10

/-- The global state of the commodities: the map `commodity_t::commodities` from
symbol to pointer (a `std::map`, read only through `find`, so the order of the
entries plays no role), the commodity objects by pointer, the pointer the next
`new commodity_t` gives, and `commodity_t::default_commodity`. -/
structure registry_t where
  commodities : List (String × Nat)
  objects : commodities_t
  next : Nat
  default_commodity : Option Nat

/-- The member `commodity_t::set_symbol (sym)`: the symbol is stored, and it is
to be quoted when one of its characters is whitespace, a digit, `-` or `.`. -/
def commodity_t.set_symbol (self : commodity_t) (sym : String) : commodity_t :=
  { self with
    symbol := sym
    quote := sym.data.any fun c => isspace c || isdigit c || c = '-' || c = '.' }

/-- Modelled from the spec: the expression `new commodity_t (symbol)`, whose
constructor is declared in `amount.h`: display precision 0, no display flag, no
conversion link and no price history, and the symbol set by `set_symbol`. -/
def new_commodity (symbol : String) : commodity_t :=
  commodity_t.set_symbol ⟨"", false, 0, COMMODITY_STYLE_DEFAULTS, none, none, none⟩ symbol

/-- The function `commodity_t::find_commodity (symbol, auto_create)`: the
registry afterwards and the pointer returned.  The call `add_commodity` of
`amount.h` is modelled from the spec: it enters the pair of the symbol and the
new pointer in the map.  The complement in `~(THOUSANDS | NOMARKET)` is that of
an `unsigned int` of 32 bits. -/
def find_commodity (reg : registry_t) (symbol : String) (auto_create : Bool) :
    registry_t × Option Nat :=
  match reg.commodities.lookup symbol with
  | some c => (reg, some c)
  | none =>
    if auto_create then
      let p := reg.next
      let commodity := new_commodity symbol
      let commodity : commodity_t :=
        match reg.default_commodity with
        | some d =>
          { commodity with
            flags := (reg.objects d).flags &&&
              (4294967295 - (COMMODITY_STYLE_THOUSANDS ||| COMMODITY_STYLE_NOMARKET)) }
        | none => commodity
      ({ reg with
         commodities := (symbol, p) :: reg.commodities
         objects := fun c => if c = p then commodity else reg.objects c
         next := p + 1 }, some p)
    else (reg, none)

/-- Modelled from the spec: the function `peek_next_nonws (in)` of `util.h`,
which is not among the sources: it consumes the whitespace at the head of the
stream (the `WS?` of the grammar); the character it returns is the head of what
remains. -/
def peek_next_nonws (input : List Char) : List Char := input.dropWhile isspace

/-- Modelled from the spec: the macro `READ_INTO (in, buf, size, c, cond)` of
`util.h`, which is not among the sources: it moves characters from the stream to
the buffer for as long as they satisfy `cond`, at most `size` of them.  The
result is the buffer and the rest of the stream; the variable `c` holds the head
of the rest afterwards. -/
def READ_INTO (cond : Char → Bool) : Nat → List Char → List Char × List Char
  | 0, input => ([], input)
  | _ + 1, [] => ([], [])
  | size + 1, c :: rest =>
    if cond c then (c :: (READ_INTO cond size rest).1, (READ_INTO cond size rest).2)
    else ([], c :: rest)

/-- The function `parse_quantity (in, value)`: the string read and the rest of
the stream. -/
def parse_quantity (input : List Char) : List Char × List Char :=
  READ_INTO (fun c => isdigit c || c = '-' || c = '.' || c = ',') 255 (peek_next_nonws input)

/-- The function `parse_commodity (in, symbol)`: the symbol read and the rest of
the stream, or the exception thrown. -/
def parse_commodity (input : List Char) : Except failure (List Char × List Char) :=
  match peek_next_nonws input with
  | [] => .ok (READ_INTO (fun c => !isspace c && !isdigit c && c != '-' && c != '.') 255 [])
  | c :: rest =>
    if c = dquote then
      let r := READ_INTO (fun c => c != dquote) 255 rest
      match r.2 with
      | [] => .error (.amount_error "Quoted commodity symbol lacks closing quote")
      | d :: rest' =>
        if d = dquote then .ok (r.1, rest')
        else .error (.amount_error "Quoted commodity symbol lacks closing quote")
    else
      .ok (READ_INTO (fun c => !isspace c && !isdigit c && c != '-' && c != '.') 255 (c :: rest))

/-- The locals of `amount_t::parse` once the text has been read: the sign seen,
the number string, the symbol, the flags observed so far and the rest of the
stream. -/
structure scanned_t where
  negative : Bool
  quant : List Char
  symbol : List Char
  comm_flags : Nat
  rest : List Char
deriving DecidableEq, Repr

/-- The check `if (quant.empty ()) throw ...` that ends the reading part of
`amount_t::parse`. -/
def scanned (negative : Bool) (quant symbol : List Char) (comm_flags : Nat)
    (rest : List Char) : Except failure scanned_t :=
  if quant = [] then .error (.amount_error "No quantity specified for amount")
  else .ok ⟨negative, quant, symbol, comm_flags, rest⟩

/-- The member `std::string::rfind (c)`: the last position of `c` in the string,
`none` standing for `npos`. -/
def rfind (s : List Char) (c : Char) : Option Nat :=
  match s with
  | [] => none
  | x :: xs =>
    match rfind xs c with
    | some i => some (i + 1)
    | none => if x = c then some 0 else none

/-- The loop of `amount_t::parse` that copies the number string without its
marks: `while (*p) { if (*p == ',' || *p == '.') p++; *t++ = *p++; }`.  After a
mark the next character is copied whatever it is; when the mark is the last
character, the terminator is copied and `p` moves past the end of the string,
which is undefined: `none`. -/
def strip : List Char → Option (List Char)
  | [] => some []
  | [c] => if c = ',' ∨ c = '.' then none else some [c]
  | c :: d :: rest =>
    if c = ',' ∨ c = '.' then (strip rest).map fun t => d :: t
    else (strip (d :: rest)).map fun t => c :: t

/-- The number a string of decimal digits denotes. -/
def decimal (s : List Char) : Nat :=
  s.foldl (fun acc c => 10 * acc + (c.toNat - 48)) 0

/-- The GMP function `mpz_set_str (rop, str, 10)` for a string without
whitespace: the value assigned when the string is an optional `-` followed by at
least one digit and nothing else, and `none` when the string is not a number, in
which case GMP returns `-1` and leaves `rop` as it was. -/
def mpz_set_str (s : List Char) : Option Int :=
  let negative : Bool := s.head? = some '-'
  let digits : List Char := if negative then s.tail else s
  if digits ≠ [] ∧ digits.all isdigit then
    some (if negative then -(decimal digits : Int) else (decimal digits : Int))
  else none
/-- How a call of `amount_t::parse` ends: with behaviour the language leaves
undefined, with an exception, or with the amount, the registry and the rest of
the stream it leaves. -/
inductive parsed_t where
  | undefined
  | thrown (e : failure)
  | done (self : amount_t) (registry : registry_t) (rest : List Char)

/-- How a call of `reduce ()` ends: with behaviour the language leaves
undefined, or with the amount it leaves and what it threw. -/
inductive reduced_t where
  | undefined
  | done (self : amount_t) (thrown : Option failure)
deriving DecidableEq, Repr

namespace amount_t

/-- The member `_init ()` for an amount that does not share its cell: an amount
without a cell gets a new one, of mantissa and precision 0, and a cell that is
present stays.  (A shared cell would be replaced by a new one; the mantissa of
the cell shows only when `mpz_set_str` rejects the string.) -/
def _init (self : amount_t) : amount_t :=
  match self.quantity with
  | none => { self with quantity := some ⟨0, 0⟩ }
  | some _ => self

/-- The reading part of `amount_t::parse (in, flags)`, up to the check that a
number was given. -/
def parse_scan (input : List Char) : Except failure scanned_t :=
  let input := peek_next_nonws input
  let negative : Bool := input.head? = some '-'
  let input := if negative then peek_next_nonws input.tail else input
  let number_first : Bool :=
    match input.head? with
    | some c => isdigit c || c = '.'
    | none => false
  if number_first then
    let q := parse_quantity input
    match q.2 with
    | [] => scanned negative q.1 [] COMMODITY_STYLE_DEFAULTS []
    | n :: rest =>
      if n ≠ newline then
        let comm_flags : Nat :=
          if isspace n then COMMODITY_STYLE_DEFAULTS ||| COMMODITY_STYLE_SEPARATED
          else COMMODITY_STYLE_DEFAULTS
        match parse_commodity (n :: rest) with
        | .error e => .error e
        | .ok s =>
          let comm_flags : Nat :=
            if s.1 ≠ [] then comm_flags ||| COMMODITY_STYLE_SUFFIXED else comm_flags
          scanned negative q.1 s.1 comm_flags s.2
      else scanned negative q.1 [] COMMODITY_STYLE_DEFAULTS (n :: rest)
  else
    match parse_commodity input with
    | .error e => .error e
    | .ok s =>
      let after_space : Bool :=
        match s.2.head? with
        | some c => isspace c
        | none => false
      let comm_flags : Nat :=
        if after_space then COMMODITY_STYLE_DEFAULTS ||| COMMODITY_STYLE_SEPARATED
        else COMMODITY_STYLE_DEFAULTS
      let q := parse_quantity s.2
      scanned negative q.1 s.1 comm_flags q.2

/-- The flags and the precision `amount_t::parse` infers from the marks of the
number string: the observed flags afterwards and the value stored in
`quantity->prec`, given the flags of the default commodity, if there is one, and
the flags of the commodity of the amount. -/
def parse_style (quant : List Char) (comm_flags : Nat) (default_flags : Option Nat)
    (commodity_flags : Nat) : Nat × Nat :=
  match rfind quant ',', rfind quant '.' with
  | some last_comma, some last_period =>
    let comm_flags := comm_flags ||| COMMODITY_STYLE_THOUSANDS
    if last_comma > last_period then
      (comm_flags ||| COMMODITY_STYLE_EUROPEAN, quant.length - last_comma - 1)
    else (comm_flags, quant.length - last_period - 1)
  | some last_comma, none =>
    let european_default : Bool :=
      match default_flags with
      | none => true
      | some f => f &&& COMMODITY_STYLE_EUROPEAN != 0
    if european_default then
      (comm_flags ||| COMMODITY_STYLE_EUROPEAN, quant.length - last_comma - 1)
    else (comm_flags, 0)
  | none, some last_period =>
    if commodity_flags &&& COMMODITY_STYLE_EUROPEAN = 0 then
      (comm_flags, quant.length - last_period - 1)
    else (comm_flags, 0)
  | none, none => (comm_flags, 0)

/-- The lines of `amount_t::parse` that set the flags and the precision of the
commodity `c` of the amount: the observed flags are ORed onto its flags, and its
display precision is raised to the precision `prec` of the amount. -/
def parse_migrate (reg : registry_t) (c : Nat) (comm_flags prec : Nat) : registry_t :=
  let comm : commodity_t := { reg.objects c with flags := (reg.objects c).flags ||| comm_flags }
  let comm : commodity_t :=
    if prec > comm.precision then { comm with precision := prec } else comm
  { reg with objects := fun x => if x = c then comm else reg.objects x }

/-- The lines of `amount_t::parse` that set the mantissa from the buffer with
`mpz_set_str` and negate it when the text began with `-`. -/
def parse_mantissa (self : amount_t) (buf : List Char) (negative : Bool) : amount_t :=
  let self : amount_t :=
    match mpz_set_str buf with
    | some v => set_val self v
    | none => self
  if negative then negate self else self

/-- The member `amount_t::parse (in, flags)` up to and including `negate ()`,
that is, without the final `reduce ()`. -/
def parse_core (reg : registry_t) (self : amount_t) (input : List Char) (flags : Nat) :
    parsed_t :=
  match parse_scan input with
  | .error e => .thrown e
  | .ok sc =>
    let self := _init self
    let symbol : String := String.mk sc.symbol
    let newly_created : Bool := (reg.commodities.lookup symbol).isNone
    let found := find_commodity reg symbol true
    let reg := found.1
    let self : amount_t := { self with commodity_ := found.2 }
    let style := parse_style sc.quant sc.comm_flags
      (reg.default_commodity.map fun d => (reg.objects d).flags) (reg.objects self.commodity).flags
    let comm_flags := style.1
    let self := set_prec self style.2
    let reg : registry_t :=
      if newly_created || flags &&& AMOUNT_PARSE_NO_MIGRATE = 0 then
        parse_migrate reg self.commodity comm_flags self.prec
      else reg
    let buf : Option (List Char) :=
      if (rfind sc.quant ',').isSome || (rfind sc.quant '.').isSome then strip sc.quant
      else some sc.quant
    match buf with
    | none => .undefined
    | some buf => .done (parse_mantissa self buf sc.negative) reg sc.rest

/-- The member `reduce ()`: the loop runs for at most `fuel` tests of its
condition, and `none` says that they did not suffice.  The second statement of
the body reads `commodity ().smaller` anew, after the multiplication: when
`operator*=` has cleared the amount (the `smaller` amount has no quantity),
that is the link of the null commodity, and a null link there is dereferenced,
which is undefined. -/
def reduce (cs : commodities_t) : Nat → amount_t → Option reduced_t
  | 0, _ => none
  | fuel + 1, self =>
    match self.commodity_ with
    | none => some (.done self none)
    | some c =>
      match (cs c).smaller with
      | none => some (.done self none)
      | some smaller =>
        let r := operator_mul_eq cs self smaller
        match r.thrown with
        | some e => some (.done r.self (some e))
        | none =>
          match (cs r.self.commodity).smaller with
          | none => some .undefined
          | some link => reduce cs fuel { r.self with commodity_ := link.commodity_ }

/-- The member `amount_t::parse (in, flags)`, with `fuel` for the loop of
`reduce ()`; `none` says that the fuel did not suffice. -/
def parse (fuel : Nat) (reg : registry_t) (self : amount_t) (input : List Char)
    (flags : Nat) : Option parsed_t :=
  match parse_core reg self input flags with
  | .done self reg rest =>
    if flags &&& AMOUNT_PARSE_NO_REDUCE = 0 then
      match reduce reg.objects fuel self with
      | none => none
      | some .undefined => some .undefined
      | some (.done _ (some e)) => some (.thrown e)
      | some (.done self none) => some (.done self reg rest)
    else some (.done self reg rest)
  | r => some r

end amount_t

/-- The registry right after the null commodity has been created: the empty
symbol at pointer 0, and no default commodity. -/
def initial_registry : registry_t :=
  ⟨[("", null_commodity)], fun _ => new_commodity "", 1, none⟩

/-- The amount a call of `amount_t::parse` leaves, when it returns. -/
def parsed_t.amount (r : parsed_t) : Option amount_t :=
  match r with
  | .done self _ _ => some self
  | _ => none

/-- The commodity object of the parsed amount, as the registry holds it when
`amount_t::parse` returns. -/
def parsed_t.comm (r : parsed_t) : Option commodity_t :=
  match r with
  | .done self registry _ => some (registry.objects self.commodity)
  | _ => none

/-- The marks of a number string: the comma and the period. -/
def mark (c : Char) : Bool := c = ',' || c = '.'

/-- The GMP function `mpz_get_str (NULL, 10, op)` for an `op` that is not
negative: the decimal digits, most significant first, `0` for zero. -/
def mpz_get_str (op : Nat) : List Char := Nat.toDigits 10 op

/-- Modelled from the spec: the test `ledger::abs (last) < 1` of the formatter,
whose `abs` and whose comparison with an integer are declared in `amount.h`,
which is not among the sources: the absolute value of the amount is below one. -/
def abs_below_one (a : amount_t) : Bool :=
  match a.quantity with
  | none => true
  | some q => q.val.natAbs < 10 ^ q.prec

/-- The loop of `operator<<` over the larger units: `last` is divided by the
`larger` amount of its commodity and moved to the commodity of that amount, for
as long as its absolute value stays at least one; the result is `base`, the last
such value.  The loop runs for at most `fuel` tests of its condition, and `none`
says that they did not suffice. -/
def promote (cs : commodities_t) : Nat → amount_t → amount_t → Option (Except failure amount_t)
  | 0, _, _ => none
  | fuel + 1, last, base =>
    match (cs last.commodity).larger with
    | none => some (.ok base)
    | some larger =>
      let r := amount_t.operator_div_eq cs last larger
      match r.thrown with
      | some e => some (.error e)
      | none =>
        let last : amount_t := { r.self with commodity_ := larger.commodity_ }
        if abs_below_one last then some (.ok base)
        else promote cs fuel last last

/-- The loop of `operator<<` that cuts the integer part into groups of three
digits, the lowest group first: the strings pushed onto `strs`.  The loop runs
for at most `fuel` turns, and `none` says that they did not suffice. -/
def group_strs (quotient : Nat) : Nat → Nat → Option (List (List Char))
  | 0, _ => none
  | fuel + 1, powers =>
    if powers > 0 then
      let temp := quotient / 10 ^ powers
      if temp = 0 then some []
      else (group_strs quotient fuel (powers + 3)).map fun strs =>
        mpz_get_str (temp % 1000) :: strs
    else
      (group_strs quotient fuel (powers + 3)).map fun strs =>
        mpz_get_str (quotient % 1000) :: strs

/-- An output with `width (n)` and `fill ('0')` set: the text, with zeros before
it when it is shorter than `n`. -/
def zero_filled (n : Nat) (s : List Char) : List Char :=
  List.replicate (n - s.length) '0' ++ s

/-- The loop of `operator<<` that prints the groups, the highest first: the
first as it is, each later one after the separator and filled with zeros to the
width 3.  The argument holds the groups in the order of printing. -/
def print_groups (separator : Char) : Bool → List (List Char) → List Char
  | _, [] => []
  | printed, s :: rest =>
    (if printed then separator :: zero_filled 3 s else s) ++ print_groups separator true rest

/-- The symbol of a commodity as `operator<<` prints it: inside double quotes
when `quote` is set. -/
def print_symbol (comm : commodity_t) : List Char :=
  if comm.quote then dquote :: (comm.symbol.data ++ [dquote]) else comm.symbol.data

/-- The fractional digits `operator<<` prints for the remainder `rquotient`
at the precision `precision`: the remainder filled with zeros to that width, cut
behind its last digit that is not `0`, but not to fewer than `comm_precision`
characters; the whole of it when it does not end in `0`. -/
def ender (rquotient precision comm_precision : Nat) : List Char :=
  let str := zero_filled precision (mpz_get_str rquotient)
  let len := str.length
  let i := (str.reverse.dropWhile fun c => c = '0').length
  if i = len then str
  else if i < comm_precision then str.take comm_precision
  else str.take i

/-- The lines of `operator<<` that choose the precision of the output and cut
the mantissa of `base` at it: the quotient, the remainder and the precision, or
the failure of `mpz_round`.  The comparison `comm == *commodity_t::null_commodity`
of `amount.h` is modelled from the spec: the commodity is the null commodity. -/
def print_split (cs : commodities_t) (base : amount_t) : Except failure (Int × Int × Nat) :=
  let comm := cs base.commodity
  let val := MPZ base.quantity
  if base.commodity = null_commodity ∨ comm.flags &&& COMMODITY_STYLE_VARIABLE ≠ 0 then
    .ok (Int.tdiv val (10 ^ base.prec), Int.tmod val (10 ^ base.prec), base.prec)
  else if comm.precision < base.prec then
    match mpz_round val base.prec comm.precision with
    | .error e => .error e
    | .ok rquotient =>
      .ok (Int.tdiv rquotient (10 ^ comm.precision),
        Int.tmod rquotient (10 ^ comm.precision), comm.precision)
  else if comm.precision > base.prec then
    let rquotient := val * 10 ^ (comm.precision - base.prec)
    .ok (Int.tdiv rquotient (10 ^ comm.precision),
      Int.tmod rquotient (10 ^ comm.precision), comm.precision)
  else if base.prec ≠ 0 then
    .ok (Int.tdiv val (10 ^ base.prec), Int.tmod val (10 ^ base.prec), base.prec)
  else .ok (val, 0, 0)

/-- The lines of `operator<<` that print the integer part `quotient` under the
flags of the commodity: `0`, the plain digits, or the groups of three digits;
`none` says that the fuel of the grouping loop did not suffice. -/
def print_whole (flags quotient fuel : Nat) : Option (List Char) :=
  if quotient = 0 then some ['0']
  else if flags &&& COMMODITY_STYLE_THOUSANDS = 0 then some (mpz_get_str quotient)
  else
    (group_strs quotient fuel 0).map fun strs =>
      print_groups (if flags &&& COMMODITY_STYLE_EUROPEAN ≠ 0 then '.' else ',')
        false strs.reverse

/-- The lines of `operator<<` that print the fraction: nothing at precision 0
and nothing when no digit is left, else the decimal mark and the digits. -/
def print_fraction (flags rquotient precision comm_precision : Nat) : List Char :=
  if precision ≠ 0 then
    let ender := ender rquotient precision comm_precision
    if ender ≠ [] then
      (if flags &&& COMMODITY_STYLE_EUROPEAN ≠ 0 then ',' else '.') :: ender
    else []
  else []

/-- The lines of `operator<<` that come before the integer part: the symbol,
in quotes if need be, and a space when the flags say so, unless the symbol is
to follow the number; then the sign. -/
def print_front (comm : commodity_t) (negative : Bool) : List Char :=
  let out : List Char :=
    if comm.flags &&& COMMODITY_STYLE_SUFFIXED = 0 then
      print_symbol comm ++
        (if comm.flags &&& COMMODITY_STYLE_SEPARATED ≠ 0 then [' '] else [])
    else []
  if negative then out ++ ['-'] else out

/-- The lines of `operator<<` that come after the fraction: a space when the
flags say so and the symbol, when the symbol is to follow the number. -/
def print_suffix (comm : commodity_t) : List Char :=
  if comm.flags &&& COMMODITY_STYLE_SUFFIXED ≠ 0 then
    (if comm.flags &&& COMMODITY_STYLE_SEPARATED ≠ 0 then [' '] else []) ++ print_symbol comm
  else []

/-- The part of `operator<<` after the loop over the larger units: the text for
the amount `base`, which has a quantity. -/
def print_base (fuel : Nat) (cs : commodities_t) (base : amount_t) :
    Option (Except failure (List Char)) :=
  let comm := cs base.commodity
  match print_split cs base with
  | .error e => some (.error e)
  | .ok (quotient, remainder, precision) =>
    let negative : Bool := mpz_sgn quotient < 0 || mpz_sgn remainder < 0
    let quotient : Nat := quotient.natAbs
    let rquotient : Nat := remainder.natAbs
    if quotient = 0 ∧ rquotient = 0 then some (.ok ['0'])
    else
      match print_whole comm.flags quotient fuel with
      | none => none
      | some whole =>
        some (.ok (print_front comm negative ++ whole ++
          print_fraction comm.flags rquotient precision comm.precision ++ print_suffix comm))

/-- The function `operator<< (out, amt)`: the text written to the stream, or the
exception thrown; `fuel` bounds the two loops, and `none` says that it did not
suffice. -/
def operator_lshift (fuel : Nat) (cs : commodities_t) (amt : amount_t) :
    Option (Except failure (List Char)) :=
  match amt.quantity with
  | none => some (.ok ['0'])
  | some _ =>
    let promoted : Option (Except failure amount_t) :=
      match (cs amt.commodity).larger with
      | none => some (.ok amt)
      | some _ => promote cs fuel amt amt
    match promoted with
    | none => none
    | some (.error e) => some (.error e)
    | some (.ok base) => print_base fuel cs base

/-- The text that comes back when a text is parsed into a new amount and that
amount is formatted under the registry the parse leaves; `none` unless both
calls return. -/
def reformat (fuel : Nat) (reg : registry_t) (s : List Char) (flags : Nat) :
    Option (List Char) :=
  match amount_t.parse fuel reg zero s flags with
  | some (.done self reg' _) =>
    match operator_lshift fuel reg'.objects self with
    | some (.ok out) => some out
    | _ => none
  | _ => none

/-- The registry that parsing `1,000.5` into a new amount leaves behind the
initial one: the null commodity has the flag `THOUSANDS` and the display
precision 1, and there is no default commodity. -/
def grouped_registry : registry_t :=
  ⟨[("", null_commodity)],
    fun c =>
      if c = null_commodity then ⟨"", false, 1, COMMODITY_STYLE_THOUSANDS, none, none, none⟩
      else new_commodity "",
    1, none⟩

/-! ## Conversions between units -/

/-- A write to the commodity object behind the pointer `c`. -/
def registry_t.set (reg : registry_t) (c : Nat) (comm : commodity_t) : registry_t :=
  { reg with objects := fun x => if x = c then comm else reg.objects x }

/-- The function `parse_conversion (larger_str, smaller_str)`: the registry it
leaves, or the exception thrown; `none` stands for an undefined run of
`amount_t::parse`.  The two amounts start without quantity and commodity; with
`AMOUNT_PARSE_NO_REDUCE` the parse never enters `reduce ()`, so it needs no
fuel.  The test `if (larger.commodity ())` is the conversion of a commodity to
`bool`, and `new amount_t (x)` is a copy of `x`. -/
def parse_conversion (reg : registry_t) (larger_str smaller_str : List Char) :
    Option (Except failure registry_t) :=
  match amount_t.parse 0 reg zero larger_str AMOUNT_PARSE_NO_REDUCE with
  | some (.done larger reg _) =>
    match amount_t.parse 0 reg zero smaller_str AMOUNT_PARSE_NO_REDUCE with
    | some (.done smaller reg _) =>
      let r := amount_t.operator_mul_eq reg.objects larger smaller
      match r.thrown with
      | some e => some (.error e)
      | none =>
        let larger := r.self
        let reg : registry_t :=
          if commodity_bool larger.commodity then
            let reg := reg.set larger.commodity
              { reg.objects larger.commodity with smaller := some smaller }
            reg.set larger.commodity
              { reg.objects larger.commodity with
                flags := (reg.objects smaller.commodity).flags ||| COMMODITY_STYLE_NOMARKET }
          else reg
        let reg : registry_t :=
          if commodity_bool smaller.commodity then
            reg.set smaller.commodity { reg.objects smaller.commodity with larger := some larger }
          else reg
        some (.ok reg)
    | some (.thrown e) => some (.error e)
    | _ => none
  | some (.thrown e) => some (.error e)
  | _ => none

/-- The constructor of `_init_amounts`, as far as the commodities go: the null
commodity is created first, then the commodity `s` with the flags `NOMARKET` and
`BUILTIN`, then the conversions `1.0m = 60s` and `1.0h = 60m`. -/
def _init_amounts : Option (Except failure registry_t) :=
  let reg : registry_t := ⟨[], fun _ => new_commodity "", 0, none⟩
  let reg := (find_commodity reg "" true).1
  let found := find_commodity reg "s" true
  let reg := found.1
  let reg : registry_t :=
    match found.2 with
    | some commodity =>
      { reg with
        objects := fun x =>
          if x = commodity then
            { reg.objects commodity with
              flags := (reg.objects commodity).flags |||
                (COMMODITY_STYLE_NOMARKET ||| COMMODITY_STYLE_BUILTIN) }
          else reg.objects x }
    | none => reg
  match parse_conversion reg "1.0m".data "60s".data with
  | some (.ok reg) => parse_conversion reg "1.0h".data "60m".data
  | r => r

/-- The registry `_init_amounts` leaves; the initial registry stands in should
the constructor fail, which it does not. -/
def time_registry : registry_t :=
  match _init_amounts with
  | some (.ok reg) => reg
  | _ => initial_registry

/-- A chain of `smaller` links: the commodity `c` has the `smaller` amount that
heads the list, the commodity of that amount has the next one, and so on up to
the commodity `last`, which has no `smaller` link. -/
def smaller_chain (cs : commodities_t) : Nat → List amount_t → Nat → Prop
  | c, [], last => c = last ∧ (cs c).smaller = none
  | c, f :: fs, last =>
    (cs c).smaller = some f ∧ ∃ c', f.commodity_ = some c' ∧ smaller_chain cs c' fs last

/-- No product along the chain is trimmed: starting from the precision `p` in
the commodity `c`, each multiplication leaves a precision that fits the
`unsigned short` of the cell and does not exceed the display precision of the
commodity at hand by more than six digits. -/
def untrimmed (cs : commodities_t) : Nat → Nat → List amount_t → Prop
  | _, _, [] => True
  | c, p, f :: fs =>
    p + f.prec < 65536 ∧ p + f.prec ≤ (cs c).precision + 6 ∧
      untrimmed cs f.commodity (p + f.prec) fs

/-- The registry that the conversion `1.0x = 60y` leaves behind the initial
one; the initial registry stands in should the conversion fail, which it does
not. -/
def conversion_example : registry_t :=
  match parse_conversion initial_registry "1.0x".data "60y".data with
  | some (.ok reg) => reg
  | _ => initial_registry

/-- A chain of `larger` links: the commodity `c` has the `larger` amount that
heads the list, the commodity of that amount has the next one, and so on up to
a commodity that has no `larger` link. -/
def larger_chain (cs : commodities_t) : Nat → List amount_t → Prop
  | c, [] => (cs c).larger = none
  | c, l :: ls => (cs c).larger = some l ∧ larger_chain cs l.commodity ls

/-- The amount in a larger unit, as the formatter computes it: divided by each
`larger` amount of the list in turn with `operator/=`, and moved to the
commodity of that amount. -/
def in_unit (cs : commodities_t) (amt : amount_t) : List amount_t → amount_t
  | [] => amt
  | l :: ls =>
    in_unit cs { (amount_t.operator_div_eq cs amt l).self with commodity_ := l.commodity_ } ls

/-- The registry that the conversion `1x = 0.5y` leaves behind the initial one;
the initial registry stands in should the conversion fail, which it does not. -/
def half_unit_registry : registry_t :=
  match parse_conversion initial_registry "1x".data "0.5y".data with
  | some (.ok reg) => reg
  | _ => initial_registry

/-- The registry that parsing `$100.00`, `1.000,00 EUR` and `-0,50` one after
the other leaves behind the initial one: the commodity `$` at the display
precision 2 without a flag, the commodity `EUR` at the display precision 2 with
`EUROPEAN`, `THOUSANDS`, `SEPARATED` and `SUFFIXED`, the null commodity at the
display precision 2 with `EUROPEAN`, and no default commodity. -/
def styled_registry : registry_t :=
  ⟨[("EUR", 2), ("$", 1), ("", null_commodity)],
    fun c =>
      if c = 1 then ⟨"$", false, 2, COMMODITY_STYLE_DEFAULTS, none, none, none⟩
      else if c = 2 then
        ⟨"EUR", false, 2, COMMODITY_STYLE_EUROPEAN ||| COMMODITY_STYLE_THOUSANDS |||
          COMMODITY_STYLE_SEPARATED ||| COMMODITY_STYLE_SUFFIXED, none, none, none⟩
      else ⟨"", false, 2, COMMODITY_STYLE_EUROPEAN, none, none, none⟩,
    3, none⟩

/-! ## Properties -/

/-! ## Rounding -/

theorem tmod_bounds (v : Int) {D : Int} (hD : 0 < D) :
    -D < Int.tmod v D ∧ Int.tmod v D < D ∧ (0 ≤ v → 0 ≤ Int.tmod v D) ∧
      (v ≤ 0 → Int.tmod v D ≤ 0) := by
  obtain ⟨n, rfl⟩ := Int.eq_ofNat_of_zero_le hD.le
  have hn : 0 < n := by exact_mod_cast hD
  cases v with
  | ofNat m =>
    have h1 : Int.tmod (Int.ofNat m) (n : Int) = ((m % n : Nat) : Int) := rfl
    have h2 := Nat.mod_lt m hn
    rw [h1]
    refine ⟨by omega, by omega, by omega, fun h => ?_⟩
    have : m = 0 := by
      have : (m : Int) ≤ 0 := h
      omega
    subst this
    simp
  | negSucc m =>
    have h1 : Int.tmod (Int.negSucc m) (n : Int) = -((m.succ % n : Nat) : Int) := rfl
    have h2 := Nat.mod_lt m.succ hn
    rw [h1]
    refine ⟨by omega, by omega, fun h => ?_, by omega⟩
    have := Int.negSucc_lt_zero m
    omega

theorem mpz_sign_neg_iff (x : Int) : Int.sign x < 0 ↔ x < 0 := by
  rcases lt_trichotomy x 0 with h | h | h
  · simp [Int.sign_eq_neg_one_of_neg h, h]
  · subst h; simp
  · simp [Int.sign_eq_one_of_pos h]; omega


theorem round_core (v d : Int) (hd : 0 < d) :
    Int.tdiv
      (if mpz_sgn (Int.tmod v (10 * d)) < 0 then
        if mpz_cmp (Int.tmod v (10 * d)) (-(10 * d / 10 * 5)) < 0 then
          v + (0 - (10 * d + Int.tmod v (10 * d)))
        else v - Int.tmod v (10 * d)
      else
        if mpz_cmp (Int.tmod v (10 * d)) (10 * d / 10 * 5) ≥ 0 then
          v + (10 * d - Int.tmod v (10 * d))
        else v - Int.tmod v (10 * d)) (10 * d) = (v + 5 * d) / (10 * d) := by
  have hD : (0 : Int) < 10 * d := by omega
  obtain ⟨b1, b2, b3, b4⟩ := tmod_bounds v hD
  have hdec := Int.tdiv_add_tmod v (10 * d)
  have h10 : 10 * d / 10 * 5 = 5 * d := by
    rw [Int.mul_ediv_cancel_left d (by norm_num : (10 : Int) ≠ 0)]; ring
  simp only [mpz_sgn, mpz_cmp, mpz_sign_neg_iff, ge_iff_le, Int.sign_nonneg, h10]
  generalize Int.tmod v (10 * d) = r at *
  generalize Int.tdiv v (10 * d) = q at *
  have key : ∀ c : Int, 0 ≤ r + 5 * d - 10 * d * c → r + 5 * d - 10 * d * c < 10 * d →
      (v + 5 * d) / (10 * d) = q + c := by
    intro c h1 h2
    have := (Int.ediv_emod_unique (a := v + 5 * d) (q := q + c)
      (r := r + 5 * d - 10 * d * c) hD).2 ⟨by rw [← hdec]; ring, h1, h2⟩
    exact this.1
  have cancel : ∀ c : Int, Int.tdiv (10 * d * c) (10 * d) = c := by
    intro c
    rw [Int.mul_comm, Int.mul_tdiv_cancel _ (by omega)]
  split_ifs with h1 h2 h2
  · rw [key (-1) (by nlinarith) (by nlinarith)]
    rw [show v + (0 - (10 * d + r)) = 10 * d * (q + -1) by rw [← hdec]; ring]
    exact cancel _
  · rw [key 0 (by nlinarith) (by nlinarith)]
    rw [show v - r = 10 * d * (q + 0) by rw [← hdec]; ring]
    exact cancel _
  · rw [key 1 (by nlinarith) (by nlinarith)]
    rw [show v + (10 * d - r) = 10 * d * (q + 1) by rw [← hdec]; ring]
    exact cancel _
  · rw [key 0 (by nlinarith) (by nlinarith)]
    rw [show v - r = 10 * d * (q + 0) by rw [← hdec]; ring]
    exact cancel _

/-- The closed form of `mpz_round`: the value plus half a unit of the last kept
digit, divided with rounding toward minus infinity. -/
theorem mpz_round_eq (v : Int) {vp rp : Nat} (h : rp < vp) :
    mpz_round v vp rp = .ok ((v + 5 * 10 ^ (vp - rp - 1)) / 10 ^ (vp - rp)) := by
  obtain ⟨k, hk⟩ : ∃ k, vp - rp = k + 1 := ⟨vp - rp - 1, by omega⟩
  unfold mpz_round
  rw [if_neg (by omega)]
  simp only [hk, Nat.add_sub_cancel, pow_succ']
  exact congrArg _ (round_core v (10 ^ k) (by positivity))


/-- C1: `round (0)` of `1.5` (mantissa 15, precision 1) is 2, but `round (0)` of
`-1.5` is `-1`, not `-2`: a negative tie is rounded toward zero, so rounding does
not commute with negation. -/
theorem C1_round_negative_tie :
    amount_t.round ⟨some ⟨15, 1⟩, none⟩ 0 = .ok ⟨some ⟨2, 0⟩, none⟩ ∧
    amount_t.round ⟨some ⟨-15, 1⟩, none⟩ 0 = .ok ⟨some ⟨-1, 0⟩, none⟩ ∧
    mpz_round (-15) 1 0 = .ok (-1) := by
  refine ⟨?_, ?_, ?_⟩ <;> rfl

/-! ## Comparison -/

/-- C2: with the zero amount on the left and the amount 5 on the right, `<`
answers false although 0 is below 5, while the mirrored `5 > zero` answers true:
the branch for a left operand without quantity compares the right operand with
zero in the wrong direction. -/
theorem C2_zero_less_than_five :
    amount_t.operator_lt zero ⟨some ⟨5, 0⟩, none⟩ = .ok false ∧
    amount_t.numeric_value zero < amount_t.numeric_value ⟨some ⟨5, 0⟩, none⟩ ∧
    amount_t.operator_gt ⟨some ⟨5, 0⟩, none⟩ zero = .ok true := by
  refine ⟨rfl, ?_, rfl⟩
  norm_num [amount_t.numeric_value, zero]

/-! ## Truthiness and division by zero -/

theorem tdiv_ne_zero_imp {x d : Int} (h : Int.tdiv x d ≠ 0) : x ≠ 0 := by
  rintro rfl
  simp at h

theorem operator_bool_some_of_true {cs : commodities_t} {b : amount_t}
    (h : amount_t.operator_bool cs b = true) : ∃ q, b.quantity = some q ∧ q.val ≠ 0 := by
  unfold amount_t.operator_bool at h
  cases hq : b.quantity with
  | none => simp [hq] at h
  | some q =>
    refine ⟨q, rfl, ?_⟩
    simp only [hq] at h
    split at h
    · simpa [mpz_sgn] using h
    · simp only [mpz_sgn, Bool.not_eq_true', beq_eq_false_iff_ne, ne_eq, Int.sign_eq_zero_iff_zero]
        at h
      exact tdiv_ne_zero_imp h

theorem trim_thrown (cs : commodities_t) (a : amount_t) :
    (amount_t.trim cs a).thrown = none := by
  unfold amount_t.trim
  simp only
  split
  · rename_i h
    rw [mpz_round_eq _ h]
  · rfl

theorem operator_div_eq_thrown (cs : commodities_t) (a b : amount_t) :
    (amount_t.operator_div_eq cs a b).thrown =
      if amount_t.operator_bool cs b then none
      else some (.amount_error "Divide by zero") := by
  unfold amount_t.operator_div_eq
  cases hb : b.quantity with
  | none => simp [amount_t.operator_bool, hb]
  | some qb =>
    simp only
    cases ht : amount_t.operator_bool cs b with
    | false => simp
    | true =>
      simp only [Bool.not_true, Bool.false_eq_true, if_false, if_true]
      cases ha : a.quantity with
      | none => rfl
      | some qa => exact trim_thrown _ _

/-- C3 (counterexample): the divisor 0.001 in a commodity of display precision 2
has the non-zero mantissa 1, and dividing 10 by it raises the divide-by-zero
error. -/
theorem C3_nonzero_divisor_rejected :
    (amount_t.operator_div_eq dollars ⟨some ⟨10, 0⟩, some 1⟩ ⟨some ⟨1, 3⟩, some 1⟩).thrown =
      some (.amount_error "Divide by zero") ∧
    MPZ (some ⟨1, 3⟩) ≠ 0 ∧
    amount_t.numeric_value ⟨some ⟨1, 3⟩, some 1⟩ ≠ 0 := by
  refine ⟨rfl, by decide, ?_⟩
  norm_num [amount_t.numeric_value]

/-- The conversion `operator bool ()` spelled out: an amount is false exactly
when it has no quantity, or its stored precision is within the display
precision of its commodity and its mantissa is zero, or its stored precision
exceeds the display precision and its mantissa, truncated toward zero to the
display precision when it points to a commodity and to no fractional digit at
all when it does not, is zero. -/
theorem operator_bool_false_iff (cs : commodities_t) (b : amount_t) :
    amount_t.operator_bool cs b = false ↔
      (b.quantity = none ∨
        ∃ q, b.quantity = some q ∧
          ((q.prec ≤ (cs b.commodity).precision ∧ q.val = 0) ∨
            ((cs b.commodity).precision < q.prec ∧ b.commodity_.isSome = true ∧
              Int.tdiv q.val (10 ^ (q.prec - (cs b.commodity).precision)) = 0) ∨
            ((cs b.commodity).precision < q.prec ∧ b.commodity_ = none ∧
              Int.tdiv q.val (10 ^ q.prec) = 0))) := by
  unfold amount_t.operator_bool
  cases hq : b.quantity with
  | none => simp
  | some q =>
    simp only [false_or, Option.some.injEq, exists_eq_left']
    by_cases hp : q.prec ≤ (cs b.commodity).precision
    · have hp' : ¬ (cs b.commodity).precision < q.prec := by omega
      simp [hp, hp', mpz_sgn]
    · have hp' : (cs b.commodity).precision < q.prec := by omega
      cases hc : b.commodity_ with
      | none => simp [hp, hp', mpz_sgn]
      | some c => simp [hp, hp', mpz_sgn]

/-- C3 (amended): `operator/=` raises the divide-by-zero error exactly when the
right operand is false as a boolean, that is, when it has no quantity, or its
stored precision is within the display precision of its commodity and its
mantissa is zero, or its stored precision exceeds the display precision and its
mantissa, truncated toward zero to the display precision when it points to a
commodity and to no fractional digit at all when it does not, is zero; it
raises nothing otherwise; a right operand with a non-zero mantissa whose stored
precision does not exceed the display precision of its commodity is accepted;
and whenever something is raised the left operand is unchanged. -/
theorem C3_divide_by_zero_iff_false (cs : commodities_t) (a b : amount_t) :
    ((amount_t.operator_div_eq cs a b).thrown = some (.amount_error "Divide by zero") ↔
      (b.quantity = none ∨
        ∃ q, b.quantity = some q ∧
          ((q.prec ≤ (cs b.commodity).precision ∧ q.val = 0) ∨
            ((cs b.commodity).precision < q.prec ∧ b.commodity_.isSome = true ∧
              Int.tdiv q.val (10 ^ (q.prec - (cs b.commodity).precision)) = 0) ∨
            ((cs b.commodity).precision < q.prec ∧ b.commodity_ = none ∧
              Int.tdiv q.val (10 ^ q.prec) = 0)))) ∧
    ((amount_t.operator_div_eq cs a b).thrown = some (.amount_error "Divide by zero") ↔
      amount_t.operator_bool cs b = false) ∧
    (amount_t.operator_bool cs b = true → (amount_t.operator_div_eq cs a b).thrown = none) ∧
    (∀ q, b.quantity = some q → q.val ≠ 0 → q.prec ≤ (cs b.commodity).precision →
      (amount_t.operator_div_eq cs a b).thrown = none) ∧
    ((amount_t.operator_div_eq cs a b).thrown ≠ none →
      (amount_t.operator_div_eq cs a b).self = a) := by
  have ht := operator_div_eq_thrown cs a b
  have hiff : ((amount_t.operator_div_eq cs a b).thrown =
      some (.amount_error "Divide by zero") ↔ amount_t.operator_bool cs b = false) := by
    cases hb : amount_t.operator_bool cs b <;> simp [ht, hb]
  refine ⟨hiff.trans (operator_bool_false_iff cs b), hiff, ?_, ?_, ?_⟩
  · intro hb
    simp [ht, hb]
  · intro q hq hv hp
    have hb : amount_t.operator_bool cs b = true := by
      simp [amount_t.operator_bool, hq, hp, mpz_sgn, hv]
    simp [ht, hb]
  · intro hne
    have hb : amount_t.operator_bool cs b = false := by
      cases hb : amount_t.operator_bool cs b
      · rfl
      · simp [ht, hb] at hne
    unfold amount_t.operator_div_eq
    cases hq : b.quantity with
    | none => rfl
    | some qb => simp [hb]

/-- C4 (counterexample): when the null commodity has display precision 2, the
amount 0.010 without commodity (mantissa 10, precision 3) is false, although its
mantissa truncated to two digits is 1. -/
theorem C4_no_commodity_truncates_to_integer :
    amount_t.operator_bool null_precision_two ⟨some ⟨10, 3⟩, none⟩ = false ∧
    truthiness_by_display_precision null_precision_two ⟨some ⟨10, 3⟩, none⟩ = true := by
  exact ⟨rfl, rfl⟩

/-- C4 (amended): truthiness is false without a quantity.  Otherwise, for an
amount that carries a commodity, or whose stored precision does not exceed the
display precision of the null commodity, it is true exactly when the mantissa
truncated toward zero to the display precision is non-zero; for an amount
without commodity whose stored precision exceeds the display precision of the
null commodity, it is true exactly when the mantissa truncated to no fractional
digit at all is non-zero.  So an amount with a commodity whose magnitude is below
one unit of the display precision is false. -/
theorem C4_truthiness (cs : commodities_t) (a : amount_t) :
    (a.quantity = none → amount_t.operator_bool cs a = false) ∧
    (∀ q, a.quantity = some q →
      (a.commodity_.isSome ∨ q.prec ≤ (cs a.commodity).precision →
        (amount_t.operator_bool cs a = true ↔
          Int.tdiv q.val (10 ^ (q.prec - (cs a.commodity).precision)) ≠ 0)) ∧
      (a.commodity_ = none → (cs a.commodity).precision < q.prec →
        (amount_t.operator_bool cs a = true ↔ Int.tdiv q.val (10 ^ q.prec) ≠ 0)) ∧
      (a.commodity_.isSome → |q.val| < 10 ^ (q.prec - (cs a.commodity).precision) →
        amount_t.operator_bool cs a = false)) := by
  refine ⟨fun h => by simp [amount_t.operator_bool, h], fun q hq => ?_⟩
  have h1 : a.commodity_.isSome ∨ q.prec ≤ (cs a.commodity).precision →
      (amount_t.operator_bool cs a = true ↔
        Int.tdiv q.val (10 ^ (q.prec - (cs a.commodity).precision)) ≠ 0) := by
    intro h
    unfold amount_t.operator_bool
    simp only [hq]
    by_cases hp : q.prec ≤ (cs a.commodity).precision
    · simp [hp, Nat.sub_eq_zero_of_le hp, mpz_sgn]
    · rcases h with h | h
      · simp [hp, h, mpz_sgn]
      · exact absurd h hp
  refine ⟨h1, ?_, ?_⟩
  · intro hc hp
    unfold amount_t.operator_bool
    simp [hq, hc, Nat.not_le.mpr hp, mpz_sgn]
  · intro hc hlt
    have h2 := h1 (Or.inl hc)
    cases hb : amount_t.operator_bool cs a with
    | false => rfl
    | true =>
      exfalso
      refine h2.1 hb ?_
      have hpos : (0 : Int) < 10 ^ (q.prec - (cs a.commodity).precision) := by positivity
      have := Int.natAbs_tdiv q.val (10 ^ (q.prec - (cs a.commodity).precision))
      rw [← Int.natAbs_eq_zero, this]
      apply Nat.div_eq_of_lt
      zify
      rw [abs_of_pos hpos]
      exact hlt

/-! ## Addition and subtraction -/

theorem resize_up (c : Option Nat) (q : bigint_t) {p : Nat} (hp : p < 256)
    (hle : q.prec ≤ p) :
    amount_t._resize ⟨some q, c⟩ p = .ok ⟨some ⟨q.val * 10 ^ (p - q.prec), p⟩, c⟩ := by
  unfold amount_t._resize
  rw [if_neg (by omega)]
  simp only
  by_cases h : p = q.prec
  · subst h
    simp
  · rw [if_neg h, if_neg (by omega)]
    simp [amount_t.set_prec, amount_t.set_val, Nat.mod_eq_of_lt (show p < 65536 by omega)]

theorem plus_eq_of_quantities (c : Option Nat) (qa qb : bigint_t)
    (hpa : qa.prec < 256) (hpb : qb.prec < 256) :
    amount_t.operator_plus_eq ⟨some qa, c⟩ ⟨some qb, c⟩ =
      ⟨⟨some ⟨qa.val * 10 ^ (max qa.prec qb.prec - qa.prec) +
          qb.val * 10 ^ (max qa.prec qb.prec - qb.prec), max qa.prec qb.prec⟩, c⟩, none⟩ := by
  unfold amount_t.operator_plus_eq
  simp only [ne_eq, not_true_eq_false, if_false]
  rcases lt_trichotomy qa.prec qb.prec with h | h | h
  · rw [if_neg (by omega), if_pos h, resize_up c qa hpb h.le]
    simp [amount_t.set_val, MPZ, max_eq_right h.le]
  · rw [if_pos h]
    simp [amount_t.set_val, h]
  · rw [if_neg (by omega), if_neg (by omega), resize_up c qb hpa h.le]
    simp [amount_t.set_val, MPZ, max_eq_left h.le]

theorem minus_eq_of_quantities (c : Option Nat) (qa qb : bigint_t)
    (hpa : qa.prec < 256) (hpb : qb.prec < 256) :
    amount_t.operator_minus_eq ⟨some qa, c⟩ ⟨some qb, c⟩ =
      ⟨⟨some ⟨qa.val * 10 ^ (max qa.prec qb.prec - qa.prec) -
          qb.val * 10 ^ (max qa.prec qb.prec - qb.prec), max qa.prec qb.prec⟩, c⟩, none⟩ := by
  unfold amount_t.operator_minus_eq
  simp only [ne_eq, not_true_eq_false, if_false]
  rcases lt_trichotomy qa.prec qb.prec with h | h | h
  · rw [if_neg (by omega), if_pos h, resize_up c qa hpb h.le]
    simp [amount_t.set_val, MPZ, max_eq_right h.le]
  · rw [if_pos h]
    simp [amount_t.set_val, h]
  · rw [if_neg (by omega), if_neg (by omega), resize_up c qb hpa h.le]
    simp [amount_t.set_val, MPZ, max_eq_left h.le]

theorem scaled_value (x : Int) {p m : Nat} (h : p ≤ m) :
    ((x * 10 ^ (m - p) : Int) : ℚ) / 10 ^ m = (x : ℚ) / 10 ^ p := by
  have hm : (10 : ℚ) ^ m = 10 ^ (m - p) * 10 ^ p := by
    rw [← pow_add, Nat.sub_add_cancel h]
  push_cast
  rw [hm]
  field_simp
  ring

/-- Sums under one handle: for two amounts that both have a quantity (stored
precisions within the range of the data model) and the same commodity handle
`commodity_`, `a += b` and `a -= b` raise
nothing and leave `a` with the precision `max (a.prec, b.prec)`, its commodity,
and exactly the numeric value `value (a) + value (b)`, respectively
`value (a) - value (b)`. -/
theorem add_sub_exact_of_handle (a b : amount_t) (qa qb : bigint_t)
    (ha : a.quantity = some qa) (hb : b.quantity = some qb)
    (hc : a.commodity_ = b.commodity_) (hpa : qa.prec < 256) (hpb : qb.prec < 256) :
    ((amount_t.operator_plus_eq a b).thrown = none ∧
      (amount_t.operator_plus_eq a b).self.quantity.isSome = true ∧
      (amount_t.operator_plus_eq a b).self.prec = max qa.prec qb.prec ∧
      (amount_t.operator_plus_eq a b).self.commodity_ = a.commodity_ ∧
      (amount_t.operator_plus_eq a b).self.numeric_value =
        a.numeric_value + b.numeric_value) ∧
    ((amount_t.operator_minus_eq a b).thrown = none ∧
      (amount_t.operator_minus_eq a b).self.quantity.isSome = true ∧
      (amount_t.operator_minus_eq a b).self.prec = max qa.prec qb.prec ∧
      (amount_t.operator_minus_eq a b).self.commodity_ = a.commodity_ ∧
      (amount_t.operator_minus_eq a b).self.numeric_value =
        a.numeric_value - b.numeric_value) := by
  obtain ⟨qo, ca⟩ := a
  obtain ⟨ro, cb⟩ := b
  simp only at ha hb hc
  subst ha hb hc
  rw [plus_eq_of_quantities _ _ _ hpa hpb, minus_eq_of_quantities _ _ _ hpa hpb]
  refine ⟨⟨rfl, rfl, rfl, rfl, ?_⟩, ⟨rfl, rfl, rfl, rfl, ?_⟩⟩
  · simp only [amount_t.numeric_value]
    rw [← scaled_value qa.val (le_max_left qa.prec qb.prec),
      ← scaled_value qb.val (le_max_right qa.prec qb.prec)]
    push_cast
    ring
  · simp only [amount_t.numeric_value]
    rw [← scaled_value qa.val (le_max_left qa.prec qb.prec),
      ← scaled_value qb.val (le_max_right qa.prec qb.prec)]
    push_cast
    ring

/-- An example of the sum under one handle: 1.5 and 0.25 of one commodity. -/
theorem add_sub_exact_of_handle_example :
    ((amount_t.operator_plus_eq ⟨some ⟨15, 1⟩, some 1⟩ ⟨some ⟨25, 2⟩, some 1⟩).self.prec =
        max 1 2) ∧
    (amount_t.operator_plus_eq ⟨some ⟨15, 1⟩, some 1⟩ ⟨some ⟨25, 2⟩, some 1⟩).self =
      ⟨some ⟨175, 2⟩, some 1⟩ :=
  ⟨(add_sub_exact_of_handle ⟨some ⟨15, 1⟩, some 1⟩ ⟨some ⟨25, 2⟩, some 1⟩ ⟨15, 1⟩ ⟨25, 2⟩ rfl rfl rfl
      (by decide) (by decide)).1.2.2.1, rfl⟩

/-! ## Comparison of two amounts with a quantity -/

theorem cmp_of_quantities (OP : Int → Int → Bool) (ca cb : Option Nat) (qa qb : bigint_t)
    (hc : (commodity_bool (amount_t.commodity ⟨some qa, ca⟩) &&
      commodity_bool (amount_t.commodity ⟨some qb, cb⟩) &&
      amount_t.commodity ⟨some qa, ca⟩ != amount_t.commodity ⟨some qb, cb⟩) = false)
    (hpa : qa.prec < 256) (hpb : qb.prec < 256) :
    amount_t.AMOUNT_CMP_AMOUNT OP ⟨some qa, ca⟩ ⟨some qb, cb⟩ =
      .ok (OP (Int.sign (qa.val * 10 ^ (max qa.prec qb.prec - qa.prec) -
        qb.val * 10 ^ (max qa.prec qb.prec - qb.prec))) 0) := by
  unfold amount_t.AMOUNT_CMP_AMOUNT
  simp only [hc, Bool.false_eq_true, if_false]
  rcases lt_trichotomy qa.prec qb.prec with h | h | h
  · rw [if_neg (by omega), if_pos h, resize_up ca qa hpb h.le]
    simp [MPZ, mpz_cmp, max_eq_right h.le]
  · rw [if_pos h]
    simp [mpz_cmp, h]
  · rw [if_neg (by omega), if_neg (by omega), resize_up cb qb hpa h.le]
    simp [MPZ, mpz_cmp, max_eq_left h.le]

theorem value_sub_of_quantities (ca cb : Option Nat) (qa qb : bigint_t) :
    amount_t.numeric_value ⟨some qa, ca⟩ - amount_t.numeric_value ⟨some qb, cb⟩ =
      ((qa.val * 10 ^ (max qa.prec qb.prec - qa.prec) -
        qb.val * 10 ^ (max qa.prec qb.prec - qb.prec) : Int) : ℚ) /
        10 ^ max qa.prec qb.prec := by
  simp only [amount_t.numeric_value]
  rw [← scaled_value qa.val (le_max_left qa.prec qb.prec),
    ← scaled_value qb.val (le_max_right qa.prec qb.prec)]
  push_cast
  ring

/-- Where both amounts have a quantity (stored precisions below 256) and the
commodities do not make them incomparable, the five relational operators agree
with the order of the numeric values. -/
theorem comparison_of_quantities (ca cb : Option Nat) (qa qb : bigint_t)
    (hc : (commodity_bool (amount_t.commodity ⟨some qa, ca⟩) &&
      commodity_bool (amount_t.commodity ⟨some qb, cb⟩) &&
      amount_t.commodity ⟨some qa, ca⟩ != amount_t.commodity ⟨some qb, cb⟩) = false)
    (hpa : qa.prec < 256) (hpb : qb.prec < 256) :
    amount_t.operator_lt ⟨some qa, ca⟩ ⟨some qb, cb⟩ =
      .ok (decide (amount_t.numeric_value ⟨some qa, ca⟩ <
        amount_t.numeric_value ⟨some qb, cb⟩)) ∧
    amount_t.operator_le ⟨some qa, ca⟩ ⟨some qb, cb⟩ =
      .ok (decide (amount_t.numeric_value ⟨some qa, ca⟩ ≤
        amount_t.numeric_value ⟨some qb, cb⟩)) ∧
    amount_t.operator_gt ⟨some qa, ca⟩ ⟨some qb, cb⟩ =
      .ok (decide (amount_t.numeric_value ⟨some qa, ca⟩ >
        amount_t.numeric_value ⟨some qb, cb⟩)) ∧
    amount_t.operator_ge ⟨some qa, ca⟩ ⟨some qb, cb⟩ =
      .ok (decide (amount_t.numeric_value ⟨some qa, ca⟩ ≥
        amount_t.numeric_value ⟨some qb, cb⟩)) ∧
    amount_t.operator_eq ⟨some qa, ca⟩ ⟨some qb, cb⟩ =
      .ok (decide (amount_t.numeric_value ⟨some qa, ca⟩ =
        amount_t.numeric_value ⟨some qb, cb⟩)) := by
  have hk : (0 : ℚ) < 10 ^ max qa.prec qb.prec := by positivity
  have hv := value_sub_of_quantities ca cb qa qb
  generalize hX : qa.val * 10 ^ (max qa.prec qb.prec - qa.prec) -
    qb.val * 10 ^ (max qa.prec qb.prec - qb.prec) = X at hv
  have hneg : amount_t.numeric_value ⟨some qa, ca⟩ < amount_t.numeric_value ⟨some qb, cb⟩ ↔
      X < 0 := by
    rw [← sub_neg, hv, div_neg_iff]
    constructor
    · rintro (⟨_, h⟩ | ⟨h, _⟩)
      · exact absurd h (not_lt.mpr hk.le)
      · exact_mod_cast h
    · intro h
      exact Or.inr ⟨by exact_mod_cast h, hk⟩
  have hpos : amount_t.numeric_value ⟨some qb, cb⟩ < amount_t.numeric_value ⟨some qa, ca⟩ ↔
      0 < X := by
    rw [← sub_pos, hv, div_pos_iff]
    constructor
    · rintro (⟨h, _⟩ | ⟨_, h⟩)
      · exact_mod_cast h
      · exact absurd h (not_lt.mpr hk.le)
    · intro h
      exact Or.inl ⟨by exact_mod_cast h, hk⟩
  have s1 : Int.sign X < 0 ↔ X < 0 := mpz_sign_neg_iff X
  have s2 : 0 < Int.sign X ↔ 0 < X := by
    have := @Int.sign_nonneg (-X)
    rw [Int.sign_neg] at this
    omega
  unfold amount_t.operator_lt amount_t.operator_le amount_t.operator_gt amount_t.operator_ge
    amount_t.operator_eq
  simp only [cmp_of_quantities _ ca cb qa qb hc hpa hpb, hX, Except.ok.injEq, decide_eq_decide]
  refine ⟨?_, ?_, ?_, ?_, ?_⟩
  · rw [hneg, s1]
  · rw [← not_lt, ← not_lt, hpos, s2]
  · rw [gt_iff_lt, gt_iff_lt, hpos, s2]
  · rw [ge_iff_le, ge_iff_le, ← not_lt, ← not_lt, hneg, s1]
  · rw [Int.sign_eq_zero_iff_zero]
    constructor
    · intro h
      have h1 := hneg.not.mpr (by omega)
      have h2 := hpos.not.mpr (by omega)
      exact le_antisymm (not_lt.mp h2) (not_lt.mp h1)
    · intro h
      have h1 := hneg.not.mp (by rw [h]; exact lt_irrefl _)
      have h2 := hpos.not.mp (by rw [h]; exact lt_irrefl _)
      omega

theorem operator_eq_self (x : amount_t) : amount_t.operator_eq x x = .ok true := by
  unfold amount_t.operator_eq amount_t.AMOUNT_CMP_AMOUNT
  cases hq : x.quantity with
  | none => simp [amount_t.cmp_int_zero, amount_t.sign, hq]
  | some q => simp [mpz_cmp]

theorem valid_of_no_quantity {a : amount_t} (hv : a.valid = true) (hq : a.quantity = none) :
    a = zero := by
  obtain ⟨q, c⟩ := a
  simp only at hq
  subst hq
  cases c with
  | none => rfl
  | some c => simp [amount_t.valid] at hv

/-- Commutativity under one handle: for two valid amounts (stored precisions
within the range of the data model) whose commodity handles `commodity_` are
the same when both have a quantity, `a += b` and
`b += a` raise nothing and end in the same amount, mantissa, precision and
commodity alike, and `==` holds between the two results. -/
theorem add_commutative_of_handle (a b : amount_t) (hva : a.valid = true) (hvb : b.valid = true)
    (hc : a.quantity.isSome = true → b.quantity.isSome = true → a.commodity_ = b.commodity_)
    (hpa : a.prec < 256) (hpb : b.prec < 256) :
    (amount_t.operator_plus_eq a b).thrown = none ∧
    (amount_t.operator_plus_eq b a).thrown = none ∧
    (amount_t.operator_plus_eq a b).self = (amount_t.operator_plus_eq b a).self ∧
    amount_t.operator_eq (amount_t.operator_plus_eq a b).self
      (amount_t.operator_plus_eq b a).self = .ok true := by
  have key : (amount_t.operator_plus_eq a b).thrown = none ∧
      (amount_t.operator_plus_eq b a).thrown = none ∧
      (amount_t.operator_plus_eq a b).self = (amount_t.operator_plus_eq b a).self := by
    cases hqa : a.quantity with
    | none =>
      have ha := valid_of_no_quantity hva hqa
      subst ha
      cases hqb : b.quantity with
      | none =>
        have hb := valid_of_no_quantity hvb hqb
        subst hb
        exact ⟨rfl, rfl, rfl⟩
      | some qb =>
        obtain ⟨qo, cb⟩ := b
        simp only at hqb
        subst hqb
        exact ⟨rfl, rfl, rfl⟩
    | some qa =>
      cases hqb : b.quantity with
      | none =>
        have hb := valid_of_no_quantity hvb hqb
        subst hb
        obtain ⟨qo, ca⟩ := a
        simp only at hqa
        subst hqa
        exact ⟨rfl, rfl, rfl⟩
      | some qb =>
        obtain ⟨qo, ca⟩ := a
        obtain ⟨ro, cb⟩ := b
        simp only at hqa hqb
        subst hqa hqb
        have hcc : ca = cb := hc rfl rfl
        subst hcc
        have h1 : qa.prec < 256 := hpa
        have h2 : qb.prec < 256 := hpb
        rw [plus_eq_of_quantities _ _ _ h1 h2, plus_eq_of_quantities _ _ _ h2 h1]
        refine ⟨rfl, rfl, ?_⟩
        simp only [max_comm qb.prec qa.prec, add_comm (qb.val * _)]
  refine ⟨key.1, key.2.1, key.2.2, ?_⟩
  rw [key.2.2]
  exact operator_eq_self _

/-- An example of the commutativity under one handle: 1.5 plus 0.25 and 0.25
plus 1.5, in one commodity. -/
theorem add_commutative_of_handle_example :
    (amount_t.operator_plus_eq ⟨some ⟨15, 1⟩, some 1⟩ ⟨some ⟨25, 2⟩, some 1⟩).self =
      (amount_t.operator_plus_eq ⟨some ⟨25, 2⟩, some 1⟩ ⟨some ⟨15, 1⟩, some 1⟩).self ∧
    (amount_t.operator_plus_eq ⟨some ⟨25, 2⟩, some 1⟩ ⟨some ⟨15, 1⟩, some 1⟩).self =
      ⟨some ⟨175, 2⟩, some 1⟩ :=
  ⟨(add_commutative_of_handle ⟨some ⟨15, 1⟩, some 1⟩ ⟨some ⟨25, 2⟩, some 1⟩ rfl rfl (fun _ _ => rfl)
      (by decide) (by decide)).2.2.1, rfl⟩

/-! ## Zero identity and additive inverse -/

/-- C7: for every valid amount `a` and the zero amount: `a += zero` and
`a -= zero` leave `a` as it is; `zero -= a` ends in the negation of `a` (the
mantissa negated, the precision and the commodity of `a`); `a *= zero` and
`zero *= a` end in the zero amount, without quantity and without commodity.
None of them raises anything, and `==` holds in each case. -/
theorem C7_zero_identity (cs : commodities_t) (a : amount_t) (hv : a.valid = true) :
    (amount_t.operator_plus_eq a zero = ⟨a, none⟩ ∧
      amount_t.operator_eq (amount_t.operator_plus_eq a zero).self a = .ok true) ∧
    (amount_t.operator_minus_eq a zero = ⟨a, none⟩ ∧
      amount_t.operator_eq (amount_t.operator_minus_eq a zero).self a = .ok true) ∧
    (amount_t.operator_minus_eq zero a = ⟨amount_t.negate a, none⟩ ∧
      (∀ q, a.quantity = some q →
        (amount_t.operator_minus_eq zero a).self = ⟨some ⟨-q.val, q.prec⟩, a.commodity_⟩) ∧
      amount_t.operator_eq (amount_t.operator_minus_eq zero a).self (amount_t.negate a) =
        .ok true) ∧
    (amount_t.operator_mul_eq cs a zero = ⟨⟨none, none⟩, none⟩ ∧
      amount_t.operator_eq (amount_t.operator_mul_eq cs a zero).self zero = .ok true) ∧
    (amount_t.operator_mul_eq cs zero a = ⟨⟨none, none⟩, none⟩ ∧
      amount_t.operator_eq (amount_t.operator_mul_eq cs zero a).self zero = .ok true) := by
  have h1 : amount_t.operator_plus_eq a zero = ⟨a, none⟩ := rfl
  have h2 : amount_t.operator_minus_eq a zero = ⟨a, none⟩ := rfl
  have h3 : amount_t.operator_minus_eq zero a = ⟨amount_t.negate a, none⟩ := by
    cases hq : a.quantity with
    | none =>
      have ha := valid_of_no_quantity hv hq
      subst ha
      rfl
    | some q =>
      obtain ⟨qo, c⟩ := a
      simp only at hq
      subst hq
      rfl
  have h4 : amount_t.operator_mul_eq cs a zero = ⟨⟨none, none⟩, none⟩ := by
    cases hq : a.quantity with
    | none =>
      have ha := valid_of_no_quantity hv hq
      subst ha
      rfl
    | some q =>
      obtain ⟨qo, c⟩ := a
      simp only at hq
      subst hq
      rfl
  have h5 : amount_t.operator_mul_eq cs zero a = ⟨⟨none, none⟩, none⟩ := by
    cases hq : a.quantity with
    | none =>
      have ha := valid_of_no_quantity hv hq
      subst ha
      rfl
    | some q =>
      obtain ⟨qo, c⟩ := a
      simp only at hq
      subst hq
      rfl
  refine ⟨⟨h1, ?_⟩, ⟨h2, ?_⟩, ⟨h3, ?_, ?_⟩, ⟨h4, ?_⟩, ⟨h5, ?_⟩⟩
  · rw [h1]; exact operator_eq_self a
  · rw [h2]; exact operator_eq_self a
  · intro q hq
    obtain ⟨qo, c⟩ := a
    simp only at hq
    subst hq
    rfl
  · rw [h3]; exact operator_eq_self _
  · rw [h4]; rfl
  · rw [h5]; rfl

/-- C7 (witness): the amount 2.50 of commodity 1. -/
theorem C7_zero_identity_witness :
    amount_t.operator_minus_eq zero ⟨some ⟨250, 2⟩, some 1⟩ =
      ⟨⟨some ⟨-250, 2⟩, some 1⟩, none⟩ ∧
    amount_t.operator_mul_eq dollars ⟨some ⟨250, 2⟩, some 1⟩ zero = ⟨⟨none, none⟩, none⟩ :=
  ⟨(C7_zero_identity dollars ⟨some ⟨250, 2⟩, some 1⟩ rfl).2.2.1.1,
    (C7_zero_identity dollars ⟨some ⟨250, 2⟩, some 1⟩ rfl).2.2.2.1.1⟩

/-- C8 (counterexample): the sum of 5 and `-5` of commodity 1 still carries
commodity 1, and a quantity cell of mantissa 0. -/
theorem C8_inverse_keeps_commodity :
    (amount_t.operator_plus_eq ⟨some ⟨5, 0⟩, some 1⟩
      (amount_t.negate ⟨some ⟨5, 0⟩, some 1⟩)).self = ⟨some ⟨0, 0⟩, some 1⟩ ∧
    (amount_t.operator_plus_eq ⟨some ⟨5, 0⟩, some 1⟩
      (amount_t.negate ⟨some ⟨5, 0⟩, some 1⟩)).self.commodity_ ≠ none := by
  exact ⟨rfl, by decide⟩

/-- C8 (amended): for every amount `a` with a quantity, `a += -a` raises nothing
and leaves `a` with a quantity of mantissa 0, its precision and its commodity;
`==` holds between that result and the zero amount. -/
theorem C8_additive_inverse (a : amount_t) (q : bigint_t) (hq : a.quantity = some q) :
    amount_t.operator_plus_eq a (amount_t.negate a) =
      ⟨⟨some ⟨0, q.prec⟩, a.commodity_⟩, none⟩ ∧
    amount_t.operator_eq (amount_t.operator_plus_eq a (amount_t.negate a)).self zero =
      .ok true := by
  obtain ⟨qo, c⟩ := a
  simp only at hq
  subst hq
  have h : amount_t.operator_plus_eq ⟨some q, c⟩ (amount_t.negate ⟨some q, c⟩) =
      ⟨⟨some ⟨0, q.prec⟩, c⟩, none⟩ := by
    simp [amount_t.operator_plus_eq, amount_t.negate, amount_t.set_val, MPZ]
  refine ⟨h, ?_⟩
  rw [h]
  rfl

/-- C8 (witness): the amount 2.50 of commodity 1. -/
theorem C8_additive_inverse_witness :
    amount_t.operator_plus_eq ⟨some ⟨250, 2⟩, some 1⟩
      (amount_t.negate ⟨some ⟨250, 2⟩, some 1⟩) = ⟨⟨some ⟨0, 2⟩, some 1⟩, none⟩ :=
  (C8_additive_inverse ⟨some ⟨250, 2⟩, some 1⟩ ⟨250, 2⟩ rfl).1

/-! ## Multiplication and division -/

theorem trim_eq_round (cs : commodities_t) (c : Option Nat) (q : bigint_t)
    (hq : q.prec < 65536) :
    (amount_t.trim cs ⟨some q, c⟩).thrown = none ∧
    amount_t.round ⟨some q, c⟩ ((cs (amount_t.commodity ⟨some q, c⟩)).precision + 6) =
      .ok (amount_t.trim cs ⟨some q, c⟩).self ∧
    (amount_t.trim cs ⟨some q, c⟩).self.prec =
      min q.prec ((cs (amount_t.commodity ⟨some q, c⟩)).precision + 6) ∧
    (amount_t.trim cs ⟨some q, c⟩).self.commodity_ = c ∧
    (amount_t.trim cs ⟨some q, c⟩).self.quantity.isSome = true ∧
    (q.prec ≤ (cs (amount_t.commodity ⟨some q, c⟩)).precision + 6 →
      (amount_t.trim cs ⟨some q, c⟩).self = ⟨some q, c⟩) := by
  refine ⟨trim_thrown _ _, ?_⟩
  unfold amount_t.trim amount_t.round
  simp only [amount_t.prec, MPZ]
  by_cases h : q.prec > (cs (amount_t.commodity ⟨some q, c⟩)).precision + 6
  · rw [if_pos h, if_neg (by omega), mpz_round_eq _ h]
    refine ⟨rfl, ?_, rfl, rfl, fun h2 => absurd h2 (by omega)⟩
    simp only [amount_t.set_prec, amount_t.set_val, Option.map_some']
    rw [Nat.mod_eq_of_lt (by omega)]
    omega
  · rw [if_neg h, if_pos (by omega)]
    refine ⟨rfl, ?_, rfl, rfl, fun _ => rfl⟩
    simp only
    omega

/-- C9: for two amounts that both have a quantity (the sum of their stored
precisions within the range of the cell's `unsigned short`), with `cp` the
display precision of the commodity of `a`: `a *= b` raises nothing, keeps the
commodity of `a`, and leaves the precision `min (a.prec + b.prec, cp + 6)`; the
result is the exact product of the mantissas at precision `a.prec + b.prec`
rounded by `round` to `cp + 6` digits, which is the exact product itself when
`a.prec + b.prec <= cp + 6` and its `mpz_round` otherwise. -/
theorem C9_mul_precision (cs : commodities_t) (a b : amount_t) (qa qb : bigint_t)
    (ha : a.quantity = some qa) (hb : b.quantity = some qb)
    (hp : qa.prec + qb.prec < 65536) :
    (amount_t.operator_mul_eq cs a b).thrown = none ∧
    (amount_t.operator_mul_eq cs a b).self.commodity_ = a.commodity_ ∧
    (amount_t.operator_mul_eq cs a b).self.quantity.isSome = true ∧
    (amount_t.operator_mul_eq cs a b).self.prec =
      min (qa.prec + qb.prec) ((cs a.commodity).precision + 6) ∧
    (qa.prec + qb.prec ≤ (cs a.commodity).precision + 6 →
      MPZ (amount_t.operator_mul_eq cs a b).self.quantity = qa.val * qb.val) ∧
    ((cs a.commodity).precision + 6 < qa.prec + qb.prec →
      mpz_round (qa.val * qb.val) (qa.prec + qb.prec) ((cs a.commodity).precision + 6) =
        .ok (MPZ (amount_t.operator_mul_eq cs a b).self.quantity)) ∧
    amount_t.round ⟨some ⟨qa.val * qb.val, qa.prec + qb.prec⟩, a.commodity_⟩
        ((cs a.commodity).precision + 6) = .ok (amount_t.operator_mul_eq cs a b).self := by
  obtain ⟨qo, c⟩ := a
  obtain ⟨ro, cb⟩ := b
  simp only at ha hb
  subst ha hb
  have hm : amount_t.operator_mul_eq cs ⟨some qa, c⟩ ⟨some qb, cb⟩ =
      amount_t.trim cs ⟨some ⟨qa.val * qb.val, qa.prec + qb.prec⟩, c⟩ := by
    simp [amount_t.operator_mul_eq, amount_t.set_prec, amount_t.set_val,
      Nat.mod_eq_of_lt hp]
  obtain ⟨t1, t2, t3, t4, t6, t5⟩ :=
    trim_eq_round cs c ⟨qa.val * qb.val, qa.prec + qb.prec⟩ hp
  have hcomm : amount_t.commodity ⟨some ⟨qa.val * qb.val, qa.prec + qb.prec⟩, c⟩ =
      amount_t.commodity ⟨some qa, c⟩ := rfl
  rw [hcomm] at t2 t3 t5
  rw [hm]
  refine ⟨t1, t4, t6, t3, ?_, ?_, t2⟩
  · intro hle
    rw [t5 hle]
    rfl
  · intro hlt
    have h := t2
    unfold amount_t.round at h
    simp only at h
    rw [if_neg (by omega)] at h
    rw [mpz_round_eq _ hlt] at h ⊢
    simp only [Except.ok.injEq] at h
    rw [← h]
    rfl

/-- C9 (witness): 1.2345 times 2.3456 in a commodity of display precision 0:
the eight digits of the product are rounded to six. -/
theorem C9_mul_precision_witness :
    (amount_t.operator_mul_eq dollars ⟨some ⟨12345, 4⟩, none⟩ ⟨some ⟨23456, 4⟩, none⟩).self.prec
      = min (4 + 4) (0 + 6) ∧
    (amount_t.operator_mul_eq dollars ⟨some ⟨12345, 4⟩, none⟩ ⟨some ⟨23456, 4⟩, none⟩).self =
      ⟨some ⟨2895643, 6⟩, none⟩ :=
  ⟨(C9_mul_precision dollars ⟨some ⟨12345, 4⟩, none⟩ ⟨some ⟨23456, 4⟩, none⟩ ⟨12345, 4⟩
      ⟨23456, 4⟩ rfl rfl (by decide)).2.2.2.1, rfl⟩

theorem tdiv_rat_bounds (N D : Int) (hD : D ≠ 0) :
    |((Int.tdiv N D : Int) : ℚ)| ≤ |(N : ℚ) / D| ∧
    |(N : ℚ) / D - ((Int.tdiv N D : Int) : ℚ)| < 1 := by
  have hDq : (D : ℚ) ≠ 0 := by exact_mod_cast hD
  constructor
  · have h1 : |((Int.tdiv N D : Int) : ℚ)| = ((N.natAbs / D.natAbs : ℕ) : ℚ) := by
      rw [← Int.cast_abs, Int.abs_eq_natAbs, Int.natAbs_tdiv]
      rfl
    rw [h1, abs_div, ← Int.cast_abs, ← Int.cast_abs, Int.abs_eq_natAbs, Int.abs_eq_natAbs]
    exact Nat.cast_div_le
  · have hr : |Int.tmod N D| < |D| := by
      rcases lt_or_gt_of_ne hD with h | h
      · have := tmod_bounds N (show 0 < -D by omega)
        rw [Int.tmod_neg] at this
        rw [abs_lt, abs_of_neg h]
        omega
      · have := tmod_bounds N h
        rw [abs_lt, abs_of_pos h]
        omega
    have hdec : (N : ℚ) = D * (Int.tdiv N D : Int) + (Int.tmod N D : Int) := by
      exact_mod_cast (Int.tdiv_add_tmod N D).symm
    have hsub : (N : ℚ) / D - ((Int.tdiv N D : Int) : ℚ) = ((Int.tmod N D : Int) : ℚ) / D := by
      rw [hdec]
      field_simp
    rw [hsub, abs_div, div_lt_one (abs_pos.mpr hDq)]
    exact_mod_cast hr

/-- C10: for an amount `a` with a quantity and a divisor `b` that division
accepts (precision of `a` within the range of the cell's `unsigned short`), with
`lp`, `rp` the stored precisions and `cp` the display precision of the commodity
of `a`: `a /= b` raises nothing, keeps the commodity of `a` and leaves the
precision `min (lp + 6, cp + 6)`; when `lp <= cp` the mantissa is
`a.mantissa * 10 ^ (rp + 6)` divided by `b.mantissa` with truncation toward zero,
the magnitude of the result does not exceed that of the exact quotient, and the
two differ by less than `10 ^ -(lp + 6)`. -/
theorem C10_div_truncates (cs : commodities_t) (a b : amount_t) (qa qb : bigint_t)
    (ha : a.quantity = some qa) (hb : b.quantity = some qb)
    (hacc : amount_t.operator_bool cs b = true) (hp : qa.prec + 6 < 65536) :
    (amount_t.operator_div_eq cs a b).thrown = none ∧
    (amount_t.operator_div_eq cs a b).self.commodity_ = a.commodity_ ∧
    (amount_t.operator_div_eq cs a b).self.quantity.isSome = true ∧
    (amount_t.operator_div_eq cs a b).self.prec =
      min (qa.prec + 6) ((cs a.commodity).precision + 6) ∧
    (qa.prec ≤ (cs a.commodity).precision →
      MPZ (amount_t.operator_div_eq cs a b).self.quantity =
        Int.tdiv (qa.val * 10 ^ (qb.prec + 6)) qb.val ∧
      |(amount_t.operator_div_eq cs a b).self.numeric_value| ≤
        |a.numeric_value / b.numeric_value| ∧
      |a.numeric_value / b.numeric_value -
          (amount_t.operator_div_eq cs a b).self.numeric_value| <
        1 / 10 ^ (qa.prec + 6)) := by
  obtain ⟨q', hq', hne⟩ := operator_bool_some_of_true hacc
  rw [hb] at hq'
  cases hq'
  obtain ⟨qo, c⟩ := a
  obtain ⟨ro, cb⟩ := b
  simp only at ha hb
  subst ha hb
  have hm : amount_t.operator_div_eq cs ⟨some qa, c⟩ ⟨some qb, cb⟩ =
      amount_t.trim cs
        ⟨some ⟨Int.tdiv (qa.val * 10 ^ (qb.prec + 6)) qb.val, qa.prec + 6⟩, c⟩ := by
    simp [amount_t.operator_div_eq, hacc, amount_t.set_prec, amount_t.set_val, MPZ,
      Nat.mod_eq_of_lt hp]
  obtain ⟨t1, -, t3, t4, t6, t5⟩ :=
    trim_eq_round cs c ⟨Int.tdiv (qa.val * 10 ^ (qb.prec + 6)) qb.val, qa.prec + 6⟩ hp
  have hcomm : amount_t.commodity
      ⟨some ⟨Int.tdiv (qa.val * 10 ^ (qb.prec + 6)) qb.val, qa.prec + 6⟩, c⟩ =
      amount_t.commodity ⟨some qa, c⟩ := rfl
  rw [hcomm] at t3 t5
  rw [hm]
  refine ⟨t1, t4, t6, t3, fun hle => ?_⟩
  rw [t5 (by simpa using hle)]
  obtain ⟨b1, b2⟩ := tdiv_rat_bounds (qa.val * 10 ^ (qb.prec + 6)) qb.val hne
  have hy : (qb.val : ℚ) ≠ 0 := by exact_mod_cast hne
  have hk : (0 : ℚ) < 10 ^ (qa.prec + 6) := by positivity
  have hquot : amount_t.numeric_value ⟨some qa, c⟩ / amount_t.numeric_value ⟨some qb, cb⟩ =
      (((qa.val * 10 ^ (qb.prec + 6) : Int) : ℚ) / qb.val) / 10 ^ (qa.prec + 6) := by
    simp only [amount_t.numeric_value]
    push_cast
    field_simp
    ring
  refine ⟨rfl, ?_, ?_⟩
  · rw [hquot]
    simp only [amount_t.numeric_value]
    rw [abs_div, abs_div _ ((10 : ℚ) ^ (qa.prec + 6))]
    exact div_le_div_of_nonneg_right b1 (abs_nonneg _)
  · rw [hquot]
    simp only [amount_t.numeric_value]
    rw [← sub_div, abs_div, abs_of_pos hk]
    exact div_lt_div_of_pos_right b2 hk

/-- C10 (witness): 10 divided by 3, both of precision 0 in the commodity `$` of
display precision 2, gives the mantissa 3333333 at precision 6, and `round (2)`
of that gives the mantissa 333 at precision 2. -/
theorem C10_div_truncates_witness :
    amount_t.operator_bool dollars ⟨some ⟨3, 0⟩, some 1⟩ = true ∧
    (amount_t.operator_div_eq dollars ⟨some ⟨10, 0⟩, some 1⟩ ⟨some ⟨3, 0⟩, some 1⟩).self.prec =
      min (0 + 6) (2 + 6) ∧
    amount_t.operator_div_eq dollars ⟨some ⟨10, 0⟩, some 1⟩ ⟨some ⟨3, 0⟩, some 1⟩ =
      ⟨⟨some ⟨3333333, 6⟩, some 1⟩, none⟩ ∧
    amount_t.round ⟨some ⟨3333333, 6⟩, some 1⟩ 2 = .ok ⟨some ⟨333, 2⟩, some 1⟩ :=
  ⟨rfl, (C10_div_truncates dollars ⟨some ⟨10, 0⟩, some 1⟩ ⟨some ⟨3, 0⟩, some 1⟩ ⟨10, 0⟩ ⟨3, 0⟩
      rfl rfl rfl (by decide)).2.2.2.1, rfl, rfl⟩


/-! ## Commodity mismatch -/

theorem resize_error (a : amount_t) (p : Nat) (e : failure)
    (h : amount_t._resize a p = .error e) : e = .assertion := by
  unfold amount_t._resize at h
  split at h
  · cases h
    rfl
  · split at h
    · cases h
    · split at h
      · cases h
      · split at h <;> cases h

theorem plus_eq_thrown (a b : amount_t) :
    ((amount_t.operator_plus_eq a b).thrown =
        some (.amount_error "Adding amounts with different commodities") ∧
      (amount_t.operator_plus_eq a b).self = a ∧
      a.quantity.isSome = true ∧ b.quantity.isSome = true ∧ a.commodity_ ≠ b.commodity_) ∨
    (((amount_t.operator_plus_eq a b).thrown = none ∨
        (amount_t.operator_plus_eq a b).thrown = some .assertion) ∧
      ¬ (a.quantity.isSome = true ∧ b.quantity.isSome = true ∧
        a.commodity_ ≠ b.commodity_)) := by
  unfold amount_t.operator_plus_eq
  cases hb : b.quantity with
  | none => right; simp
  | some qb =>
    cases ha : a.quantity with
    | none => right; simp
    | some qa =>
      simp only
      by_cases hc : a.commodity_ = b.commodity_
      · right
        simp only [hc, ne_eq, not_true_eq_false, if_false, and_false, not_false_eq_true,
          and_true]
        split
        · simp
        · split
          · split
            · rename_i e he
              rw [resize_error _ _ _ he]
              simp
            · simp
          · split
            · rename_i e he
              rw [resize_error _ _ _ he]
              simp
            · simp
      · left
        simp [hc]

theorem minus_eq_thrown (a b : amount_t) :
    ((amount_t.operator_minus_eq a b).thrown =
        some (.amount_error "Subtracting amounts with different commodities") ∧
      (amount_t.operator_minus_eq a b).self = a ∧
      a.quantity.isSome = true ∧ b.quantity.isSome = true ∧ a.commodity_ ≠ b.commodity_) ∨
    (((amount_t.operator_minus_eq a b).thrown = none ∨
        (amount_t.operator_minus_eq a b).thrown = some .assertion) ∧
      ¬ (a.quantity.isSome = true ∧ b.quantity.isSome = true ∧
        a.commodity_ ≠ b.commodity_)) := by
  unfold amount_t.operator_minus_eq
  cases hb : b.quantity with
  | none => right; simp
  | some qb =>
    cases ha : a.quantity with
    | none => right; simp
    | some qa =>
      simp only
      by_cases hc : a.commodity_ = b.commodity_
      · right
        simp only [hc, ne_eq, not_true_eq_false, if_false, and_false, not_false_eq_true,
          and_true]
        split
        · simp
        · split
          · split
            · rename_i e he
              rw [resize_error _ _ _ he]
              simp
            · simp
          · split
            · rename_i e he
              rw [resize_error _ _ _ he]
              simp
            · simp
      · left
        simp [hc]

/-- The mismatch test of the code: `a += b` and `a -= b` throw the
commodity-mismatch `amount_error` exactly when both amounts have a quantity and
their commodity handles `commodity_` differ; whenever an `amount_error` is thrown, `a` is what it was before the call:
the same mantissa, precision and commodity. -/
theorem mismatch_iff_handles_differ (a b : amount_t) :
    ((amount_t.operator_plus_eq a b).thrown =
        some (.amount_error "Adding amounts with different commodities") ↔
      a.quantity.isSome = true ∧ b.quantity.isSome = true ∧ a.commodity_ ≠ b.commodity_) ∧
    ((amount_t.operator_minus_eq a b).thrown =
        some (.amount_error "Subtracting amounts with different commodities") ↔
      a.quantity.isSome = true ∧ b.quantity.isSome = true ∧ a.commodity_ ≠ b.commodity_) ∧
    (∀ what, (amount_t.operator_plus_eq a b).thrown = some (.amount_error what) →
      (amount_t.operator_plus_eq a b).self = a) ∧
    (∀ what, (amount_t.operator_minus_eq a b).thrown = some (.amount_error what) →
      (amount_t.operator_minus_eq a b).self = a) := by
  refine ⟨?_, ?_, ?_, ?_⟩
  · rcases plus_eq_thrown a b with ⟨h1, _, h3⟩ | ⟨h1 | h1, h2⟩
    · exact ⟨fun _ => h3, fun _ => h1⟩
    · exact ⟨fun h => (by rw [h1] at h; cases h), fun h => absurd h h2⟩
    · exact ⟨fun h => (by rw [h1] at h; cases h), fun h => absurd h h2⟩
  · rcases minus_eq_thrown a b with ⟨h1, _, h3⟩ | ⟨h1 | h1, h2⟩
    · exact ⟨fun _ => h3, fun _ => h1⟩
    · exact ⟨fun h => (by rw [h1] at h; cases h), fun h => absurd h h2⟩
    · exact ⟨fun h => (by rw [h1] at h; cases h), fun h => absurd h h2⟩
  · intro what h
    rcases plus_eq_thrown a b with ⟨_, h2, _⟩ | ⟨h1 | h1, _⟩
    · exact h2
    · rw [h1] at h; cases h
    · rw [h1] at h; cases h
  · intro what h
    rcases minus_eq_thrown a b with ⟨_, h2, _⟩ | ⟨h1 | h1, _⟩
    · exact h2
    · rw [h1] at h; cases h
    · rw [h1] at h; cases h

/-! ## Incomparable commodities -/

theorem cmp_never_throws (OP : Int → Int → Bool) (a b : amount_t) (what : String) :
    amount_t.AMOUNT_CMP_AMOUNT OP a b ≠ .error (.amount_error what) := by
  intro h
  unfold amount_t.AMOUNT_CMP_AMOUNT at h
  split at h
  · cases h
  · split at h
    · cases h
    · split at h
      · cases h
      · split at h
        · cases h
        · split at h
          · split at h
            · rename_i e he
              have := resize_error _ _ _ he
              subst this
              cases h
            · cases h
          · split at h
            · rename_i e he
              have := resize_error _ _ _ he
              subst this
              cases h
            · cases h

theorem cmp_incomparable (OP : Int → Int → Bool) (a b : amount_t)
    (ha : a.quantity.isSome = true) (hb : b.quantity.isSome = true)
    (hna : a.commodity ≠ null_commodity) (hnb : b.commodity ≠ null_commodity)
    (hne : a.commodity ≠ b.commodity) :
    amount_t.AMOUNT_CMP_AMOUNT OP a b = .ok false := by
  obtain ⟨qa, hqa⟩ := Option.isSome_iff_exists.mp ha
  obtain ⟨qb, hqb⟩ := Option.isSome_iff_exists.mp hb
  unfold amount_t.AMOUNT_CMP_AMOUNT
  simp [hqa, hqb, commodity_bool, hna, hnb, hne]

/-- C12: for two amounts that both have a quantity and carry two different
commodities, neither of them the null commodity, each of `<`, `<=`, `>`, `>=` and
`==` returns false, whatever the mantissas and the precisions; and no comparison
of any two amounts throws an `amount_error`. -/
theorem C12_incomparable_all_false (a b : amount_t)
    (ha : a.quantity.isSome = true) (hb : b.quantity.isSome = true)
    (hna : a.commodity ≠ null_commodity) (hnb : b.commodity ≠ null_commodity)
    (hne : a.commodity ≠ b.commodity) :
    amount_t.operator_lt a b = .ok false ∧
    amount_t.operator_le a b = .ok false ∧
    amount_t.operator_gt a b = .ok false ∧
    amount_t.operator_ge a b = .ok false ∧
    amount_t.operator_eq a b = .ok false ∧
    (∀ (OP : Int → Int → Bool) (x y : amount_t) (what : String),
      amount_t.AMOUNT_CMP_AMOUNT OP x y ≠ .error (.amount_error what)) :=
  ⟨cmp_incomparable _ a b ha hb hna hnb hne, cmp_incomparable _ a b ha hb hna hnb hne,
    cmp_incomparable _ a b ha hb hna hnb hne, cmp_incomparable _ a b ha hb hna hnb hne,
    cmp_incomparable _ a b ha hb hna hnb hne, cmp_never_throws⟩

/-- C12 (witness): 1 USD (commodity 1) against 2 EUR (commodity 2): `<`, `==` and
`>=` are false. -/
theorem C12_incomparable_all_false_witness :
    amount_t.operator_lt ⟨some ⟨1, 0⟩, some 1⟩ ⟨some ⟨2, 0⟩, some 2⟩ = .ok false ∧
    amount_t.operator_eq ⟨some ⟨1, 0⟩, some 1⟩ ⟨some ⟨2, 0⟩, some 2⟩ = .ok false ∧
    amount_t.operator_ge ⟨some ⟨1, 0⟩, some 1⟩ ⟨some ⟨2, 0⟩, some 2⟩ = .ok false :=
  have h := C12_incomparable_all_false ⟨some ⟨1, 0⟩, some 1⟩ ⟨some ⟨2, 0⟩, some 2⟩ rfl rfl
    (by decide) (by decide) (by decide)
  ⟨h.1, h.2.2.2.2.1, h.2.2.2.1⟩


/-! ## Price lookup -/

theorem lower_bound_split (prices : history_map) (moment : Int) :
    ∃ l1 l2, prices = l1 ++ l2 ∧ lower_bound prices moment = l1.length ∧
      (∀ x ∈ l1, x.1 < moment) ∧ (∀ x, l2.head? = some x → moment ≤ x.1) := by
  induction prices with
  | nil => exact ⟨[], [], rfl, rfl, by simp, by simp⟩
  | cons p ps ih =>
    obtain ⟨l1, l2, h1, h2, h3, h4⟩ := ih
    by_cases hp : p.1 < moment
    · refine ⟨p :: l1, l2, by simp [h1], by simp [lower_bound, hp, h2], ?_, h4⟩
      intro x hx
      rcases List.mem_cons.mp hx with rfl | hx
      · exact hp
      · exact h3 x hx
    · refine ⟨[], p :: ps, rfl, by simp [lower_bound, hp], by simp, ?_⟩
      intro x hx
      simp only [List.head?_cons, Option.some.injEq] at hx
      subst hx
      omega

theorem eq_nil_or_snoc {α : Type} (l : List α) : l = [] ∨ ∃ init r, l = init ++ [r] := by
  rcases List.eq_nil_or_concat l with h | ⟨init, r, h⟩
  · exact Or.inl h
  · exact Or.inr ⟨init, r, by rw [h, List.concat_eq_append]⟩

theorem getElem?_length_append {α : Type} (l1 : List α) (x : α) (l2 : List α) :
    (l1 ++ x :: l2)[l1.length]? = some x := by
  induction l1 with
  | nil => simp
  | cons y ys ih => simpa using ih

theorem getElem?_snoc_append {α : Type} (init : List α) (e : α) (rest : List α) :
    (init ++ [e] ++ rest)[(init ++ [e]).length - 1]? = some e := by
  have h : (init ++ [e]).length - 1 = init.length := by simp
  rw [h, List.append_assoc]
  exact getElem?_length_append init e rest

/-- C20 (counterexample): with the single price 5 stored at time 10, the value at
the moment 5, which lies before every stored time, is the amount without
quantity, not the most recent price. -/
theorem C20_before_first_price :
    commodity_t.value priced_at_ten none 5 = .ok ⟨none, none⟩ ∧
    priced_at_ten.history = some [(10, ⟨some ⟨5, 0⟩, some 1⟩)] := by
  exact ⟨rfl, rfl⟩

/-- C20 (amended): with no updater and a non-empty history (times strictly
ascending), `value (0)` is the most recent price; for a moment other than 0 it is
the price stored at the greatest time not after the moment; and when every stored
time lies after the moment it is the amount without quantity.  A price is
returned through the assignment to the local `price`, which gives the stored
amount itself whenever that has a quantity. -/
theorem C20_value_lookup (c : commodity_t) (prices : history_map)
    (hh : c.history = some prices) (hne : prices ≠ [])
    (hs : prices.Pairwise fun p q => p.1 < q.1) :
    (∀ r, prices.getLast? = some r →
      c.value none 0 = .ok (amount_t.operator_assign zero r.2)) ∧
    (∀ moment, moment ≠ 0 → ∀ e ∈ prices, e.1 ≤ moment →
      (∀ e' ∈ prices, e'.1 ≤ moment → e'.1 ≤ e.1) →
      c.value none moment = .ok (amount_t.operator_assign zero e.2)) ∧
    (∀ moment, moment ≠ 0 → (∀ e ∈ prices, moment < e.1) →
      c.value none moment = .ok zero) ∧
    (∀ p : amount_t, p.quantity.isSome = true → amount_t.operator_assign zero p = p) := by
  have hlen : prices.length > 0 := List.length_pos.mpr hne
  refine ⟨?_, ?_, ?_, ?_⟩
  · intro r hr
    simp [commodity_t.value, hh, hlen, hr, zero]
  · intro moment hm e he hle hmax
    obtain ⟨l1, l2, h1, h2, h3, h4⟩ := lower_bound_split prices moment
    subst h1
    rw [List.pairwise_append] at hs
    obtain ⟨hs1, hs2, hs12⟩ := hs
    unfold commodity_t.value
    simp only [hh, hlen, not_true_eq_false, if_false, hm, h2]
    -- the last entry of `l1`, when there is one, is the greatest below `moment`
    have hl1 : ∀ init r, l1 = init ++ [r] → e ∈ l1 → e = r := by
      intro init r hl hmem
      subst hl
      rw [List.pairwise_append] at hs1
      rcases List.mem_append.mp hmem with hi | hr
      · have h5 := hs1.2.2 e hi r (by simp)
        have h6 := hmax r (by simp) (le_of_lt (h3 r (by simp)))
        omega
      · simpa using hr
    cases l2 with
    | nil =>
      simp only [List.append_nil, if_true]
      rcases eq_nil_or_snoc l1 with hnil | ⟨init, r, hl⟩
      · subst hnil
        simp at hne
      · have her := hl1 init r hl (by simpa using he)
        subst her
        rw [hl]
        simp [zero]
    | cons x l2' =>
      have hx : moment ≤ x.1 := h4 x rfl
      have hnot : ¬ (l1.length = (l1 ++ x :: l2').length) := by simp
      have hget : (l1 ++ x :: l2')[l1.length]? = some x := getElem?_length_append l1 x l2'
      simp only [hnot, if_false, hget]
      have hnotl2 : ∀ y ∈ l2', ¬ y.1 ≤ moment := by
        intro y hy
        have := (List.pairwise_cons.mp hs2).1 y hy
        omega
      by_cases hxm : moment - x.1 ≠ 0
      · simp only [hxm, ne_eq, not_false_eq_true, if_true]
        have hxgt : moment < x.1 := by omega
        rcases eq_nil_or_snoc l1 with hnil | ⟨init, r, hl⟩
        · subst hnil
          exfalso
          rcases List.mem_cons.mp (by simpa using he) with rfl | hy
          · omega
          · exact hnotl2 e hy hle
        · have hmem : e ∈ l1 := by
            rcases List.mem_append.mp he with h | h
            · exact h
            · exfalso
              rcases List.mem_cons.mp h with rfl | hy
              · omega
              · exact hnotl2 e hy hle
          have her := hl1 init r hl hmem
          subst her
          subst hl
          have h0 : (init ++ [e]).length ≠ 0 := by simp
          have hget2 : (init ++ [e] ++ x :: l2')[(init ++ [e]).length - 1]? = some e :=
            getElem?_snoc_append init e (x :: l2')
          simp only [ne_eq, h0, not_false_eq_true, if_true, hget2]
          rfl
      · have hxeq : x.1 = moment := by omega
        rw [if_neg hxm]
        have hex : e = x := by
          rcases List.mem_append.mp he with h | h
          · have h5 := h3 e h
            have h6 := hmax x (by simp) (by omega)
            omega
          · rcases List.mem_cons.mp h with rfl | hy
            · rfl
            · exact absurd hle (hnotl2 e hy)
        subst hex
        rfl
  · intro moment hm hall
    obtain ⟨l1, l2, h1, h2, h3, h4⟩ := lower_bound_split prices moment
    subst h1
    have hl1 : l1 = [] := by
      cases l1 with
      | nil => rfl
      | cons y ys =>
        have h5 := h3 y (by simp)
        have h6 := hall y (by simp)
        omega
    subst hl1
    cases l2 with
    | nil => simp at hne
    | cons x l2' =>
      have hx := hall x (by simp)
      have hxm : moment - x.1 ≠ 0 := by omega
      simp only [List.nil_append] at hh h2
      simp only [List.length_nil] at h2
      unfold commodity_t.value
      simp [hh, hm, h2, hxm, zero]
  · intro p hp
    obtain ⟨q, c⟩ := p
    simp only at hp
    simp [amount_t.operator_assign, hp, amount_t._copy]

/-- C20 (witness): with the prices 5, 6 and 7 stored at the times 10, 20 and 30,
the value at the moment 25 is the price 6 stored at time 20. -/
theorem C20_value_lookup_witness :
    commodity_t.value priced_thrice none 25 = .ok ⟨some ⟨6, 0⟩, some 1⟩ ∧
    commodity_t.value priced_thrice none 0 = .ok ⟨some ⟨7, 0⟩, some 1⟩ :=
  have h := C20_value_lookup priced_thrice
    [(10, ⟨some ⟨5, 0⟩, some 1⟩), (20, ⟨some ⟨6, 0⟩, some 1⟩), (30, ⟨some ⟨7, 0⟩, some 1⟩)]
    rfl (by simp) (by simp)
  ⟨h.2.1 25 (by decide) (20, ⟨some ⟨6, 0⟩, some 1⟩) (by simp) (by decide)
      (by
        intro e' he' hle
        simp only [List.mem_cons, List.mem_singleton, List.not_mem_nil, or_false] at he'
        rcases he' with rfl | rfl | rfl
        · decide
        · decide
        · exact absurd hle (by decide)),
    h.1 (30, ⟨some ⟨7, 0⟩, some 1⟩) rfl⟩


/-! ## Copy on write -/

namespace store

theorem get_of_cells {h : heap_t} {p : Nat} {c : bigint_t} (hc : h.cells p = some c) :
    h.get p = c := by
  simp [heap_t.get, hc]

theorem lt_next_of_cells {h : heap_t} (hf : fresh h) {p : Nat} {c : bigint_t}
    (hc : h.cells p = some c) : p < h.next := by
  by_contra hlt
  have := hf p (by omega)
  rw [hc] at this
  cases this

theorem release_shared {h : heap_t} {p : Nat} {c : bigint_t} (cb : Option Nat)
    (hc : h.cells p = some c) (h2 : 2 ≤ c.ref) (h32 : c.ref < 4294967296) :
    amount_t._release h ⟨some p, cb⟩ = h.set p { c with ref := c.ref - 1 } := by
  have h0 : c.ref ≠ 0 := by omega
  have hne : c.ref - 1 ≠ 0 := by omega
  simp [amount_t._release, get_of_cells hc, h0, hne]

/-- What `_dup ()` does to a handle on a cell referenced at least twice: it moves
the handle to a new cell with the same mantissa and precision and a reference
count of 1, and takes one reference off the old cell. -/
theorem dup_shared {h : heap_t} {p : Nat} {c0 : bigint_t} (cb : Option Nat)
    (hp : h.cells p = some c0) (h2 : 2 ≤ c0.ref) (h32 : c0.ref < 4294967296)
    (hf : fresh h) :
    (amount_t._dup h ⟨some p, cb⟩).2 = ⟨some h.next, cb⟩ ∧
    (amount_t._dup h ⟨some p, cb⟩).1.next = h.next + 1 ∧
    (amount_t._dup h ⟨some p, cb⟩).1.cells p = some { c0 with ref := c0.ref - 1 } ∧
    (amount_t._dup h ⟨some p, cb⟩).1.cells h.next = some ⟨c0.val, c0.prec, 0, 1, 0⟩ ∧
    (∀ x, x ≠ p → x ≠ h.next → (amount_t._dup h ⟨some p, cb⟩).1.cells x = h.cells x) ∧
    p ≠ h.next := by
  have hlt := lt_next_of_cells hf hp
  have hne : p ≠ h.next := by omega
  have hcell : amount_t.cell h ⟨some p, cb⟩ = c0 := by
    simp [amount_t.cell, get_of_cells hp]
  have ha : (h.alloc ⟨c0.val, c0.prec, 0, 1, 0⟩).1.cells p = some c0 := by
    simp [heap_t.alloc, hne, hp]
  have hd : amount_t._dup h ⟨some p, cb⟩ =
      ((h.alloc ⟨c0.val, c0.prec, 0, 1, 0⟩).1.set p { c0 with ref := c0.ref - 1 },
        ⟨some h.next, cb⟩) := by
    unfold amount_t._dup
    rw [hcell, if_pos (by omega)]
    simp only
    rw [release_shared cb ha h2 h32]
    rfl
  rw [hd]
  refine ⟨rfl, rfl, by simp [heap_t.set], ?_, ?_, hne⟩
  · simp [heap_t.set, heap_t.alloc, Ne.symm hne]
  · intro x hx1 hx2
    simp [heap_t.set, heap_t.alloc, hx1, hx2]

theorem dup_detached {h : heap_t} {p : Nat} {c0 : bigint_t} (cb : Option Nat)
    (hp : h.cells p = some c0) (h2 : 2 ≤ c0.ref) (h32 : c0.ref < 4294967296)
    (hf : fresh h) :
    detached (amount_t._dup h ⟨some p, cb⟩).1 p c0 (amount_t._dup h ⟨some p, cb⟩).2 := by
  obtain ⟨d1, _, d3, d4, _, d6⟩ := dup_shared cb hp h2 h32 hf
  exact ⟨d3, h.next, _, by rw [d1], Ne.symm d6, d4, rfl⟩

/-- A write to the cell of the detached handle that keeps its reference count
keeps the state detached. -/
theorem put_detached {h : heap_t} {p : Nat} {c0 : bigint_t} {b : amount_t}
    (hd : detached h p c0 b) (q : bigint_t) (hq : q.ref = (amount_t.cell h b).ref) :
    detached (amount_t.put h b q) p c0 b := by
  obtain ⟨h1, p', c', hb, hne, hc', hr⟩ := hd
  have hcell : amount_t.cell h b = c' := by
    simp [amount_t.cell, hb, get_of_cells hc']
  rw [hcell, hr] at hq
  refine ⟨?_, p', q, hb, hne, ?_, hq⟩
  · simp [amount_t.put, hb, heap_t.set, Ne.symm hne, h1]
  · simp [amount_t.put, hb, heap_t.set]

theorem trim_detached (cs : commodities_t) {h : heap_t} {p : Nat} {c0 : bigint_t}
    {b : amount_t} (hd : detached h p c0 b) :
    detached (amount_t.trim cs h b).heap p c0 (amount_t.trim cs h b).self := by
  unfold amount_t.trim
  simp only
  split
  · split
    · exact hd
    · exact put_detached hd _ rfl
  · exact hd

end store



namespace store

theorem release_other (h : heap_t) (t : amount_t) (x : Nat) (hx : t.quantity ≠ some x) :
    (amount_t._release h t).cells x = h.cells x ∧ (amount_t._release h t).next = h.next := by
  unfold amount_t._release
  cases ht : t.quantity with
  | none => exact ⟨rfl, rfl⟩
  | some pt =>
    have hne : x ≠ pt := by
      rintro rfl
      exact hx ht
    simp only
    by_cases h0 : (if (h.get pt).ref = 0 then 4294967295 else (h.get pt).ref - 1) = 0
    · rw [if_pos h0]
      by_cases h1 : (h.get pt).flags &&& BIGINT_BULK_ALLOC = 0
      · rw [if_pos h1]
        simp only [heap_t.free, if_neg hne, and_self]
      · rw [if_neg h1]
        simp only [heap_t.set, if_neg hne, and_self]
    · rw [if_neg h0]
      simp only [heap_t.set, if_neg hne, and_self]

theorem release_next (h : heap_t) (t : amount_t) :
    (amount_t._release h t).next = h.next := by
  unfold amount_t._release
  cases ht : t.quantity with
  | none => rfl
  | some pt =>
    simp only
    by_cases h0 : (if (h.get pt).ref = 0 then 4294967295 else (h.get pt).ref - 1) = 0
    · rw [if_pos h0]
      by_cases h1 : (h.get pt).flags &&& BIGINT_BULK_ALLOC = 0
      · rw [if_pos h1]
        simp only [heap_t.free]
      · rw [if_neg h1]
        simp only [heap_t.set]
    · rw [if_neg h0]
      simp only [heap_t.set]

/-- Releasing a handle keeps the state guarded for every handle that is not on
the cell at `p`. -/
theorem release_guarded {h : heap_t} {p : Nat} {c0 : bigint_t} {p' : Nat} {t : amount_t}
    (hg : guarded h p c0 p' t) (t' : amount_t) (ht' : t'.quantity ≠ some p)
    (ht'' : t'.quantity ≠ some p') (hlt : ∀ pt, t'.quantity = some pt → pt < h.next) :
    guarded (amount_t._release h t) p c0 p' t' := by
  obtain ⟨⟨n, g1, g2, g3, g4⟩, ⟨c', g5, g6⟩, g7, g8, g9, g10, g11⟩ := hg
  have hp' := (release_other h t p' g10).1
  have hnext := release_next h t
  refine ⟨?_, ⟨c', by rw [hp', g5], g6⟩, g7, by rw [hnext]; exact g8, by rw [hnext]; exact g9,
    ht'', by rw [hnext]; exact hlt⟩
  by_cases htp : t.quantity = some p
  · have h2 := g4 htp
    have hrel : amount_t._release h t = h.set p { c0 with ref := n - 1 } := by
      obtain ⟨q, c⟩ := t
      simp only at htp
      subst htp
      exact release_shared c g1 h2 g3
    refine ⟨n - 1, by simp [hrel, heap_t.set], by omega, by omega, fun hc => absurd hc ht'⟩
  · exact ⟨n, by rw [(release_other h t p htp).1, g1], g2, g3, fun hc => absurd hc ht'⟩

/-- The step `_dup ()` on the temporary handle keeps the state guarded, and
afterwards the handle is not on the cell at `p`. -/
theorem dup_guarded {h : heap_t} {p : Nat} {c0 : bigint_t} {p' : Nat} {t : amount_t}
    (hg : guarded h p c0 p' t) (hf : fresh h) :
    guarded (amount_t._dup h t).1 p c0 p' (amount_t._dup h t).2 ∧
    (amount_t._dup h t).2.quantity ≠ some p ∧ fresh (amount_t._dup h t).1 ∧
    ((amount_t._dup h t).2.quantity.isSome = t.quantity.isSome ∨
      (amount_t._dup h t).2.quantity.isSome = true) := by
  have hg' := hg
  obtain ⟨⟨n, g1, g2, g3, g4⟩, ⟨c', g5, g6⟩, g7, g8, g9, g10, g11⟩ := hg
  unfold amount_t._dup
  by_cases href : (amount_t.cell h t).ref > 1
  · rw [if_pos href]
    simp only
    -- the memory after `new`
    have hga : guarded (h.alloc ⟨(amount_t.cell h t).val, (amount_t.cell h t).prec, 0, 1, 0⟩).1
        p c0 p' t := by
      refine ⟨⟨n, ?_, g2, g3, g4⟩, ⟨c', ?_, g6⟩, g7, ?_, ?_, g10, ?_⟩
      · simp [heap_t.alloc, Nat.ne_of_lt g8, g1]
      · simp [heap_t.alloc, Nat.ne_of_lt g9, g5]
      · simp only [heap_t.alloc]; omega
      · simp only [heap_t.alloc]; omega
      · intro pt hpt
        have := g11 pt hpt
        simp only [heap_t.alloc]
        omega
    have hrel := release_guarded hga
      ({ t with quantity := some (h.alloc ⟨(amount_t.cell h t).val, (amount_t.cell h t).prec,
          0, 1, 0⟩).2 })
      (by simp only [heap_t.alloc, ne_eq, Option.some.injEq]; omega)
      (by simp only [heap_t.alloc, ne_eq, Option.some.injEq]; omega)
      (by
        intro pt hpt
        simp only [heap_t.alloc, Option.some.injEq] at hpt ⊢
        omega)
    refine ⟨hrel, by simp only [heap_t.alloc, ne_eq, Option.some.injEq]; omega, ?_,
      Or.inr rfl⟩
    intro x hx
    rw [release_next] at hx
    simp only [heap_t.alloc] at hx
    have hxt : t.quantity ≠ some x := by
      intro hc
      have := g11 x hc
      omega
    rw [(release_other _ t x hxt).1]
    simp only [heap_t.alloc]
    rw [if_neg (by omega)]
    exact hf x (by omega)
  · rw [if_neg href]
    refine ⟨hg', ?_, hf, Or.inl rfl⟩
    intro hc
    have hc' : t.quantity = some p := hc
    have h2 := g4 hc'
    have : amount_t.cell h t = { c0 with ref := n } := by
      simp [amount_t.cell, hc', get_of_cells g1]
    rw [this] at href
    simp only at href
    omega

/-- A write to the cell of a handle that is on neither of the two watched cells
keeps the state guarded. -/
theorem put_guarded {h : heap_t} {p : Nat} {c0 : bigint_t} {p' : Nat} {t : amount_t}
    (hg : guarded h p c0 p' t) (hf : fresh h) (ht : t.quantity ≠ some p) (q : bigint_t) :
    guarded (amount_t.put h t q) p c0 p' t ∧ fresh (amount_t.put h t q) := by
  obtain ⟨⟨n, g1, g2, g3, g4⟩, ⟨c', g5, g6⟩, g7, g8, g9, g10, g11⟩ := hg
  unfold amount_t.put
  cases hq : t.quantity with
  | none => exact ⟨⟨⟨n, g1, g2, g3, g4⟩, ⟨c', g5, g6⟩, g7, g8, g9, g10, g11⟩, hf⟩
  | some pt =>
    have h1 : pt ≠ p := fun hc => ht (by rw [hq, hc])
    have h2 : pt ≠ p' := fun hc => g10 (by rw [hq, hc])
    refine ⟨⟨⟨n, ?_, g2, g3, g4⟩, ⟨c', ?_, g6⟩, g7, g8, g9, g10, g11⟩, ?_⟩
    · simp [heap_t.set, Ne.symm h1, g1]
    · simp [heap_t.set, Ne.symm h2, g5]
    · intro x hx
      simp only [heap_t.set] at hx ⊢
      have := g11 pt hq
      rw [if_neg (by omega)]
      exact hf x hx

/-- The member `_resize` on the temporary handle keeps the state guarded. -/
theorem resize_guarded {h : heap_t} {p : Nat} {c0 : bigint_t} {p' : Nat} {t : amount_t}
    (hg : guarded h p c0 p' t) (hf : fresh h) (k : Nat) :
    guarded (amount_t._resize h t k).heap p c0 p' (amount_t._resize h t k).self ∧
    fresh (amount_t._resize h t k).heap := by
  unfold amount_t._resize
  split
  · exact ⟨hg, hf⟩
  · split
    · exact ⟨hg, hf⟩
    · obtain ⟨d1, d2, d3, _⟩ := dup_guarded hg hf
      simp only
      split
      · exact put_guarded d1 d3 d2 _
      · exact put_guarded d1 d3 d2 _

end store


namespace store

theorem detached_separated {h : heap_t} {p : Nat} {c0 : bigint_t} {b : amount_t}
    (h2 : 2 ≤ c0.ref) (hd : detached h p c0 b) : separated h p c0 b :=
  ⟨⟨c0.ref - 1, hd.1, by omega⟩, hd.2⟩

theorem dup_not_shared {h : heap_t} {b : amount_t} (hr : (amount_t.cell h b).ref = 1) :
    amount_t._dup h b = (h, b) := by
  unfold amount_t._dup
  rw [if_neg (by omega)]

theorem cell_of_detached {h : heap_t} {p : Nat} {c0 : bigint_t} {b : amount_t}
    (hd : detached h p c0 b) : (amount_t.cell h b).ref = 1 := by
  obtain ⟨_, p', c', hb, _, hc', hr⟩ := hd
  simp [amount_t.cell, hb, get_of_cells hc', hr]

/-- The member `_resize` on the detached handle keeps the state detached. -/
theorem resize_detached {h : heap_t} {p : Nat} {c0 : bigint_t} {b : amount_t}
    (hd : detached h p c0 b) (k : Nat) :
    detached (amount_t._resize h b k).heap p c0 (amount_t._resize h b k).self := by
  unfold amount_t._resize
  split
  · exact hd
  · split
    · exact hd
    · rw [dup_not_shared (cell_of_detached hd)]
      simp only
      split
      · exact put_detached hd _ rfl
      · exact put_detached hd _ rfl

/-- A copy of the right operand as a temporary leaves the state guarded. -/
theorem copy_guarded {h : heap_t} {p : Nat} {c0 : bigint_t} {p' : Nat} (amt : amount_t)
    {n pc : Nat} (hp : h.cells p = some { c0 with ref := n }) (hn1 : 1 ≤ n)
    (hn2 : n + 1 < 4294967296) {c' : bigint_t} (hp' : h.cells p' = some c') (hc' : c'.ref = 1)
    (hne : p ≠ p') (hlt : p < h.next) (hlt' : p' < h.next) (hamt : amt.quantity = some pc)
    (hpc : pc ≠ p') (hpclt : pc < h.next) (hf : fresh h) :
    guarded (amount_t.copy_of h amt).1 p c0 p' (amount_t.copy_of h amt).2 ∧
    fresh (amount_t.copy_of h amt).1 := by
  unfold amount_t.copy_of amount_t._copy
  simp only [hamt, Option.isSome_some, if_true, ne_eq, reduceCtorEq, not_false_eq_true,
    Option.isSome_none, Bool.false_eq_true, if_false]
  have hcell : ∀ g : heap_t, amount_t.cell g amt = g.get pc := by
    intro g
    simp [amount_t.cell, hamt]
  by_cases hb : (amount_t.cell h amt).flags &&& BIGINT_BULK_ALLOC ≠ 0
  · rw [if_pos hb]
    simp only [heap_t.alloc]
    refine ⟨⟨⟨n, ?_, hn1, by omega, ?_⟩, ⟨c', ?_, hc'⟩, hne, by simp only; omega,
      by simp only; omega, ?_, ?_⟩, ?_⟩
    · simp [Nat.ne_of_lt hlt, hp]
    · intro hc
      simp only [Option.some.injEq] at hc
      omega
    · simp [Nat.ne_of_lt hlt', hp']
    · simp only [ne_eq, Option.some.injEq]
      omega
    · intro pt hpt
      simp only [Option.some.injEq] at hpt
      simp only
      omega
    · intro x hx
      simp only at hx ⊢
      rw [if_neg (by omega)]
      exact hf x (by omega)
  · rw [if_neg hb]
    simp only [amount_t.put, hamt, hcell]
    refine ⟨⟨?_, ⟨c', ?_, hc'⟩, hne, hlt, hlt', by simpa using hpc, ?_⟩, ?_⟩
    · by_cases hpp : pc = p
      · subst hpp
        refine ⟨n + 1, ?_, by omega, by omega, fun _ => by omega⟩
        have hmod : (n + 1) % 4294967296 = n + 1 := Nat.mod_eq_of_lt hn2
        simp [heap_t.set, get_of_cells hp, hmod]
      · refine ⟨n, ?_, hn1, by omega, fun hc => ?_⟩
        · simp [heap_t.set, Ne.symm hpp, hp]
        · simp only [Option.some.injEq] at hc
          exact absurd hc hpp
    · simp [heap_t.set, Ne.symm hpc, hp']
    · intro pt hpt
      simp only [Option.some.injEq] at hpt
      subst hpt
      exact hpclt
    · intro x hx
      simp only [heap_t.set] at hx ⊢
      rw [if_neg (by omega)]
      exact hf x hx

/-- A write to the cell at `p'` that keeps its reference count 1 keeps the state
guarded. -/
theorem put_other_guarded {h : heap_t} {p : Nat} {c0 : bigint_t} {p' : Nat} {t : amount_t}
    (hg : guarded h p c0 p' t) (hf : fresh h) (b : amount_t) (hb : b.quantity = some p')
    (q : bigint_t) (hq : q.ref = 1) :
    guarded (amount_t.put h b q) p c0 p' t ∧ fresh (amount_t.put h b q) := by
  obtain ⟨⟨n, g1, g2, g3, g4⟩, ⟨c', g5, g6⟩, g7, g8, g9, g10, g11⟩ := hg
  simp only [amount_t.put, hb]
  refine ⟨⟨⟨n, ?_, g2, g3, g4⟩, ⟨q, ?_, hq⟩, g7, g8, g9, g10, g11⟩, ?_⟩
  · simp [heap_t.set, g7, g1]
  · simp [heap_t.set]
  · intro x hx
    simp only [heap_t.set] at hx ⊢
    rw [if_neg (by omega)]
    exact hf x hx

theorem guarded_cell {h : heap_t} {p : Nat} {c0 : bigint_t} {p' : Nat} {t : amount_t}
    (hg : guarded h p c0 p' t) (b : amount_t) (hb : b.quantity = some p') :
    (amount_t.cell h b).ref = 1 := by
  obtain ⟨_, ⟨c', g5, g6⟩, _⟩ := hg
  simp [amount_t.cell, hb, get_of_cells g5, g6]

theorem guarded_separated {h : heap_t} {p : Nat} {c0 : bigint_t} {p' : Nat} {t : amount_t}
    (hg : guarded h p c0 p' t) (b : amount_t) (hb : b.quantity = some p') :
    separated h p c0 b := by
  obtain ⟨⟨n, g1, g2, _, _⟩, ⟨c', g5, g6⟩, g7, _⟩ := hg
  exact ⟨⟨n, g1, g2⟩, p', c', hb, Ne.symm g7, g5, g6⟩

/-- The end of the temporary handle leaves the two handles separated. -/
theorem destroy_separated {h : heap_t} {p : Nat} {c0 : bigint_t} {p' : Nat} {t : amount_t}
    (hg : guarded h p c0 p' t) (b : amount_t) (hb : b.quantity = some p') :
    separated (amount_t.destroy h t) p c0 b := by
  unfold amount_t.destroy
  split
  · have hr := release_guarded hg ⟨none, none⟩ (by simp) (by simp) (by simp)
    exact guarded_separated hr b hb
  · exact guarded_separated hg b hb

/-- The common part of `operator+=` and `operator-=` on a handle that shares its
cell: the other handles on the cell keep the cell as it was, and the handle ends
on a cell of its own. -/
theorem add_or_sub_separated (f : Int → Int → Int) (what : String) {h : heap_t} {p : Nat}
    {c0 : bigint_t} (cb : Option Nat) (amt : amount_t) (hp : h.cells p = some c0)
    (h2 : 2 ≤ c0.ref) (h32 : c0.ref < 4294967296) (hf : fresh h) {pc : Nat}
    (hamt : amt.quantity = some pc) (hpc : pc < h.next) :
    separated (amount_t.add_or_sub f what h ⟨some p, cb⟩ amt).heap p c0
      (amount_t.add_or_sub f what h ⟨some p, cb⟩ amt).self := by
  obtain ⟨d1, d2, d3, d4, d5, d6⟩ := dup_shared cb hp h2 h32 hf
  have hdet := dup_detached cb hp h2 h32 hf
  have hlt := lt_next_of_cells hf hp
  have hfresh : fresh (amount_t._dup h ⟨some p, cb⟩).1 := by
    intro x hx
    rw [d2] at hx
    rw [d5 x (by omega) (by omega)]
    exact hf x (by omega)
  unfold amount_t.add_or_sub
  simp only
  generalize (amount_t._dup h ⟨some p, cb⟩).1 = h1 at *
  generalize hb' : (amount_t._dup h ⟨some p, cb⟩).2 = b' at *
  have hbq : b'.quantity = some h.next := by rw [d1]
  split
  · exact detached_separated h2 hdet
  · split
    · exact detached_separated h2 (put_detached hdet _ rfl)
    · split
      · have hr := resize_detached hdet (amount_t.cell h1 amt).prec
        split
        · exact detached_separated h2 hr
        · exact detached_separated h2 (put_detached hr _ rfl)
      · obtain ⟨hg, hgf⟩ := copy_guarded amt d3 (by omega) (by omega) d4 rfl d6
          (by omega) (by omega) hamt (by omega) (by omega) hfresh
        obtain ⟨hr, hrf⟩ := resize_guarded hg hgf
          (amount_t.cell (amount_t.copy_of h1 amt).1 b').prec
        split
        · exact guarded_separated hr b' hbq
        · have hput := (put_other_guarded hr hrf b' hbq
            { amount_t.cell (amount_t._resize (amount_t.copy_of h1 amt).1
                  (amount_t.copy_of h1 amt).2
                  (amount_t.cell (amount_t.copy_of h1 amt).1 b').prec).heap b' with
              val := f (amount_t.cell (amount_t._resize (amount_t.copy_of h1 amt).1
                    (amount_t.copy_of h1 amt).2
                    (amount_t.cell (amount_t.copy_of h1 amt).1 b').prec).heap b').val
                (amount_t.cell (amount_t._resize (amount_t.copy_of h1 amt).1
                    (amount_t.copy_of h1 amt).2
                    (amount_t.cell (amount_t.copy_of h1 amt).1 b').prec).heap
                  (amount_t._resize (amount_t.copy_of h1 amt).1
                    (amount_t.copy_of h1 amt).2
                    (amount_t.cell (amount_t.copy_of h1 amt).1 b').prec).self).val }
            (guarded_cell hr b' hbq)).1
          exact destroy_separated hput b' hbq

end store


namespace store

theorem separated_view {h h' : heap_t} {p : Nat} {c0 : bigint_t} {b : amount_t}
    (ca : Option Nat) (hp : h.cells p = some c0) (hs : separated h' p c0 b) :
    h'.cells p ≠ none ∧ amount_t.view h' ⟨some p, ca⟩ = amount_t.view h ⟨some p, ca⟩ := by
  obtain ⟨⟨n, h1, _⟩, _⟩ := hs
  refine ⟨by rw [h1]; simp, ?_⟩
  simp [amount_t.view, get_of_cells h1, get_of_cells hp]

theorem same_view (h : heap_t) {p : Nat} {c0 : bigint_t} (ca : Option Nat)
    (hp : h.cells p = some c0) :
    h.cells p ≠ none ∧ amount_t.view h ⟨some p, ca⟩ = amount_t.view h ⟨some p, ca⟩ :=
  ⟨by rw [hp]; simp, rfl⟩

theorem negate_separated {h : heap_t} {p : Nat} {c0 : bigint_t} (cb : Option Nat)
    (hp : h.cells p = some c0) (h2 : 2 ≤ c0.ref) (h32 : c0.ref < 4294967296) (hf : fresh h) :
    separated (amount_t.negate h ⟨some p, cb⟩).heap p c0
      (amount_t.negate h ⟨some p, cb⟩).self := by
  have hdet := dup_detached cb hp h2 h32 hf
  unfold amount_t.negate
  simp only [Option.isSome_some, if_true]
  exact detached_separated h2 (put_detached hdet _ rfl)

theorem resize_separated {h : heap_t} {p : Nat} {c0 : bigint_t} (cb : Option Nat)
    (hp : h.cells p = some c0) (h2 : 2 ≤ c0.ref) (h32 : c0.ref < 4294967296) (hf : fresh h)
    {k : Nat} (hk : k < 256) (hne : k ≠ c0.prec) :
    separated (amount_t._resize h ⟨some p, cb⟩ k).heap p c0
      (amount_t._resize h ⟨some p, cb⟩ k).self := by
  have hdet := dup_detached cb hp h2 h32 hf
  have hcell : amount_t.cell h ⟨some p, cb⟩ = c0 := by
    simp [amount_t.cell, get_of_cells hp]
  unfold amount_t._resize
  rw [if_neg (by omega)]
  simp only [Option.isNone_some, Bool.false_or, hcell, decide_eq_true_eq, hne, if_false]
  split
  · exact detached_separated h2 (put_detached hdet _ rfl)
  · exact detached_separated h2 (put_detached hdet _ rfl)

theorem resize_kept {h : heap_t} {p : Nat} {c0 : bigint_t} (cb : Option Nat)
    (hp : h.cells p = some c0) (h2 : 2 ≤ c0.ref) (h32 : c0.ref < 4294967296) (hf : fresh h)
    (k : Nat) :
    (amount_t._resize h ⟨some p, cb⟩ k).heap = h ∨
    separated (amount_t._resize h ⟨some p, cb⟩ k).heap p c0
      (amount_t._resize h ⟨some p, cb⟩ k).self := by
  by_cases hk : k < 256
  · by_cases hne : k = c0.prec
    · left
      have hcell : amount_t.cell h ⟨some p, cb⟩ = c0 := by
        simp [amount_t.cell, get_of_cells hp]
      unfold amount_t._resize
      rw [if_neg (by omega)]
      simp [hcell, hne]
    · exact Or.inr (resize_separated cb hp h2 h32 hf hk hne)
  · left
    unfold amount_t._resize
    rw [if_pos hk]

theorem mul_separated (cs : commodities_t) {h : heap_t} {p : Nat} {c0 : bigint_t}
    (cb : Option Nat) (amt : amount_t) (hp : h.cells p = some c0) (h2 : 2 ≤ c0.ref)
    (h32 : c0.ref < 4294967296) (hf : fresh h) (hamt : amt.quantity.isSome = true) :
    separated (amount_t.operator_mul_eq cs h ⟨some p, cb⟩ amt).heap p c0
      (amount_t.operator_mul_eq cs h ⟨some p, cb⟩ amt).self := by
  have hdet := dup_detached cb hp h2 h32 hf
  have hn : amt.quantity.isNone = false := by
    cases hq : amt.quantity with
    | none => rw [hq] at hamt; cases hamt
    | some q => rfl
  unfold amount_t.operator_mul_eq
  simp only [hn, Bool.false_eq_true, if_false, Option.isNone_some]
  apply detached_separated h2
  apply trim_detached
  apply put_detached
  · apply put_detached
    · exact hdet
    · rfl
  · rfl

theorem mul_by_zero_kept (cs : commodities_t) {h : heap_t} {p : Nat} {c0 : bigint_t}
    (cb : Option Nat) (amt : amount_t) (hp : h.cells p = some c0) (h2 : 2 ≤ c0.ref)
    (h32 : c0.ref < 4294967296) (hamt : amt.quantity = none) :
    (amount_t.operator_mul_eq cs h ⟨some p, cb⟩ amt).heap =
        h.set p { c0 with ref := c0.ref - 1 } ∧
    (amount_t.operator_mul_eq cs h ⟨some p, cb⟩ amt).self = ⟨none, none⟩ := by
  unfold amount_t.operator_mul_eq amount_t.operator_assign amount_t._clear
  simp only [hamt, Option.isNone_none, if_true, Option.isSome_none, Bool.false_eq_true,
    if_false, Option.isSome_some, and_true]
  exact release_shared cb hp h2 h32

theorem div_separated (cs : commodities_t) {h : heap_t} {p : Nat} {c0 : bigint_t}
    (cb : Option Nat) (amt : amount_t) (hp : h.cells p = some c0) (h2 : 2 ≤ c0.ref)
    (h32 : c0.ref < 4294967296) (hf : fresh h)
    (hacc : ledger.amount_t.operator_bool cs (amount_t.view h amt) = true) :
    separated (amount_t.operator_div_eq cs h ⟨some p, cb⟩ amt).heap p c0
      (amount_t.operator_div_eq cs h ⟨some p, cb⟩ amt).self := by
  have hdet := dup_detached cb hp h2 h32 hf
  have hn : amt.quantity.isNone = false := by
    cases hq : amt.quantity with
    | none =>
      simp [ledger.amount_t.operator_bool, amount_t.view, hq] at hacc
    | some q => rfl
  unfold amount_t.operator_div_eq
  simp only [hn, hacc, Bool.not_true, Bool.or_self, Bool.false_eq_true, if_false,
    Option.isNone_some]
  apply detached_separated h2
  apply trim_detached
  apply put_detached
  · apply put_detached
    · apply put_detached
      · exact hdet
      · rfl
    · rfl
  · rfl

theorem div_rejected_same (cs : commodities_t) (h : heap_t) (b amt : amount_t)
    (hacc : ledger.amount_t.operator_bool cs (amount_t.view h amt) = false) :
    (amount_t.operator_div_eq cs h b amt).heap = h ∧
    (amount_t.operator_div_eq cs h b amt).self = b := by
  unfold amount_t.operator_div_eq
  simp [hacc]

end store


namespace store

theorem plus_eq_separated {h : heap_t} {p : Nat} {c0 : bigint_t} (cb : Option Nat)
    (amt : amount_t) (hp : h.cells p = some c0) (h2 : 2 ≤ c0.ref) (h32 : c0.ref < 4294967296)
    (hf : fresh h) (hamt : ∀ pc, amt.quantity = some pc → pc < h.next)
    (hq : amt.quantity.isSome = true) :
    separated (amount_t.operator_plus_eq h ⟨some p, cb⟩ amt).heap p c0
      (amount_t.operator_plus_eq h ⟨some p, cb⟩ amt).self := by
  obtain ⟨pc, hpc⟩ := Option.isSome_iff_exists.mp hq
  unfold amount_t.operator_plus_eq
  simp only [hpc, Option.isNone_some, Bool.false_eq_true, if_false]
  exact add_or_sub_separated _ _ cb amt hp h2 h32 hf hpc (hamt pc hpc)

theorem minus_eq_separated {h : heap_t} {p : Nat} {c0 : bigint_t} (cb : Option Nat)
    (amt : amount_t) (hp : h.cells p = some c0) (h2 : 2 ≤ c0.ref) (h32 : c0.ref < 4294967296)
    (hf : fresh h) (hamt : ∀ pc, amt.quantity = some pc → pc < h.next)
    (hq : amt.quantity.isSome = true) :
    separated (amount_t.operator_minus_eq h ⟨some p, cb⟩ amt).heap p c0
      (amount_t.operator_minus_eq h ⟨some p, cb⟩ amt).self := by
  obtain ⟨pc, hpc⟩ := Option.isSome_iff_exists.mp hq
  unfold amount_t.operator_minus_eq
  simp only [hpc, Option.isNone_some, Bool.false_eq_true, if_false]
  exact add_or_sub_separated _ _ cb amt hp h2 h32 hf hpc (hamt pc hpc)

end store

/-- C19 (counterexample): with two handles on the cell at address 0 (reference
count 2), `b += zero` returns at once: `b` is still on the cell at address 0,
whose reference count is still 2, so the cell of `b` is not referenced by `b`
alone. -/
theorem C19_noop_keeps_sharing :
    (store.amount_t.operator_plus_eq store.one_shared_cell ⟨some 0, none⟩
      ⟨none, none⟩).self.quantity = some 0 ∧
    (store.amount_t.cell
      (store.amount_t.operator_plus_eq store.one_shared_cell ⟨some 0, none⟩ ⟨none, none⟩).heap
      (store.amount_t.operator_plus_eq store.one_shared_cell ⟨some 0, none⟩
        ⟨none, none⟩).self).ref = 2 := by
  exact ⟨rfl, rfl⟩

/-- C19 (amended): let `a` and its copy `b` be two handles on the cell at `p`
(reference count at least 2), and let the right operand point at a cell of the
memory.  After each of `negate`, `_resize`, `+=`, `-=`, `*=` and `/=` applied to
`b`, the cell at `p` still lives and `a` shows the same mantissa, precision and
commodity as before.  Whenever the member gets past its early returns (`negate`
always; `_resize` to a precision below 256 other than the stored one; `+=`, `-=`
and `*=` with a right operand that has a quantity; `/=` with a right operand that
division accepts), `b` ends on another cell, with the reference count 1.  A
member that ends before it reaches `_dup ()` leaves the memory as it was and `b`
on the shared cell (`_resize` to the stored precision, `_resize` to a precision
of 256 or more, which fails the assertion, `+=` and `-=` with a right operand
without quantity, `/=` with a right operand that division rejects, which
throws), except `*=` with a right operand without quantity, which clears `b`:
`b` ends without quantity and without commodity, and the reference count of the
shared cell is one less. -/
theorem C19_copy_on_write (cs : commodities_t) (h : store.heap_t) (p : Nat)
    (c0 : store.bigint_t) (ca : Option Nat) (amt : store.amount_t) (k : Nat)
    (hp : h.cells p = some c0) (h2 : 2 ≤ c0.ref) (h32 : c0.ref < 4294967296)
    (hf : store.fresh h) (hamt : ∀ pc, amt.quantity = some pc → pc < h.next) :
    (∀ r ∈ [store.amount_t.negate h ⟨some p, ca⟩, store.amount_t._resize h ⟨some p, ca⟩ k,
        store.amount_t.operator_plus_eq h ⟨some p, ca⟩ amt,
        store.amount_t.operator_minus_eq h ⟨some p, ca⟩ amt,
        store.amount_t.operator_mul_eq cs h ⟨some p, ca⟩ amt,
        store.amount_t.operator_div_eq cs h ⟨some p, ca⟩ amt],
      r.heap.cells p ≠ none ∧
      store.amount_t.view r.heap ⟨some p, ca⟩ = store.amount_t.view h ⟨some p, ca⟩) ∧
    store.separated (store.amount_t.negate h ⟨some p, ca⟩).heap p c0
      (store.amount_t.negate h ⟨some p, ca⟩).self ∧
    (k < 256 → k ≠ c0.prec →
      store.separated (store.amount_t._resize h ⟨some p, ca⟩ k).heap p c0
        (store.amount_t._resize h ⟨some p, ca⟩ k).self) ∧
    (amt.quantity.isSome = true →
      store.separated (store.amount_t.operator_plus_eq h ⟨some p, ca⟩ amt).heap p c0
        (store.amount_t.operator_plus_eq h ⟨some p, ca⟩ amt).self ∧
      store.separated (store.amount_t.operator_minus_eq h ⟨some p, ca⟩ amt).heap p c0
        (store.amount_t.operator_minus_eq h ⟨some p, ca⟩ amt).self ∧
      store.separated (store.amount_t.operator_mul_eq cs h ⟨some p, ca⟩ amt).heap p c0
        (store.amount_t.operator_mul_eq cs h ⟨some p, ca⟩ amt).self) ∧
    (amount_t.operator_bool cs (store.amount_t.view h amt) = true →
      store.separated (store.amount_t.operator_div_eq cs h ⟨some p, ca⟩ amt).heap p c0
        (store.amount_t.operator_div_eq cs h ⟨some p, ca⟩ amt).self) ∧
    (¬ k < 256 ∨ k = c0.prec →
      (store.amount_t._resize h ⟨some p, ca⟩ k).heap = h ∧
      (store.amount_t._resize h ⟨some p, ca⟩ k).self = ⟨some p, ca⟩) ∧
    (amt.quantity = none →
      ((store.amount_t.operator_plus_eq h ⟨some p, ca⟩ amt).heap = h ∧
        (store.amount_t.operator_plus_eq h ⟨some p, ca⟩ amt).self = ⟨some p, ca⟩) ∧
      ((store.amount_t.operator_minus_eq h ⟨some p, ca⟩ amt).heap = h ∧
        (store.amount_t.operator_minus_eq h ⟨some p, ca⟩ amt).self = ⟨some p, ca⟩) ∧
      (store.amount_t.operator_mul_eq cs h ⟨some p, ca⟩ amt).heap =
        h.set p { c0 with ref := c0.ref - 1 } ∧
      (store.amount_t.operator_mul_eq cs h ⟨some p, ca⟩ amt).self = ⟨none, none⟩) ∧
    (amount_t.operator_bool cs (store.amount_t.view h amt) = false →
      (store.amount_t.operator_div_eq cs h ⟨some p, ca⟩ amt).heap = h ∧
      (store.amount_t.operator_div_eq cs h ⟨some p, ca⟩ amt).self = ⟨some p, ca⟩) := by
  have hneg := store.negate_separated ca hp h2 h32 hf
  have hplus := store.plus_eq_separated ca amt hp h2 h32 hf hamt
  have hminus := store.minus_eq_separated ca amt hp h2 h32 hf hamt
  have hmul := store.mul_separated cs ca amt hp h2 h32 hf
  have hdiv := store.div_separated cs ca amt hp h2 h32 hf
  have hcell : store.amount_t.cell h ⟨some p, ca⟩ = c0 := by
    simp [store.amount_t.cell, store.get_of_cells hp]
  have hrs : ¬ k < 256 ∨ k = c0.prec →
      (store.amount_t._resize h ⟨some p, ca⟩ k).heap = h ∧
      (store.amount_t._resize h ⟨some p, ca⟩ k).self = ⟨some p, ca⟩ := by
    intro hk
    unfold store.amount_t._resize
    by_cases hlt : k < 256
    · have hke : k = c0.prec := by
        rcases hk with hk | hk
        · exact absurd hlt hk
        · exact hk
      rw [if_neg (by omega)]
      simp [hcell, hke]
    · rw [if_pos hlt]
      exact ⟨rfl, rfl⟩
  refine ⟨?_, hneg, fun hk hne => store.resize_separated ca hp h2 h32 hf hk hne,
    fun hq => ⟨hplus hq, hminus hq, hmul hq⟩, hdiv, hrs,
    fun hq => ⟨by simp [store.amount_t.operator_plus_eq, hq],
      by simp [store.amount_t.operator_minus_eq, hq],
      store.mul_by_zero_kept cs ca amt hp h2 h32 hq⟩,
    fun hb => store.div_rejected_same cs h ⟨some p, ca⟩ amt hb⟩
  intro r hr
  simp only [List.mem_cons, List.mem_singleton, List.not_mem_nil, or_false] at hr
  rcases hr with rfl | rfl | rfl | rfl | rfl | rfl
  · exact store.separated_view ca hp hneg
  · rcases store.resize_kept ca hp h2 h32 hf k with hsame | hsep
    · rw [hsame]
      exact store.same_view h ca hp
    · exact store.separated_view ca hp hsep
  · cases hq : amt.quantity with
    | none =>
      have : (store.amount_t.operator_plus_eq h ⟨some p, ca⟩ amt).heap = h := by
        simp [store.amount_t.operator_plus_eq, hq]
      rw [this]
      exact store.same_view h ca hp
    | some pc => exact store.separated_view ca hp (hplus (by rw [hq]; rfl))
  · cases hq : amt.quantity with
    | none =>
      have : (store.amount_t.operator_minus_eq h ⟨some p, ca⟩ amt).heap = h := by
        simp [store.amount_t.operator_minus_eq, hq]
      rw [this]
      exact store.same_view h ca hp
    | some pc => exact store.separated_view ca hp (hminus (by rw [hq]; rfl))
  · cases hq : amt.quantity with
    | none =>
      rw [(store.mul_by_zero_kept cs ca amt hp h2 h32 hq).1]
      refine ⟨by simp [store.heap_t.set], ?_⟩
      simp [store.amount_t.view, store.heap_t.get, store.heap_t.set, hp]
    | some pc => exact store.separated_view ca hp (hmul (by rw [hq]; rfl))
  · cases hb : amount_t.operator_bool cs (store.amount_t.view h amt) with
    | false =>
      rw [(store.div_rejected_same cs h ⟨some p, ca⟩ amt hb).1]
      exact store.same_view h ca hp
    | true => exact store.separated_view ca hp (hdiv hb)

/-- C19 (witness): two handles on the cell at address 0, the mantissa 15 at
precision 1; after `negate` on one of them the other still shows 15 at
precision 1, and the negated handle is on the new cell at address 1. -/
theorem C19_copy_on_write_witness :
    store.amount_t.view (store.amount_t.negate store.one_shared_cell ⟨some 0, none⟩).heap
      ⟨some 0, none⟩ = ⟨some ⟨15, 1⟩, none⟩ ∧
    store.amount_t.view (store.amount_t.negate store.one_shared_cell ⟨some 0, none⟩).heap
      (store.amount_t.negate store.one_shared_cell ⟨some 0, none⟩).self =
      ⟨some ⟨-15, 1⟩, none⟩ ∧
    store.separated (store.amount_t.negate store.one_shared_cell ⟨some 0, none⟩).heap 0
      ⟨15, 1, 0, 2, 0⟩ (store.amount_t.negate store.one_shared_cell ⟨some 0, none⟩).self :=
  ⟨rfl, rfl,
    (C19_copy_on_write dollars store.one_shared_cell 0 ⟨15, 1, 0, 2, 0⟩ none ⟨none, none⟩ 3 rfl
      (by decide) (by decide)
      (by
        intro x hx
        have h1 : 1 ≤ x := hx
        simp only [store.one_shared_cell]
        rw [if_neg (by omega)])
      (by
        intro pc hpc
        cases hpc)).2.1⟩


/-! ## The binary codec -/

namespace store

theorem u16_of_bytes (be : Bool) {n : Nat} (h : n < 65536) (rest : List Nat) :
    ∃ b0 b1, u16_bytes be n ++ rest = b0 :: b1 :: rest ∧ u16_of be b0 b1 = n := by
  cases be
  · exact ⟨n % 256, n / 256 % 256, rfl, by simp only [u16_of, Bool.false_eq_true, if_false]; omega⟩
  · exact ⟨n / 256 % 256, n % 256, rfl, by simp only [u16_of, if_true]; omega⟩

theorem u32_of_bytes (be : Bool) {n : Nat} (h : n < 4294967296) (rest : List Nat) :
    ∃ b0 b1 b2 b3, u32_bytes be n ++ rest = b0 :: b1 :: b2 :: b3 :: rest ∧
      u32_of be b0 b1 b2 b3 = n := by
  cases be
  · exact ⟨n % 256, n / 256 % 256, n / 65536 % 256, n / 16777216 % 256, rfl,
      by simp only [u32_of, Bool.false_eq_true, if_false]; omega⟩
  · exact ⟨n / 16777216 % 256, n / 65536 % 256, n / 256 % 256, n % 256, rfl,
      by simp only [u32_of, if_true]; omega⟩

theorem u16_bytes_length (be : Bool) (n : Nat) : (u16_bytes be n).length = 2 := by
  cases be <;> rfl

theorem words_bytes_length (be : Bool) (ws : List Nat) :
    (words_bytes be ws).length = ws.length * 2 := by
  induction ws with
  | nil => rfl
  | cons w ws ih =>
    simp only [words_bytes, List.length_append, u16_bytes_length, ih, List.length_cons]
    omega

theorem mpz_export_length (be : Bool) (v : Int) :
    (mpz_export be v).length = mpz_export_size v * 2 := by
  simp [mpz_export, mpz_export_size, words_bytes_length]

theorem import_words (be : Bool) (ws : List Nat) (hws : ∀ w ∈ ws, w < 65536)
    (rest : List Nat) (acc : Nat) :
    mpz_import be ws.length (words_bytes be ws ++ rest) acc =
      ws.foldl (fun a w => a * 65536 + w) acc := by
  induction ws generalizing acc with
  | nil => rfl
  | cons w ws ih =>
    obtain ⟨b0, b1, hb, hv⟩ := u16_of_bytes be (hws w (by simp)) (words_bytes be ws ++ rest)
    simp only [words_bytes, List.append_assoc, List.length_cons, List.foldl_cons]
    rw [hb]
    simp only [mpz_import, hv]
    exact ih (fun x hx => hws x (by simp [hx])) _

theorem foldl_digits (L : List Nat) :
    L.reverse.foldl (fun a w => a * 65536 + w) 0 = Nat.ofDigits 65536 L := by
  rw [List.foldl_reverse, Nat.ofDigits_eq_foldr]
  congr 1
  funext w a
  simp only [Nat.cast_id]
  ring

/-- Importing the bytes that `mpz_export` stores gives the magnitude back. -/
theorem import_export (be : Bool) (v : Int) (rest : List Nat) :
    mpz_import be (mpz_export_size v) (mpz_export be v ++ rest) 0 = v.natAbs := by
  have h := import_words be (Nat.digits 65536 v.natAbs).reverse
    (by
      intro w hw
      exact Nat.digits_lt_base (by norm_num) (List.mem_reverse.mp hw)) rest 0
  rw [List.length_reverse] at h
  unfold mpz_export_size mpz_export
  rw [h, foldl_digits, Nat.ofDigits_digits]

end store


namespace store

theorem get_set_same (h : heap_t) (p : Nat) (c : bigint_t) : (h.set p c).get p = c := by
  simp [heap_t.get, heap_t.set]

theorem write_first (be : Bool) (g : globals_t) {h : heap_t} {p : Nat} {c : bigint_t}
    (cm : Option Nat) (hp : h.cells p = some c) (hidx : c.index = 0)
    (hsize : mpz_export_size c.val * 2 < 4096) :
    amount_t.write_quantity be g h ⟨some p, cm⟩ =
      ⟨h.set p { c with index := (g.bigints_index + 1) % 4294967296 },
        ⟨g.bigints, g.bigints_next, (g.bigints_index + 1) % 4294967296,
          (g.bigints_count + 1) % 4294967296⟩,
        tag1_record be c.val c.prec, none⟩ := by
  have hlen : (mpz_export_size c.val * 2) % 65536 = mpz_export_size c.val * 2 :=
    Nat.mod_eq_of_lt (by omega)
  have htake : (if mpz_export_size c.val * 2 ≠ 0 then
        [1] ++ u16_bytes be (mpz_export_size c.val * 2) ++
          (mpz_export be c.val).take (mpz_export_size c.val * 2)
      else [1] ++ u16_bytes be (mpz_export_size c.val * 2)) =
      [1] ++ u16_bytes be (mpz_export_size c.val * 2) ++ mpz_export be c.val := by
    by_cases h0 : mpz_export_size c.val * 2 = 0
    · have : mpz_export be c.val = [] :=
        List.length_eq_zero.mp (by rw [mpz_export_length, h0])
      simp [h0, this]
    · rw [if_pos h0, List.take_of_length_le (by rw [mpz_export_length])]
  have hsgn : (if mpz_sgn c.val < 0 then 1 else 0) = (if c.val < 0 then 1 else 0 : Nat) := by
    simp only [mpz_sgn, mpz_sign_neg_iff]
  unfold amount_t.write_quantity
  simp only [get_of_cells hp, hidx, if_true, get_set_same, hlen,
    not_lt.mpr (Nat.le_of_lt hsize), if_false, hsize, not_true_eq_false, and_false, htake,
    hsgn, tag1_record]

theorem write_again (be : Bool) (g : globals_t) {h : heap_t} {p : Nat} {c : bigint_t}
    (cm : Option Nat) (hp : h.cells p = some c) (hidx : c.index ≠ 0) (href : c.ref > 1) :
    amount_t.write_quantity be g h ⟨some p, cm⟩ = ⟨h, g, tag2_record be c.index, none⟩ := by
  unfold amount_t.write_quantity
  simp only [get_of_cells hp, hidx, if_false, href, not_true_eq_false, tag2_record]

theorem write_all_again (be : Bool) (g : globals_t) {h : heap_t} {p : Nat} {c : bigint_t}
    (hp : h.cells p = some c) (hidx : c.index ≠ 0) (rest : List amount_t)
    (hall : ∀ a ∈ rest, a.quantity = some p) (href : rest = [] ∨ c.ref > 1) :
    write_all be g h rest = ⟨h, g, repeated rest.length (tag2_record be c.index), none⟩ := by
  induction rest with
  | nil => rfl
  | cons a rest ih =>
    have href' : c.ref > 1 := by
      rcases href with h0 | h1
      · cases h0
      · exact h1
    have ha : a = ⟨some p, a.commodity_⟩ := by
      obtain ⟨q, cm⟩ := a
      have := hall ⟨q, cm⟩ (by simp)
      simp only at this
      subst this
      rfl
    have hw : amount_t.write_quantity be g h a = ⟨h, g, tag2_record be c.index, none⟩ := by
      rw [ha]
      exact write_again be g a.commodity_ hp hidx href'
    simp only [write_all, hw, List.length_cons, repeated]
    rw [ih (fun x hx => hall x (by simp [hx])) (Or.inr href')]

/-- C17: writing one after the other `n >= 1` amounts that are all handles on one
cell not written before (the cell's reference count being at least `n`, its
magnitude fitting the export buffer, and the global counter not at its maximum)
raises no failure and emits the tag-1 record of the cell followed by `n - 1`
tag-2 records, each with the index `bigints_index + 1`; afterwards the global
counter is `bigints_index + 1`, and the index of the cell is that value. -/
theorem C17_reference_dedup (be : Bool) (g : globals_t) (h : heap_t) (p : Nat) (c : bigint_t)
    (amounts : List amount_t) (hne : amounts ≠ [])
    (hall : ∀ a ∈ amounts, a.quantity = some p) (hp : h.cells p = some c)
    (hidx : c.index = 0) (href : amounts.length ≤ c.ref)
    (hsize : mpz_export_size c.val * 2 < 4096) (hctr : g.bigints_index + 1 < 4294967296) :
    (write_all be g h amounts).thrown = none ∧
    (write_all be g h amounts).out =
      tag1_record be c.val c.prec ++
        repeated (amounts.length - 1) (tag2_record be (g.bigints_index + 1)) ∧
    (write_all be g h amounts).globals.bigints_index = g.bigints_index + 1 ∧
    ((write_all be g h amounts).heap.get p).index = g.bigints_index + 1 := by
  cases amounts with
  | nil => exact absurd rfl hne
  | cons a rest =>
    have ha : a = ⟨some p, a.commodity_⟩ := by
      obtain ⟨q, cm⟩ := a
      have := hall ⟨q, cm⟩ (by simp)
      simp only at this
      subst this
      rfl
    have hw := write_first be g a.commodity_ hp hidx hsize
    rw [← ha, Nat.mod_eq_of_lt hctr] at hw
    have hp' : (h.set p { c with index := g.bigints_index + 1 }).cells p =
        some { c with index := g.bigints_index + 1 } := by
      simp [heap_t.set]
    have hrest := write_all_again be
      ⟨g.bigints, g.bigints_next, g.bigints_index + 1, (g.bigints_count + 1) % 4294967296⟩
      hp' (by simp) rest (fun x hx => hall x (by simp [hx]))
      (by
        cases rest with
        | nil => exact Or.inl rfl
        | cons b rest' =>
          right
          simp only [List.length_cons] at href
          simp only
          omega)
    simp only [write_all, hw, hrest, List.length_cons, Nat.add_sub_cancel, get_of_cells hp',
      and_self]

end store


namespace store

theorem get_alloc (h : heap_t) (c : bigint_t) : (h.alloc c).1.get (h.alloc c).2 = c := by
  simp [heap_t.get, heap_t.alloc]

/-- The stream reader on the record of a cell: it reads exactly the record and
leaves the amount on a new cell with the mantissa and the precision of the
record. -/
theorem read_stream_record (be : Bool) (g : globals_t) (h : heap_t) (self : amount_t)
    (v : Int) (prec : Nat) (rest : List Nat) (hsize : mpz_export_size v * 2 < 4096)
    (hprec : prec < 65536) :
    ∃ r, amount_t.read_quantity_stream be g h self (tag1_record be v prec ++ rest) = some r ∧
      r.thrown = none ∧ r.rest = rest ∧ r.globals = g ∧
      r.self = { self with quantity := some h.next } ∧
      amount_t.cell r.heap r.self = ⟨v, prec, 0, 1, 0⟩ := by
  obtain ⟨p0, p1, hp, hpv⟩ := u16_of_bytes be hprec rest
  obtain ⟨l0, l1, hl, hlv⟩ := u16_of_bytes be (show mpz_export_size v * 2 < 65536 by omega)
    (mpz_export be v ++ (if v < 0 then 1 else 0) :: p0 :: p1 :: rest)
  have hin : tag1_record be v prec ++ rest =
      1 :: l0 :: l1 :: (mpz_export be v ++ (if v < 0 then 1 else 0) :: p0 :: p1 :: rest) := by
    simp only [tag1_record, List.append_assoc, List.singleton_append, List.cons_append, hp,
      List.nil_append]
    rw [hl]
  have hlen : ¬ (mpz_export be v ++ (if v < 0 then 1 else 0) :: p0 :: p1 :: rest).length <
      mpz_export_size v * 2 := by
    simp only [List.length_append, mpz_export_length]
    omega
  have htake : (mpz_export be v ++ (if v < 0 then 1 else 0) :: p0 :: p1 :: rest).take
      (mpz_export_size v * 2) = mpz_export be v := by
    rw [List.take_left' (mpz_export_length be v)]
  have hdrop : (mpz_export be v ++ (if v < 0 then 1 else 0) :: p0 :: p1 :: rest).drop
      (mpz_export_size v * 2) = (if v < 0 then 1 else 0) :: p0 :: p1 :: rest := by
    rw [List.drop_left' (mpz_export_length be v)]
  have himp : mpz_import be (mpz_export_size v * 2 / 2) (mpz_export be v) 0 = v.natAbs := by
    have := import_export be v []
    rw [List.append_nil] at this
    rw [Nat.mul_div_cancel _ (by norm_num)]
    exact this
  have hval : (if (if v < 0 then 1 else 0 : Nat) ≠ 0 then -((v.natAbs : Nat) : Int)
      else ((v.natAbs : Nat) : Int)) = v := by
    by_cases hv : v < 0
    · simp only [hv, if_true, ne_eq, one_ne_zero, not_false_eq_true]
      omega
    · simp only [hv, if_false, ne_eq, not_true_eq_false]
      omega
  rw [hin]
  unfold amount_t.read_quantity_stream
  simp only [one_ne_zero, if_false, if_true, hlv, hsize, not_true_eq_false, hlen, htake, hdrop,
    himp, hpv]
  refine ⟨_, rfl, rfl, rfl, rfl, rfl, ?_⟩
  by_cases hv : v < 0
  · have h1 : (if v < 0 then 1 else 0 : Nat) ≠ 0 := by simp [hv]
    simp only [hv, if_true, ne_eq, one_ne_zero, not_false_eq_true, amount_t.cell,
      amount_t.put, get_set_same, get_alloc]
    congr 1
    omega
  · simp only [hv, if_false, ne_eq, not_true_eq_false, amount_t.cell, amount_t.put,
      get_set_same, get_alloc]
    congr 1
    omega

end store

/-- C16: for an amount on a cell not written before whose magnitude fits the
export buffer (and whose precision is an `unsigned short`), `write_quantity`
raises nothing, and the stream reader, given the bytes written followed by any
further bytes, raises nothing, reads exactly the bytes written, and leaves its
amount on a new cell with the same mantissa, sign included, and the same
precision.  For an amount without quantity the single byte 0 is written, and
reading it gives an amount without quantity. -/
theorem C16_stream_round_trip (be : Bool) (gw gr : store.globals_t) (hw hr : store.heap_t)
    (p : Nat) (c : store.bigint_t) (cm : Option Nat) (self : store.amount_t)
    (rest : List Nat) (hp : hw.cells p = some c) (hidx : c.index = 0)
    (hsize : store.mpz_export_size c.val * 2 < 4096) (hprec : c.prec < 65536) :
    (store.amount_t.write_quantity be gw hw ⟨some p, cm⟩).thrown = none ∧
    (∃ r, store.amount_t.read_quantity_stream be gr hr self
          ((store.amount_t.write_quantity be gw hw ⟨some p, cm⟩).out ++ rest) = some r ∧
        r.thrown = none ∧ r.rest = rest ∧ r.self.quantity.isSome = true ∧
        (store.amount_t.cell r.heap r.self).val = c.val ∧
        (store.amount_t.cell r.heap r.self).prec = c.prec) ∧
    (store.amount_t.write_quantity be gw hw ⟨none, cm⟩).thrown = none ∧
    store.amount_t.read_quantity_stream be gr hr self
        ((store.amount_t.write_quantity be gw hw ⟨none, cm⟩).out ++ rest) =
      some ⟨hr, gr, { self with quantity := none }, rest, none⟩ := by
  rw [store.write_first be gw cm hp hidx hsize]
  obtain ⟨r, h1, h2, h3, _, h5, h6⟩ :=
    store.read_stream_record be gr hr self c.val c.prec rest hsize hprec
  refine ⟨rfl, ⟨r, h1, h2, h3, by rw [h5]; rfl, by rw [h6], by rw [h6]⟩, rfl, rfl⟩

/-- The mantissa `-70000` of the examples takes two 16-bit words. -/
theorem store.export_size_example : store.mpz_export_size (-70000) = 2 := by
  have h : Int.natAbs (-70000) = 70000 := rfl
  simp only [store.mpz_export_size, h]
  norm_num

/-- C16 (witness): the cell with the mantissa `-70000` at precision 2. -/
theorem C16_stream_round_trip_witness :
    ∃ r, store.amount_t.read_quantity_stream false ⟨0, 0, 0, 0⟩ store.no_cell ⟨none, none⟩
          ((store.amount_t.write_quantity false ⟨0, 0, 0, 0⟩ store.cell_at_seven
            ⟨some 7, none⟩).out ++ [9]) = some r ∧
        r.thrown = none ∧ r.rest = [9] ∧ r.self.quantity.isSome = true ∧
        (store.amount_t.cell r.heap r.self).val = -70000 ∧
        (store.amount_t.cell r.heap r.self).prec = 2 :=
  (C16_stream_round_trip false ⟨0, 0, 0, 0⟩ ⟨0, 0, 0, 0⟩ store.cell_at_seven store.no_cell 7
    ⟨-70000, 2, 0, 3, 0⟩ none ⟨none, none⟩ [9] rfl rfl
    (by rw [show (⟨-70000, 2, 0, 3, 0⟩ : store.bigint_t).val = -70000 from rfl,
      store.export_size_example]; decide) (by norm_num)).2.1


namespace store

theorem cells_set (h : heap_t) (p : Nat) (c : bigint_t) (x : Nat) :
    (h.set p c).cells x = if x = p then some c else h.cells x := rfl

/-- The arena reader on the record of a cell read for the first time. -/
theorem read_tag1 (be : Bool) (g : globals_t) (h : heap_t) (self : amount_t) (v : Int)
    (prec : Nat) (rest : List Nat) (hsize : mpz_export_size v * 2 < 4096)
    (hprec : prec < 65536) :
    ∃ r, amount_t.read_quantity be g h self (tag1_record be v prec ++ rest) = some r ∧
      r.thrown = none ∧ r.rest = rest ∧
      r.globals = { g with bigints_next := g.bigints_next + 1 } ∧
      r.self.quantity = some g.bigints_next ∧
      r.heap.cells g.bigints_next = some ⟨v, prec, BIGINT_BULK_ALLOC, 1, 0⟩ ∧
      (∀ x, x ≠ g.bigints_next → r.heap.cells x = h.cells x) := by
  obtain ⟨p0, p1, hp, hpv⟩ := u16_of_bytes be hprec rest
  obtain ⟨l0, l1, hl, hlv⟩ := u16_of_bytes be (show mpz_export_size v * 2 < 65536 by omega)
    (mpz_export be v ++ (if v < 0 then 1 else 0) :: p0 :: p1 :: rest)
  have hin : tag1_record be v prec ++ rest =
      1 :: l0 :: l1 :: (mpz_export be v ++ (if v < 0 then 1 else 0) :: p0 :: p1 :: rest) := by
    simp only [tag1_record, List.append_assoc, List.singleton_append, List.cons_append, hp,
      List.nil_append]
    rw [hl]
  have hlen : ¬ (mpz_export be v ++ (if v < 0 then 1 else 0) :: p0 :: p1 :: rest).length <
      mpz_export_size v * 2 := by
    simp only [List.length_append, mpz_export_length]
    omega
  have hdrop : (mpz_export be v ++ (if v < 0 then 1 else 0) :: p0 :: p1 :: rest).drop
      (mpz_export_size v * 2) = (if v < 0 then 1 else 0) :: p0 :: p1 :: rest := by
    rw [List.drop_left' (mpz_export_length be v)]
  have himp : mpz_import be (mpz_export_size v * 2 / 2)
      (mpz_export be v ++ (if v < 0 then 1 else 0) :: p0 :: p1 :: rest) 0 = v.natAbs := by
    rw [Nat.mul_div_cancel _ (by norm_num)]
    exact import_export be v _
  have hflag : ((0 : Nat) ||| BIGINT_BULK_ALLOC) % 65536 = BIGINT_BULK_ALLOC := by decide
  rw [hin]
  unfold amount_t.read_quantity
  simp only [one_ne_zero, if_false, if_true, hlv, hlen, hdrop, himp, hpv, amount_t.cell,
    amount_t.put, get_set_same, hflag]
  refine ⟨_, rfl, rfl, rfl, rfl, rfl, ?_, ?_⟩
  · by_cases hv : v < 0
    · simp only [hv, if_true, ne_eq, one_ne_zero, not_false_eq_true, get_set_same, cells_set]
      congr 2
      omega
    · simp only [hv, if_false, ne_eq, not_true_eq_false, get_set_same, cells_set, if_true]
      congr 2
      omega
  · intro x hx
    by_cases hv : v < 0
    · simp only [hv, if_true, ne_eq, one_ne_zero, not_false_eq_true, cells_set, if_neg hx]
    · simp only [hv, if_false, ne_eq, not_true_eq_false, cells_set, if_neg hx]

/-- The arena reader on the record of a cell read before. -/
theorem read_tag2 (be : Bool) (g : globals_t) (h : heap_t) (self : amount_t) (index : Nat)
    (rest : List Nat) (h1 : 1 ≤ index) (h32 : index < 4294967296) {c : bigint_t}
    (hc : h.cells (g.bigints + (index - 1)) = some c) (hr : c.ref + 1 < 4294967296) :
    ∃ r, amount_t.read_quantity be g h self (tag2_record be index ++ rest) = some r ∧
      r.thrown = none ∧ r.rest = rest ∧ r.globals = g ∧
      r.self.quantity = some (g.bigints + (index - 1)) ∧
      r.heap.cells (g.bigints + (index - 1)) = some { c with ref := c.ref + 1 } ∧
      (∀ x, x ≠ g.bigints + (index - 1) → r.heap.cells x = h.cells x) := by
  obtain ⟨b0, b1, b2, b3, hb, hv⟩ := u32_of_bytes be h32 rest
  have hin : tag2_record be index ++ rest = 2 :: b0 :: b1 :: b2 :: b3 :: rest := by
    simp only [tag2_record, List.append_assoc, List.singleton_append, List.cons_append, hb,
      List.nil_append]
  have h0 : index ≠ 0 := by omega
  rw [hin]
  unfold amount_t.read_quantity
  simp only [OfNat.ofNat_ne_zero, if_false, OfNat.ofNat_ne_one, hv, h0, amount_t.cell,
    amount_t.put, get_of_cells hc, Nat.mod_eq_of_lt hr]
  refine ⟨_, rfl, rfl, rfl, rfl, rfl, ?_, ?_⟩
  · simp only [cells_set, if_true]
  · intro x hx
    simp only [cells_set, if_neg hx]

theorem read_tag0 (be : Bool) (g : globals_t) (h : heap_t) (self : amount_t)
    (rest : List Nat) :
    amount_t.read_quantity be g h self ([0] ++ rest) =
      some ⟨h, g, { self with quantity := none }, rest, none⟩ := by
  simp [amount_t.read_quantity]

end store


namespace store

theorem references_cons (a : amount_t) (rest : List amount_t) (x : Nat) :
    references (a :: rest) x = references [a] x + references rest x := by
  simp only [references, List.countP_cons, List.countP_nil]
  omega

theorem references_single (a : amount_t) (x : Nat) :
    references [a] x = if a.quantity = some x then 1 else 0 := by
  simp [references, List.countP_cons]

theorem stable_refl (h : heap_t) : stable h h :=
  fun _ c hc => ⟨c, hc, rfl, rfl, rfl, fun _ => rfl⟩

theorem stable_trans {h1 h2 h3 : heap_t} (h12 : stable h1 h2) (h23 : stable h2 h3) :
    stable h1 h3 := by
  intro p c hc
  obtain ⟨c', hc', v1, p1, r1, i1⟩ := h12 p c hc
  obtain ⟨c'', hc'', v2, p2, r2, i2⟩ := h23 p c' hc'
  refine ⟨c'', hc'', by rw [v2, v1], by rw [p2, p1], by rw [r2, r1], fun hne => ?_⟩
  have := i1 hne
  rw [i2 (by rw [this]; exact hne), this]

theorem mirrored_congr {B : Nat} {hw : heap_t} {gw : globals_t} {hr : heap_t}
    {gr : globals_t} {R R' : Nat → Nat} (hR : ∀ x, R x = R' x)
    (hm : mirrored B hw gw hr gr R) : mirrored B hw gw hr gr R' := by
  have : R = R' := funext hR
  rw [← this]
  exact hm

theorem writable_tail {hw hw' : heap_t} {gw gw' : globals_t} {R R' : Nat → Nat}
    {a : amount_t} {rest : List amount_t} (hwr : writable hw gw R (a :: rest))
    (hst : stable hw hw') (hg : gw'.bigints_index ≤ gw.bigints_index + 1)
    (hR : ∀ x, R' x = R x + references [a] x) : writable hw' gw' R' rest := by
  obtain ⟨h1, h2⟩ := hwr
  refine ⟨by simp only [List.length_cons] at h1; omega, ?_⟩
  intro a' ha' p hp
  obtain ⟨c, hc, hs, hpr, href, h32⟩ := h2 a' (by simp [ha']) p hp
  obtain ⟨c', hc', v1, p1, r1, _⟩ := hst p c hc
  refine ⟨c', hc', by rw [v1]; exact hs, by rw [p1]; exact hpr, ?_, by rw [r1]; exact h32⟩
  rw [r1, hR p]
  rw [references_cons] at href
  omega

end store


namespace store

/-- One amount written and read back: the writer and the arena reader stay
mirrored, the amounts still to come stay writable, and the amount read points at
the arena cell that the index of the written cell names. -/
theorem write_read_step (be : Bool) (B : Nat) (a : amount_t) (rest : List amount_t)
    (hw : heap_t) (gw : globals_t) (hr : heap_t) (gr : globals_t) (R : Nat → Nat)
    (data : List Nat) (hm : mirrored B hw gw hr gr R) (hwr : writable hw gw R (a :: rest)) :
    (amount_t.write_quantity be gw hw a).thrown = none ∧
    ∃ r, amount_t.read_quantity be gr hr ⟨none, none⟩
          ((amount_t.write_quantity be gw hw a).out ++ data) = some r ∧
      r.thrown = none ∧ r.rest = data ∧
      mirrored B (amount_t.write_quantity be gw hw a).heap
        (amount_t.write_quantity be gw hw a).globals r.heap r.globals
        (fun x => R x + references [a] x) ∧
      writable (amount_t.write_quantity be gw hw a).heap
        (amount_t.write_quantity be gw hw a).globals (fun x => R x + references [a] x) rest ∧
      stable hw (amount_t.write_quantity be gw hw a).heap ∧
      r.self.quantity = a.quantity.map
        (fun p => B + (((amount_t.write_quantity be gw hw a).heap.get p).index - 1)) ∧
      (∀ p, a.quantity = some p →
        ((amount_t.write_quantity be gw hw a).heap.get p).index ≠ 0) := by
  obtain ⟨m1, m2, m3, m4, m5, m6⟩ := hm
  have hctr := hwr.1
  simp only [List.length_cons] at hctr
  obtain ⟨q, cm⟩ := a
  cases q with
  | none =>
    have hw0 : amount_t.write_quantity be gw hw ⟨none, cm⟩ = ⟨hw, gw, [0], none⟩ := rfl
    rw [hw0]
    have hR : ∀ x, R x = R x + references [(⟨none, cm⟩ : amount_t)] x := by
      intro x
      simp [references_single]
    refine ⟨rfl, _, read_tag0 be gr hr ⟨none, none⟩ data, rfl, rfl,
      mirrored_congr hR ⟨m1, m2, m3, m4, m5, m6⟩,
      writable_tail hwr (stable_refl hw) (Nat.le_succ _) (fun x => rfl), stable_refl hw, rfl, ?_⟩
    intro p hp
    cases hp
  | some p =>
    obtain ⟨c, hc, hsize, hprec, href, h32⟩ := hwr.2 ⟨some p, cm⟩ (by simp) p rfl
    have hone : ∀ x, references [(⟨some p, cm⟩ : amount_t)] x = if x = p then 1 else 0 := by
      intro x
      rw [references_single]
      by_cases hx : x = p
      · simp [hx]
      · have : ¬ (some p = some x) := fun h => hx (Option.some.inj h).symm
        simp [hx, this]
    have href1 : R p + 1 ≤ c.ref := by
      rw [references_cons, hone p, if_pos rfl] at href
      omega
    by_cases hidx : c.index = 0
    · -- the cell is written for the first time
      have hRp : R p = 0 := m6 p c hc hidx
      have hwf := write_first be gw cm hc hidx hsize
      rw [Nat.mod_eq_of_lt (show gw.bigints_index + 1 < 4294967296 by omega)] at hwf
      rw [hwf]
      obtain ⟨r, r1, r2, r3, r4, r5, r6, r7⟩ :=
        read_tag1 be gr hr ⟨none, none⟩ c.val c.prec data hsize hprec
      have hst : stable hw (hw.set p { c with index := gw.bigints_index + 1 }) := by
        intro x d hd
        by_cases hx : x = p
        · subst hx
          rw [hc] at hd
          cases hd
          exact ⟨{ c with index := gw.bigints_index + 1 }, by simp [cells_set], rfl, rfl, rfl,
            fun h => absurd hidx h⟩
        · exact ⟨d, by simp [cells_set, hx, hd], rfl, rfl, rfl, fun _ => rfl⟩
      refine ⟨rfl, r, r1, r2, r3, ?_, ?_, hst, ?_, ?_⟩
      · -- mirrored
        rw [r4]
        refine ⟨m1, by simp only; omega, ?_, ?_, ?_, ?_⟩
        · intro x d hd
          simp only [cells_set] at hd
          by_cases hx : x = p
          · rw [if_pos hx] at hd
            cases hd
            exact le_refl _
          · rw [if_neg hx] at hd
            have := m3 x d hd
            simp only
            omega
        · intro x y d e hd he hne heq
          simp only [cells_set] at hd he
          by_cases hx : x = p
          · by_cases hy : y = p
            · rw [hx, hy]
            · rw [if_pos hx] at hd
              rw [if_neg hy] at he
              cases hd
              have := m3 y e he
              simp only at heq
              omega
          · by_cases hy : y = p
            · rw [if_neg hx] at hd
              rw [if_pos hy] at he
              cases he
              have := m3 x d hd
              simp only at heq
              omega
            · rw [if_neg hx] at hd
              rw [if_neg hy] at he
              exact m4 x y d e hd he hne heq
        · intro x d hd hne
          simp only [cells_set] at hd
          by_cases hx : x = p
          · rw [if_pos hx] at hd
            cases hd
            subst hx
            simp only [Nat.add_sub_cancel, hone, if_true, hRp]
            rw [← m2]
            exact ⟨r6, le_refl _⟩
          · rw [if_neg hx] at hd
            obtain ⟨k1, k2⟩ := m5 x d hd hne
            have hle := m3 x d hd
            have hne2 : B + (d.index - 1) ≠ gr.bigints_next := by omega
            rw [r7 _ hne2]
            simp only [hone, if_neg hx, Nat.add_zero]
            exact ⟨k1, k2⟩
        · intro x d hd hz
          simp only [cells_set] at hd
          by_cases hx : x = p
          · rw [if_pos hx] at hd
            cases hd
            simp only at hz
            omega
          · rw [if_neg hx] at hd
            simp only [hone, if_neg hx, Nat.add_zero]
            exact m6 x d hd hz
      · exact writable_tail hwr hst (by simp only; omega) (fun x => rfl)
      · rw [r5, m2]
        simp [get_set_same]
      · intro x hx
        cases hx
        simp [get_set_same]
    · -- the cell has been written before
      obtain ⟨k1, k2⟩ := m5 p c hc hidx
      have hle := m3 p c hc
      have hwa := write_again be gw cm hc hidx (show c.ref > 1 by omega)
      rw [hwa]
      have hcell : hr.cells (gr.bigints + (c.index - 1)) =
          some ⟨c.val, c.prec, BIGINT_BULK_ALLOC, R p, 0⟩ := by
        rw [m1]
        exact k1
      obtain ⟨r, r1, r2, r3, r4, r5, r6, r7⟩ :=
        read_tag2 be gr hr ⟨none, none⟩ c.index data (by omega) (by omega) hcell
          (show R p + 1 < 4294967296 by omega)
      refine ⟨rfl, r, r1, r2, r3, ?_, writable_tail hwr (stable_refl hw) (Nat.le_succ _)
        (fun x => rfl), stable_refl hw, ?_, ?_⟩
      · rw [r4]
        refine ⟨m1, m2, m3, m4, ?_, ?_⟩
        · intro x d hd hne
          obtain ⟨j1, j2⟩ := m5 x d hd hne
          by_cases hx : x = p
          · subst hx
            rw [hc] at hd
            cases hd
            simp only [hone, if_true]
            rw [← m1, r6]
            exact ⟨rfl, by omega⟩
          · have hdi : d.index ≠ c.index := by
              intro heq
              exact hx (m4 x p d c hd hc hne heq)
            have hle2 := m3 x d hd
            have hne2 : B + (d.index - 1) ≠ gr.bigints + (c.index - 1) := by
              rw [m1]
              omega
            rw [r7 _ hne2]
            simp only [hone, if_neg hx, Nat.add_zero]
            exact ⟨j1, j2⟩
        · intro x d hd hz
          have hx : x ≠ p := by
            rintro rfl
            rw [hc] at hd
            cases hd
            exact hidx hz
          simp only [hone, if_neg hx, Nat.add_zero]
          exact m6 x d hd hz
      · rw [r5, m1]
        simp [get_of_cells hc]
      · intro x hx
        cases hx
        rw [get_of_cells hc]
        exact hidx

end store


namespace store

/-- A list of amounts written and read back through the arena reader. -/
theorem write_read_all (be : Bool) (B : Nat) (amounts : List amount_t) :
    ∀ (hw : heap_t) (gw : globals_t) (hr : heap_t) (gr : globals_t) (R : Nat → Nat)
      (data : List Nat), mirrored B hw gw hr gr R → writable hw gw R amounts →
    (write_all be gw hw amounts).thrown = none ∧
    ∃ rs, read_all be gr hr amounts.length ((write_all be gw hw amounts).out ++ data) =
        some rs ∧
      rs.thrown = none ∧ rs.rest = data ∧
      mirrored B (write_all be gw hw amounts).heap (write_all be gw hw amounts).globals
        rs.heap rs.globals (fun x => R x + references amounts x) ∧
      stable hw (write_all be gw hw amounts).heap ∧
      rs.amounts.map (fun b => b.quantity) = amounts.map (fun a => a.quantity.map
        (fun p => B + (((write_all be gw hw amounts).heap.get p).index - 1))) ∧
      (∀ a ∈ amounts, ∀ p, a.quantity = some p →
        ((write_all be gw hw amounts).heap.get p).index ≠ 0) := by
  induction amounts with
  | nil =>
    intro hw gw hr gr R data hm _
    refine ⟨rfl, ⟨hr, gr, [], data, none⟩, rfl, rfl, rfl, ?_, stable_refl hw, rfl, ?_⟩
    · exact mirrored_congr (fun x => by simp [references]) hm
    · intro a ha
      cases ha
  | cons a rest ih =>
    intro hw gw hr gr R data hm hwr
    obtain ⟨s1, r, s2, s3, s4, s5, s6, s7, s8, s9⟩ :=
      write_read_step be B a rest hw gw hr gr R
        ((write_all be (amount_t.write_quantity be gw hw a).globals
          (amount_t.write_quantity be gw hw a).heap rest).out ++ data) hm hwr
    obtain ⟨i1, rs, i2, i3, i4, i5, i6, i7, i8⟩ :=
      ih (amount_t.write_quantity be gw hw a).heap (amount_t.write_quantity be gw hw a).globals
        r.heap r.globals (fun x => R x + references [a] x) data s5 s6
    have hwall : write_all be gw hw (a :: rest) =
        ⟨(write_all be (amount_t.write_quantity be gw hw a).globals
            (amount_t.write_quantity be gw hw a).heap rest).heap,
          (write_all be (amount_t.write_quantity be gw hw a).globals
            (amount_t.write_quantity be gw hw a).heap rest).globals,
          (amount_t.write_quantity be gw hw a).out ++
            (write_all be (amount_t.write_quantity be gw hw a).globals
              (amount_t.write_quantity be gw hw a).heap rest).out,
          (write_all be (amount_t.write_quantity be gw hw a).globals
            (amount_t.write_quantity be gw hw a).heap rest).thrown⟩ := by
      simp only [write_all, s1]
    rw [hwall]
    simp only
    refine ⟨i1, ⟨rs.heap, rs.globals, r.self :: rs.amounts, rs.rest, rs.thrown⟩, ?_, i3, i4,
      ?_, stable_trans s7 i6, ?_, ?_⟩
    · simp only [List.length_cons, read_all, List.append_assoc, s2, s3]
      rw [s4, i2]
    · refine mirrored_congr (fun x => ?_) i5
      have := references_cons a rest x
      omega
    · simp only [List.map_cons, i7, List.cons.injEq, and_true]
      rw [s8]
      cases hq : a.quantity with
      | none => rfl
      | some p =>
        simp only [Option.map_some', Option.some.injEq, Nat.add_left_cancel_iff]
        obtain ⟨c, hc, _⟩ := hwr.2 a (by simp) p hq
        obtain ⟨c', hc', _, _, _, _⟩ := s7 p c hc
        have hne := s9 p hq
        rw [get_of_cells hc'] at hne ⊢
        obtain ⟨c'', hc'', _, _, _, hi⟩ := i6 p c' hc'
        rw [get_of_cells hc'', hi hne]
    · intro a' ha' p hp
      rcases List.mem_cons.mp ha' with rfl | hmem
      · obtain ⟨c, hc, _⟩ := hwr.2 a' (by simp) p hp
        obtain ⟨c', hc', _, _, _, _⟩ := s7 p c hc
        have hne := s9 p hp
        rw [get_of_cells hc'] at hne
        obtain ⟨c'', hc'', _, _, _, hi⟩ := i6 p c' hc'
        rw [get_of_cells hc'', hi hne]
        exact hne
      · exact i8 a' hmem p hp

end store


namespace store

theorem map_getElem? {α β γ : Type} (l1 : List α) (l2 : List β) (f : α → γ) (g : β → γ)
    (h : l1.map f = l2.map g) (i : Nat) (b : β) (hb : l2[i]? = some b) :
    ∃ a, l1[i]? = some a ∧ f a = g b := by
  have h1 : (l1.map f)[i]? = (l2.map g)[i]? := by rw [h]
  rw [List.getElem?_map, List.getElem?_map, hb] at h1
  cases ha : l1[i]? with
  | none => rw [ha] at h1; cases h1
  | some a =>
    rw [ha] at h1
    exact ⟨a, rfl, Option.some.inj h1⟩

end store

/-- C18: let a list of amounts be written with `write_quantity`, the global
counter starting at 0, no cell of the writer's memory written before, each cell
referenced at least as often as the list has handles on it, and each magnitude
fitting the export buffer; and let the bytes be read back by the arena reader
into an empty arena, one amount per record.  Then neither side fails, all bytes
are read, and: two amounts read point at the same arena cell exactly when the two
amounts written pointed at the same cell; an amount written without quantity is
read without quantity; and the arena cell of an amount read carries
`BIGINT_BULK_ALLOC`, the mantissa and the precision of the cell written, and a
reference count equal to the number of amounts of the list on that cell. -/
theorem C18_arena_round_trip (be : Bool) (hw : store.heap_t) (gw : store.globals_t)
    (hr : store.heap_t) (gr : store.globals_t) (amounts : List store.amount_t)
    (hctr : gw.bigints_index = 0) (hnew : ∀ p c, hw.cells p = some c → c.index = 0)
    (harena : gr.bigints_next = gr.bigints) (hlen : amounts.length < 4294967296)
    (hcells : ∀ a ∈ amounts, ∀ p, a.quantity = some p →
      ∃ c, hw.cells p = some c ∧ store.mpz_export_size c.val * 2 < 4096 ∧ c.prec < 65536 ∧
        store.references amounts p ≤ c.ref ∧ c.ref < 4294967296) :
    (store.write_all be gw hw amounts).thrown = none ∧
    ∃ rs, store.read_all be gr hr amounts.length (store.write_all be gw hw amounts).out =
        some rs ∧
      rs.thrown = none ∧ rs.rest = [] ∧ rs.amounts.length = amounts.length ∧
      (∀ (i j : Nat) (a b x y : store.amount_t), amounts[i]? = some a → amounts[j]? = some b →
        rs.amounts[i]? = some x → rs.amounts[j]? = some y →
        (x.quantity = y.quantity ↔ a.quantity = b.quantity)) ∧
      (∀ (i : Nat) (a x : store.amount_t), amounts[i]? = some a → rs.amounts[i]? = some x →
        (a.quantity = none → x.quantity = none) ∧
        (∀ p c, a.quantity = some p → hw.cells p = some c →
          ∃ p' c', x.quantity = some p' ∧ rs.heap.cells p' = some c' ∧
            c'.flags &&& store.BIGINT_BULK_ALLOC ≠ 0 ∧ c'.val = c.val ∧ c'.prec = c.prec ∧
            c'.ref = store.references amounts p)) := by
  have hm : store.mirrored gr.bigints hw gw hr gr (fun _ => 0) := by
    refine ⟨rfl, by rw [harena, hctr]; rfl, ?_, ?_, ?_, fun _ _ _ _ => rfl⟩
    · intro p c hc
      rw [hnew p c hc]
      exact Nat.zero_le _
    · intro p q c d hc _ hne
      exact absurd (hnew p c hc) hne
    · intro p c hc hne
      exact absurd (hnew p c hc) hne
  have hwr : store.writable hw gw (fun _ => 0) amounts := by
    refine ⟨by rw [hctr]; omega, ?_⟩
    intro a ha p hp
    obtain ⟨c, h1, h2, h3, h4, h5⟩ := hcells a ha p hp
    exact ⟨c, h1, h2, h3, by simpa using h4, h5⟩
  obtain ⟨w1, rs, w2, w3, w4, w5, w6, w7, w8⟩ :=
    store.write_read_all be gr.bigints amounts hw gw hr gr (fun _ => 0) [] hm hwr
  rw [List.append_nil] at w2
  obtain ⟨m1, m2, m3, m4, m5, m6⟩ := w5
  have hlen2 : rs.amounts.length = amounts.length := by
    have := congrArg List.length w7
    simpa using this
  -- the amount read at a position, in terms of the amount written there
  have hpos : ∀ (i : Nat) (a x : store.amount_t), amounts[i]? = some a →
      rs.amounts[i]? = some x →
      x.quantity = a.quantity.map (fun p =>
        gr.bigints + (((store.write_all be gw hw amounts).heap.get p).index - 1)) := by
    intro i a x ha hx
    obtain ⟨x', hx', heq⟩ := store.map_getElem? _ _ _ _ w7 i a ha
    rw [hx] at hx'
    cases hx'
    exact heq
  -- the final cell of a written amount
  have hfin : ∀ (i : Nat) (a : store.amount_t) (p : Nat), amounts[i]? = some a →
      a.quantity = some p →
      ∃ c c'', hw.cells p = some c ∧
        (store.write_all be gw hw amounts).heap.cells p = some c'' ∧ c''.val = c.val ∧
        c''.prec = c.prec ∧ c''.index ≠ 0 := by
    intro i a p ha hp
    have hmem : a ∈ amounts := List.getElem?_mem ha
    obtain ⟨c, hc, _⟩ := hcells a hmem p hp
    obtain ⟨c'', hc'', v, pr, _, _⟩ := w6 p c hc
    have hne := w8 a hmem p hp
    rw [store.get_of_cells hc''] at hne
    exact ⟨c, c'', hc, hc'', v, pr, hne⟩
  refine ⟨w1, rs, w2, w3, w4, hlen2, ?_, ?_⟩
  · intro i j a b x y ha hb hx hy
    rw [hpos i a x ha hx, hpos j b y hb hy]
    constructor
    · intro heq
      cases hqa : a.quantity with
      | none =>
        cases hqb : b.quantity with
        | none => rfl
        | some q => rw [hqa, hqb] at heq; cases heq
      | some p =>
        cases hqb : b.quantity with
        | none => rw [hqa, hqb] at heq; cases heq
        | some q =>
          rw [hqa, hqb] at heq
          simp only [Option.map_some', Option.some.injEq, Nat.add_left_cancel_iff] at heq
          obtain ⟨_, c1, _, hc1, _, _, n1⟩ := hfin i a p ha hqa
          obtain ⟨_, c2, _, hc2, _, _, n2⟩ := hfin j b q hb hqb
          rw [store.get_of_cells hc1, store.get_of_cells hc2] at heq
          rw [m4 p q c1 c2 hc1 hc2 n1 (by omega)]
    · intro heq
      rw [heq]
  · intro i a x ha hx
    refine ⟨fun hq => by rw [hpos i a x ha hx, hq]; rfl, ?_⟩
    intro p c hp hc
    obtain ⟨c0, c'', hc0, hc'', v, pr, hne⟩ := hfin i a p ha hp
    rw [hc] at hc0
    cases hc0
    obtain ⟨k1, _⟩ := m5 p c'' hc'' hne
    refine ⟨gr.bigints + (c''.index - 1), _, ?_, k1, ?_, v, pr, by simp⟩
    · rw [hpos i a x ha hx, hp]
      simp [store.get_of_cells hc'']
    · simp only [store.BIGINT_BULK_ALLOC]
      decide

/-- C18 (witness): three amounts on the one cell at address 7 (mantissa `-70000`,
precision 2) are written and read back into an arena that starts at address 100:
the amounts read at the first and at the last position point at the same cell,
and the reference count of the cell of the first is 3. -/
theorem C18_arena_round_trip_witness :
    ∃ rs, store.read_all false ⟨100, 100, 0, 0⟩ store.no_cell 3
        (store.write_all false ⟨0, 0, 0, 0⟩ store.cell_at_seven
          [⟨some 7, none⟩, ⟨some 7, none⟩, ⟨some 7, none⟩]).out = some rs ∧
      rs.thrown = none ∧ rs.amounts.length = 3 ∧
      (∀ x y : store.amount_t, rs.amounts[0]? = some x → rs.amounts[2]? = some y →
        x.quantity = y.quantity) ∧
      (∀ x : store.amount_t, rs.amounts[0]? = some x →
        ∃ p' c', x.quantity = some p' ∧ rs.heap.cells p' = some c' ∧ c'.val = -70000 ∧
          c'.prec = 2 ∧ c'.ref = 3) := by
  have hcell : ∀ p c, store.cell_at_seven.cells p = some c → p = 7 ∧ c = ⟨-70000, 2, 0, 3, 0⟩ := by
    intro p c hc
    simp only [store.cell_at_seven] at hc
    by_cases hp : p = 7
    · rw [if_pos hp] at hc
      cases hc
      exact ⟨hp, rfl⟩
    · rw [if_neg hp] at hc
      cases hc
  obtain ⟨_, rs, h1, h2, _, h4, h5, h6⟩ :=
    C18_arena_round_trip false store.cell_at_seven ⟨0, 0, 0, 0⟩ store.no_cell ⟨100, 100, 0, 0⟩
      [⟨some 7, none⟩, ⟨some 7, none⟩, ⟨some 7, none⟩] rfl
      (fun p c hc => by rw [(hcell p c hc).2])
      rfl (by decide)
      (by
        intro a ha p hp
        simp only [List.mem_cons, List.mem_singleton, List.not_mem_nil, or_false, or_self]
          at ha
        subst ha
        cases hp
        have hsize : store.mpz_export_size (⟨-70000, 2, 0, 3, 0⟩ : store.bigint_t).val * 2 < 4096 := by
          rw [show (⟨-70000, 2, 0, 3, 0⟩ : store.bigint_t).val = -70000 from rfl,
            store.export_size_example]
          decide
        exact ⟨⟨-70000, 2, 0, 3, 0⟩, rfl, hsize, by norm_num, by decide, by norm_num⟩)
  refine ⟨rs, h1, h2, h4, ?_, ?_⟩
  · intro x y hx hy
    exact (h5 0 2 ⟨some 7, none⟩ ⟨some 7, none⟩ x y rfl rfl hx hy).2 rfl
  · intro x hx
    obtain ⟨p', c', k1, k2, _, k4, k5, k6⟩ :=
      (h6 0 ⟨some 7, none⟩ x rfl hx).2 7 ⟨-70000, 2, 0, 3, 0⟩ rfl rfl
    exact ⟨p', c', k1, k2, k4, k5, by rw [k6]; decide⟩


/-- C17 (witness): three amounts on the one cell at address 7, the global counter
at 0: one tag-1 record and two tag-2 records with the index 1. -/
theorem C17_reference_dedup_witness :
    (store.write_all false ⟨0, 0, 0, 0⟩ store.cell_at_seven
        [⟨some 7, none⟩, ⟨some 7, none⟩, ⟨some 7, none⟩]).out =
      store.tag1_record false (-70000) 2 ++
        store.repeated (3 - 1) (store.tag2_record false (0 + 1)) ∧
    (store.write_all false ⟨0, 0, 0, 0⟩ store.cell_at_seven
        [⟨some 7, none⟩, ⟨some 7, none⟩, ⟨some 7, none⟩]).globals.bigints_index = 0 + 1 ∧
    store.repeated 2 (store.tag2_record false 1) = [2, 1, 0, 0, 0, 2, 1, 0, 0, 0] :=
  have h := store.C17_reference_dedup false ⟨0, 0, 0, 0⟩ store.cell_at_seven 7
    ⟨-70000, 2, 0, 3, 0⟩ [⟨some 7, none⟩, ⟨some 7, none⟩, ⟨some 7, none⟩] (by simp)
    (by
      intro a ha
      simp only [List.mem_cons, List.mem_singleton, List.not_mem_nil, or_false, or_self] at ha
      rw [ha])
    rfl rfl (by decide) (by rw [show (⟨-70000, 2, 0, 3, 0⟩ : store.bigint_t).val = -70000 from rfl,
      store.export_size_example]; decide) (by decide)
  ⟨h.2.1, h.2.2.1, by decide⟩

/-! ## The parsed mantissa -/

/-- C15 (failing input): `amount_t::parse` accepts the number string `1..5`, its
copying loop takes the second of the two adjacent periods over into the buffer,
`mpz_set_str` rejects the buffer `1.5`, and the mantissa of the new amount stays
0, whereas the string without its marks denotes 15. -/
theorem C15_adjacent_marks_kept :
    amount_t.parse_scan "1..5".data = .ok ⟨false, "1..5".data, [], 0, []⟩ ∧
    strip "1..5".data = some "1.5".data ∧
    mpz_set_str "1.5".data = none ∧
    parsed_t.amount (amount_t.parse_core initial_registry zero "1..5".data 0)
      = some ⟨some ⟨0, 1⟩, some null_commodity⟩ ∧
    decimal ("1..5".data.filter fun c => !mark c) = 15 := by
  refine ⟨by rfl, by rfl, by rfl, by rfl, by rfl⟩

/-! ## The style the parser infers -/

theorem READ_INTO_length (cond : Char → Bool) :
    ∀ (size : Nat) (input : List Char), (READ_INTO cond size input).1.length ≤ size := by
  intro size
  induction size with
  | zero => intro input; simp [READ_INTO]
  | succ n ih =>
    intro input
    cases input with
    | nil => simp [READ_INTO]
    | cons c rest =>
      by_cases hc : cond c = true
      · simp only [READ_INTO, if_pos hc, List.length_cons]
        exact Nat.succ_le_succ (ih rest)
      · simp [READ_INTO, hc]

theorem parse_quantity_length (input : List Char) : (parse_quantity input).1.length ≤ 255 :=
  READ_INTO_length _ 255 _

/-- What `scanned` returns is made of its arguments. -/
theorem scanned_ok {negative : Bool} {quant symbol : List Char} {comm_flags : Nat}
    {rest : List Char} {sc : scanned_t}
    (h : scanned negative quant symbol comm_flags rest = .ok sc) :
    quant ≠ [] ∧ sc = ⟨negative, quant, symbol, comm_flags, rest⟩ := by
  unfold scanned at h
  by_cases hq : quant = []
  · rw [if_pos hq] at h; cases h
  · rw [if_neg hq] at h
    cases h
    exact ⟨hq, rfl⟩

/-- The text `amount_t::parse` reads after the optional sign. -/
theorem scan_facts (input : List Char) (sc : scanned_t)
    (h : amount_t.parse_scan input = .ok sc) :
    sc.quant ≠ [] ∧ sc.quant.length ≤ 255 ∧
      (sc.comm_flags = 0 ∨ sc.comm_flags = 1 ∨ sc.comm_flags = 2 ∨ sc.comm_flags = 3) := by
  unfold amount_t.parse_scan at h
  simp only at h
  generalize (if decide ((peek_next_nonws input).head? = some '-') = true then
    peek_next_nonws (peek_next_nonws input).tail else peek_next_nonws input) = body at h
  generalize decide ((peek_next_nonws input).head? = some '-') = negative at h
  split at h
  · split at h
    · obtain ⟨h1, h2⟩ := scanned_ok h
      subst h2
      exact ⟨h1, parse_quantity_length _, Or.inl rfl⟩
    · split at h
      · split at h
        · cases h
        · obtain ⟨h1, h2⟩ := scanned_ok h
          subst h2
          refine ⟨h1, parse_quantity_length _, ?_⟩
          simp only [COMMODITY_STYLE_DEFAULTS, COMMODITY_STYLE_SEPARATED,
            COMMODITY_STYLE_SUFFIXED]
          split <;> split <;> decide
      · obtain ⟨h1, h2⟩ := scanned_ok h
        subst h2
        exact ⟨h1, parse_quantity_length _, Or.inl rfl⟩
  · split at h
    · cases h
    · obtain ⟨h1, h2⟩ := scanned_ok h
      subst h2
      refine ⟨h1, parse_quantity_length _, ?_⟩
      simp only [COMMODITY_STYLE_DEFAULTS, COMMODITY_STYLE_SEPARATED]
      split <;> decide

theorem prec_set_val (x : amount_t) (v : Int) : (amount_t.set_val x v).prec = x.prec := by
  obtain ⟨q, c⟩ := x
  cases q <;> rfl

theorem prec_negate (x : amount_t) : (amount_t.negate x).prec = x.prec := by
  unfold amount_t.negate
  split
  · exact prec_set_val _ _
  · rfl

theorem commodity_set_prec (x : amount_t) (p : Nat) :
    (amount_t.set_prec x p).commodity_ = x.commodity_ := rfl

theorem prec_after_init (self : amount_t) (c : Option Nat) (p : Nat) (hp : p < 65536) :
    (amount_t.set_prec { amount_t._init self with commodity_ := c } p).prec = p := by
  obtain ⟨q, c0⟩ := self
  cases q with
  | none => simp [amount_t._init, amount_t.set_prec, amount_t.prec, Nat.mod_eq_of_lt hp]
  | some q => simp [amount_t._init, amount_t.set_prec, amount_t.prec, Nat.mod_eq_of_lt hp]

theorem prec_parse_mantissa (x : amount_t) (buf : List Char) (negative : Bool) :
    (amount_t.parse_mantissa x buf negative).prec = x.prec := by
  unfold amount_t.parse_mantissa
  cases negative <;> cases mpz_set_str buf <;> simp [prec_negate, prec_set_val]

theorem commodity_of_pointer (x y : amount_t) (h : x.commodity_ = y.commodity_) :
    x.commodity = y.commodity := by
  simp only [amount_t.commodity, h]

/-- The three examples of the specification come back as they were written:
`$100.00`, `1.000,00 EUR` and `-0,50`, each parsed under the initial registry,
which has no default commodity. -/
theorem reformat_examples :
    reformat 4 initial_registry "$100.00".data 0 = some "$100.00".data ∧
    reformat 4 initial_registry "1.000,00 EUR".data 0 = some "1.000,00 EUR".data ∧
    reformat 4 initial_registry "-0,50".data 0 = some "-0,50".data := by
  refine ⟨by rfl, by rfl, by rfl⟩

/-! ## The error of the rounding -/

/-- The distance of a value from the multiple of `10 * e` that `mpz_round`
picks, and the distance of the pick from the truncated quotient. -/
theorem round_bounds (v e : Int) (he : 0 < e) :
    2 * |v - (v + 5 * e) / (10 * e) * (10 * e)| ≤ 10 * e ∧
    |(v + 5 * e) / (10 * e) - Int.tdiv v (10 * e)| ≤ 1 := by
  have hD : (0 : Int) < 10 * e := by omega
  obtain ⟨b1, b2, _, _⟩ := tmod_bounds v hD
  have hdec := Int.tdiv_add_tmod v (10 * e)
  have hmod := Int.emod_add_ediv (v + 5 * e) (10 * e)
  have hnn := Int.emod_nonneg (v + 5 * e) (by omega : (10 * e : Int) ≠ 0)
  have hlt := Int.emod_lt_of_pos (v + 5 * e) hD
  generalize (v + 5 * e) / (10 * e) = r at *
  generalize (v + 5 * e) % (10 * e) = m at *
  generalize Int.tdiv v (10 * e) = t at *
  generalize Int.tmod v (10 * e) = s at *
  have hv : v - r * (10 * e) = m - 5 * e := by linarith
  constructor
  · rw [hv]
    have : |m - 5 * e| ≤ 5 * e := abs_le.mpr ⟨by linarith, by linarith⟩
    linarith
  · have h1 : (r - t) * (10 * e) = s - m + 5 * e := by linarith
    rw [abs_le]
    constructor
    · by_contra hc
      have : r - t ≤ -2 := by omega
      nlinarith
    · by_contra hc
      have : 2 ≤ r - t := by omega
      nlinarith

/-- C26: for every pair of values and all precisions `value_prec > round_prec`,
with `d = 10 ^ (value_prec - round_prec)`: `mpz_round` returns a result `r` with
`2 * |value - r * d| <= d`, `r` differs from the truncated quotient of `value`
by `d` by at most 1, and of two values the smaller never gets the larger
result. -/
theorem C26_round_error_bound (v1 v2 : Int) (vp rp : Nat) (h : rp < vp) :
    ∃ r1 r2, mpz_round v1 vp rp = .ok r1 ∧ mpz_round v2 vp rp = .ok r2 ∧
      2 * |v1 - r1 * 10 ^ (vp - rp)| ≤ 10 ^ (vp - rp) ∧
      |r1 - Int.tdiv v1 (10 ^ (vp - rp))| ≤ 1 ∧
      (v1 ≤ v2 → r1 ≤ r2) := by
  obtain ⟨k, hk⟩ : ∃ k, vp - rp = k + 1 := ⟨vp - rp - 1, by omega⟩
  have hd : (10 : Int) ^ (vp - rp) = 10 * 10 ^ k := by rw [hk, pow_succ']
  have hk' : vp - rp - 1 = k := by omega
  have he : (0 : Int) < 10 ^ k := by positivity
  refine ⟨_, _, mpz_round_eq v1 h, mpz_round_eq v2 h, ?_, ?_, ?_⟩
  · rw [hk', hd]
    exact (round_bounds v1 _ he).1
  · rw [hk', hd]
    exact (round_bounds v1 _ he).2
  · intro hle
    exact Int.ediv_le_ediv (by positivity) (by omega)

/-- C26 (witness): the values `-15` and `15` rounded from one digit to none:
the results are `-1` and `2`. -/
theorem C26_round_error_bound_witness :
    ∃ r1 r2, mpz_round (-15) 1 0 = .ok r1 ∧ mpz_round 15 1 0 = .ok r2 ∧
      2 * |-15 - r1 * 10 ^ (1 - 0)| ≤ 10 ^ (1 - 0) ∧
      |r1 - Int.tdiv (-15) (10 ^ (1 - 0))| ≤ 1 ∧
      (-15 ≤ 15 → r1 ≤ r2) :=
  C26_round_error_bound (-15) 15 1 0 (by decide)

/-! ## Reduction to the smallest unit -/

theorem untrimmed_mono (cs : commodities_t) (fs : List amount_t) :
    ∀ (c p p' : Nat), p' ≤ p → untrimmed cs c p fs → untrimmed cs c p' fs := by
  induction fs with
  | nil => intro _ _ _ _ _; trivial
  | cons f fs ih =>
    intro c p p' hle h
    obtain ⟨h1, h2, h3⟩ := h
    exact ⟨by omega, by omega, ih _ _ _ (by omega) h3⟩

/-- One turn of the loop of `reduce ()`, when the product is not trimmed: no
failure, the value is the product of the values, and the precision is at most
the sum of the precisions. -/
theorem reduce_step (cs : commodities_t) (self f : amount_t)
    (h1 : self.prec + f.prec < 65536)
    (h2 : self.prec + f.prec ≤ (cs self.commodity).precision + 6) :
    (amount_t.operator_mul_eq cs self f).thrown = none ∧
    amount_t.numeric_value (amount_t.operator_mul_eq cs self f).self =
      amount_t.numeric_value self * amount_t.numeric_value f ∧
    (amount_t.operator_mul_eq cs self f).self.prec ≤ self.prec + f.prec := by
  obtain ⟨q, c⟩ := self
  obtain ⟨fq, fc⟩ := f
  cases fq with
  | none =>
    cases q with
    | none =>
      simp [amount_t.operator_mul_eq, amount_t.operator_assign, amount_t.numeric_value,
        amount_t.prec]
    | some q =>
      simp [amount_t.operator_mul_eq, amount_t.operator_assign, amount_t.numeric_value,
        amount_t.prec, amount_t._clear]
  | some fq =>
    cases q with
    | none =>
      simp [amount_t.operator_mul_eq, amount_t.numeric_value, amount_t.prec]
    | some q =>
      simp only [amount_t.prec] at h1 h2
      have hm : amount_t.operator_mul_eq cs ⟨some q, c⟩ ⟨some fq, fc⟩ =
          amount_t.trim cs ⟨some ⟨q.val * fq.val, q.prec + fq.prec⟩, c⟩ := by
        simp [amount_t.operator_mul_eq, amount_t.set_prec, amount_t.set_val,
          Nat.mod_eq_of_lt h1]
      obtain ⟨t1, _, _, _, _, t5⟩ :=
        trim_eq_round cs c ⟨q.val * fq.val, q.prec + fq.prec⟩ h1
      have hsame := t5 h2
      refine ⟨by rw [hm]; exact t1, ?_, by rw [hm, hsame]; exact le_refl _⟩
      rw [hm, hsame]
      simp only [amount_t.numeric_value]
      push_cast
      rw [pow_add]
      field_simp

/-- The product with an amount that has a quantity raises nothing and stays in
the commodity of the left operand. -/
theorem mul_by_quantity (cs : commodities_t) (self f : amount_t)
    (hf : f.quantity.isSome = true) :
    (amount_t.operator_mul_eq cs self f).thrown = none ∧
    (amount_t.operator_mul_eq cs self f).self.commodity_ = self.commodity_ := by
  obtain ⟨q, c⟩ := self
  obtain ⟨fq, fc⟩ := f
  cases fq with
  | none => simp at hf
  | some fq =>
    cases q with
    | none => exact ⟨rfl, rfl⟩
    | some q =>
      have hm : amount_t.operator_mul_eq cs ⟨some q, c⟩ ⟨some fq, fc⟩ =
          amount_t.trim cs
            (amount_t.set_prec (amount_t.set_val ⟨some q, c⟩ (q.val * fq.val))
              (q.prec + fq.prec)) := rfl
      rw [hm]
      refine ⟨trim_thrown _ _, ?_⟩
      unfold amount_t.trim
      simp only
      split
      · split <;> rfl
      · rfl

/-- A valid amount that points to a commodity has a quantity. -/
theorem quantity_of_valid (f : amount_t) (c : Nat) (hv : f.valid = true)
    (hc : f.commodity_ = some c) : f.quantity.isSome = true := by
  obtain ⟨q, fc⟩ := f
  cases q with
  | none =>
    simp only at hc
    subst hc
    simp [amount_t.valid] at hv
  | some q => rfl

/-- C21: for every amount whose commodity starts a finite chain of `smaller`
links, each link a valid amount (`valid ()`: no commodity without a quantity),
`reduce ()` terminates, with any fuel above the length of the chain, and
without failure; the amount ends in the last commodity of the chain, which has
no `smaller` link; and when no product along the chain is trimmed, its numeric
value is the original value multiplied by every conversion factor on the
chain. -/
theorem C21_reduce_chain (cs : commodities_t) (fs : List amount_t) :
    ∀ (self : amount_t) (c last k : Nat), self.commodity_ = some c →
      smaller_chain cs c fs last → (∀ f ∈ fs, f.valid = true) →
      ∃ r, amount_t.reduce cs (fs.length + 1 + k) self = some (.done r none) ∧
        r.commodity_ = some last ∧ (cs last).smaller = none ∧
        (untrimmed cs c self.prec fs →
          amount_t.numeric_value r =
            amount_t.numeric_value self * (fs.map amount_t.numeric_value).prod) := by
  induction fs with
  | nil =>
    intro self c last k hc hchain _
    obtain ⟨h1, h2⟩ := hchain
    subst h1
    refine ⟨self, ?_, hc, h2, fun _ => by simp⟩
    have hlen : ([] : List amount_t).length + 1 + k = k + 1 := by
      simp only [List.length_nil]; omega
    rw [hlen, amount_t.reduce]
    simp only [hc, h2]
  | cons f fs ih =>
    intro self c last k hc hchain hall
    obtain ⟨hs, c', hc', hrest⟩ := hchain
    have hcomm : self.commodity = c := by simp [amount_t.commodity, hc]
    obtain ⟨m1, m2⟩ := mul_by_quantity cs self f
      (quantity_of_valid f c' (hall f (List.mem_cons_self _ _)) hc')
    have hcomm' : (amount_t.operator_mul_eq cs self f).self.commodity = c := by
      rw [commodity_of_pointer _ _ m2, hcomm]
    have hfc : f.commodity = c' := by simp [amount_t.commodity, hc']
    obtain ⟨r, r1, r2, r3, r4⟩ :=
      ih { (amount_t.operator_mul_eq cs self f).self with commodity_ := f.commodity_ } c' last k
        hc' hrest (fun x hx => hall x (List.mem_cons_of_mem _ hx))
    refine ⟨r, ?_, r2, r3, ?_⟩
    · have hlen : (f :: fs).length + 1 + k = (fs.length + 1 + k) + 1 := by
        simp only [List.length_cons]; omega
      rw [hlen, amount_t.reduce]
      simp only [hc, hs, m1, hcomm']
      exact r1
    · intro hun
      obtain ⟨u1, u2, u3⟩ := hun
      rw [← hcomm] at u2
      obtain ⟨_, s2, s3⟩ := reduce_step cs self f u1 u2
      rw [hfc] at u3
      have hnv : amount_t.numeric_value
          { (amount_t.operator_mul_eq cs self f).self with commodity_ := f.commodity_ } =
          amount_t.numeric_value (amount_t.operator_mul_eq cs self f).self := rfl
      rw [r4 (untrimmed_mono cs fs c' _ _ s3 u3), hnv, s2, List.map_cons, List.prod_cons]
      ring

/-- C21 (witness): `1.5h` under the registry of `_init_amounts`, where
`1.0h = 60m` and `1.0m = 60s`: the mantissa 15 at precision 1 in the commodity
`h` is reduced to the commodity `s` with the value 5400; parsing the text `1.5h`
gives that amount. -/
theorem C21_reduce_chain_witness :
    (∃ r, amount_t.reduce time_registry.objects (2 + 1 + 0) ⟨some ⟨15, 1⟩, some 3⟩ =
        some (.done r none) ∧
      r.commodity_ = some 1 ∧ (time_registry.objects 1).smaller = none ∧
      (untrimmed time_registry.objects 3 1 [⟨some ⟨60, 0⟩, some 2⟩, ⟨some ⟨60, 0⟩, some 1⟩] →
        amount_t.numeric_value r =
          amount_t.numeric_value ⟨some ⟨15, 1⟩, some 3⟩ *
            ([⟨some ⟨60, 0⟩, some 2⟩, ⟨some ⟨60, 0⟩, some 1⟩].map
              amount_t.numeric_value).prod)) ∧
    untrimmed time_registry.objects 3 1 [⟨some ⟨60, 0⟩, some 2⟩, ⟨some ⟨60, 0⟩, some 1⟩] ∧
    (amount_t.parse 3 time_registry zero "1.5h".data 0).map parsed_t.amount =
      some (some ⟨some ⟨54000, 1⟩, some 1⟩) ∧
    (time_registry.objects 1).symbol = "s" ∧
    amount_t.numeric_value ⟨some ⟨54000, 1⟩, some 1⟩ = 5400 :=
  ⟨C21_reduce_chain time_registry.objects [⟨some ⟨60, 0⟩, some 2⟩, ⟨some ⟨60, 0⟩, some 1⟩]
      ⟨some ⟨15, 1⟩, some 3⟩ 3 1 0 rfl
      ⟨rfl, 2, rfl, rfl, 1, rfl, rfl, rfl⟩
      (by
        intro f hf
        simp only [List.mem_cons, List.mem_singleton, List.not_mem_nil, or_false] at hf
        rcases hf with h | h <;> subst h <;> rfl),
    ⟨by decide, by decide, by decide, by decide, trivial⟩,
    by rfl, by rfl, by norm_num [amount_t.numeric_value]⟩

/-! ## The conversion links -/

theorem parse_style_prec_le (quant : List Char) (comm_flags : Nat) (d : Option Nat)
    (cf : Nat) : (amount_t.parse_style quant comm_flags d cf).2 ≤ quant.length := by
  unfold amount_t.parse_style
  split
  · simp only
    split <;> simp only <;> omega
  · simp only
    split <;> simp only <;> omega
  · split <;> simp only <;> omega
  · simp

theorem quantity_parse_mantissa (x : amount_t) (buf : List Char) (negative : Bool)
    (h : x.quantity.isSome = true) :
    (amount_t.parse_mantissa x buf negative).quantity.isSome = true := by
  obtain ⟨q, c⟩ := x
  cases q with
  | none => simp at h
  | some q =>
    unfold amount_t.parse_mantissa
    cases negative <;> cases mpz_set_str buf <;>
      simp [amount_t.negate, amount_t.set_val]

/-- An amount that `amount_t::parse` has filled has a quantity, of a precision
of at most 255. -/
theorem parse_core_done (reg : registry_t) (self : amount_t) (input : List Char) (flags : Nat)
    (a : amount_t) (reg' : registry_t) (rest : List Char)
    (h : amount_t.parse_core reg self input flags = .done a reg' rest) :
    a.quantity.isSome = true ∧ a.prec ≤ 255 := by
  unfold amount_t.parse_core at h
  cases hscan : amount_t.parse_scan input with
  | error e => rw [hscan] at h; cases h
  | ok sc =>
    rw [hscan] at h
    simp only at h
    have hlen := (scan_facts input sc hscan).2.1
    split at h
    · cases h
    · rename_i buf hbuf
      injection h with h1 h2 h3
      subst h1
      have hp : ∀ cf d f, (amount_t.parse_style sc.quant cf d f).2 ≤ sc.quant.length :=
        parse_style_prec_le sc.quant
      constructor
      · apply quantity_parse_mantissa
        obtain ⟨q, c⟩ := self
        cases q <;> simp [amount_t._init, amount_t.set_prec]
      · rw [prec_parse_mantissa,
          prec_after_init _ _ _ (lt_of_le_of_lt (le_trans (hp _ _ _) hlen) (by decide))]
        exact le_trans (hp _ _ _) hlen

theorem parse_no_reduce (fuel : Nat) (reg : registry_t) (self : amount_t) (input : List Char) :
    amount_t.parse fuel reg self input AMOUNT_PARSE_NO_REDUCE =
      some (amount_t.parse_core reg self input AMOUNT_PARSE_NO_REDUCE) := by
  unfold amount_t.parse
  have h : ¬ (AMOUNT_PARSE_NO_REDUCE &&& AMOUNT_PARSE_NO_REDUCE = 0) := by decide
  have h0 : AMOUNT_PARSE_NO_REDUCE ≠ 0 := by decide
  cases amount_t.parse_core reg self input AMOUNT_PARSE_NO_REDUCE <;> simp [h0]

/-- The product of two amounts that both have a quantity keeps the commodity of
the left one and raises nothing. -/
theorem mul_keeps_commodity (cs : commodities_t) (a b : amount_t)
    (ha : a.quantity.isSome = true) (hb : b.quantity.isSome = true)
    (hp : a.prec + b.prec < 65536) :
    (amount_t.operator_mul_eq cs a b).thrown = none ∧
    (amount_t.operator_mul_eq cs a b).self.commodity_ = a.commodity_ := by
  obtain ⟨qa, c⟩ := a
  obtain ⟨qb, cb⟩ := b
  cases qa with
  | none => simp at ha
  | some qa =>
    cases qb with
    | none => simp at hb
    | some qb =>
      simp only [amount_t.prec] at hp
      have hm : amount_t.operator_mul_eq cs ⟨some qa, c⟩ ⟨some qb, cb⟩ =
          amount_t.trim cs ⟨some ⟨qa.val * qb.val, qa.prec + qb.prec⟩, c⟩ := by
        simp [amount_t.operator_mul_eq, amount_t.set_prec, amount_t.set_val,
          Nat.mod_eq_of_lt hp]
      obtain ⟨t1, _, _, t4, _, _⟩ :=
        trim_eq_round cs c ⟨qa.val * qb.val, qa.prec + qb.prec⟩ hp
      rw [hm]
      exact ⟨t1, t4⟩

/-- C22 (counterexample): the conversion `1.0x = 60y` of two new commodities
under the initial registry.  Afterwards the smaller commodity `y` has the flag
`SUFFIXED` alone, without `NOMARKET`; it is the larger commodity `x` whose flags
are those of `y` with `NOMARKET` added. -/
theorem C22_smaller_keeps_flags :
    (parse_conversion initial_registry "1.0x".data "60y".data).map
        (fun r =>
          match r with
          | .ok reg =>
            some ((reg.objects 1).symbol, (reg.objects 1).flags, (reg.objects 2).symbol,
              (reg.objects 2).flags, (reg.objects 2).flags &&& COMMODITY_STYLE_NOMARKET)
          | .error _ => none) =
      some (some ("x", COMMODITY_STYLE_SUFFIXED ||| COMMODITY_STYLE_NOMARKET, "y",
        COMMODITY_STYLE_SUFFIXED, 0)) := by
  rfl

/-- C22 (amended): when `parse_conversion (larger_str, smaller_str)` returns,
both texts were parsed without reduction and the product `larger *= smaller`
was formed in the commodity of `larger`; if that commodity is not the null
commodity, its `smaller` link is the parsed smaller amount and its flags are
the flags of the smaller commodity with `NOMARKET` added; if the commodity of
`smaller` is not the null commodity, its `larger` link is the product; and the
flags of a smaller commodity other than the larger one stay as the parse left
them. -/
theorem C22_parse_conversion (reg reg' : registry_t) (larger_str smaller_str : List Char)
    (h : parse_conversion reg larger_str smaller_str = some (.ok reg')) :
    ∃ larger smaller reg1 reg2 rest1 rest2 product,
      amount_t.parse 0 reg zero larger_str AMOUNT_PARSE_NO_REDUCE =
        some (.done larger reg1 rest1) ∧
      amount_t.parse 0 reg1 zero smaller_str AMOUNT_PARSE_NO_REDUCE =
        some (.done smaller reg2 rest2) ∧
      amount_t.operator_mul_eq reg2.objects larger smaller = ⟨product, none⟩ ∧
      product.commodity_ = larger.commodity_ ∧
      (commodity_bool larger.commodity = true →
        (reg'.objects larger.commodity).smaller = some smaller ∧
        (reg'.objects larger.commodity).flags =
          (reg2.objects smaller.commodity).flags ||| COMMODITY_STYLE_NOMARKET) ∧
      (commodity_bool smaller.commodity = true →
        (reg'.objects smaller.commodity).larger = some product) ∧
      (smaller.commodity ≠ larger.commodity →
        (reg'.objects smaller.commodity).flags = (reg2.objects smaller.commodity).flags) := by
  unfold parse_conversion at h
  rw [parse_no_reduce] at h
  cases h1 : amount_t.parse_core reg zero larger_str AMOUNT_PARSE_NO_REDUCE with
  | undefined => rw [h1] at h; cases h
  | thrown e => rw [h1] at h; cases h
  | done larger reg1 rest1 =>
    rw [h1] at h
    simp only at h
    rw [parse_no_reduce] at h
    cases h2 : amount_t.parse_core reg1 zero smaller_str AMOUNT_PARSE_NO_REDUCE with
    | undefined => rw [h2] at h; cases h
    | thrown e => rw [h2] at h; cases h
    | done smaller reg2 rest2 =>
      rw [h2] at h
      simp only at h
      obtain ⟨l1, l2⟩ := parse_core_done _ _ _ _ _ _ _ h1
      obtain ⟨s1, s2⟩ := parse_core_done _ _ _ _ _ _ _ h2
      obtain ⟨m1, m2⟩ := mul_keeps_commodity reg2.objects larger smaller l1 s1 (by omega)
      have hcomm : (amount_t.operator_mul_eq reg2.objects larger smaller).self.commodity =
          larger.commodity := commodity_of_pointer _ _ m2
      rw [m1] at h
      simp only [hcomm] at h
      refine ⟨larger, smaller, reg1, reg2, rest1, rest2,
        (amount_t.operator_mul_eq reg2.objects larger smaller).self,
        by rw [parse_no_reduce, h1], by rw [parse_no_reduce, h2], ?_, m2, ?_, ?_, ?_⟩
      · rw [← m1]
      · intro hl
        rw [if_pos hl] at h
        by_cases hs : commodity_bool smaller.commodity = true
        · rw [if_pos hs] at h
          injection h with h
          injection h with h
          subst h
          by_cases hsame : larger.commodity = smaller.commodity
          · simp [registry_t.set, hsame]
          · have hsame' : ¬ smaller.commodity = larger.commodity := fun e => hsame e.symm
            simp [registry_t.set, hsame, hsame']
        · rw [if_neg hs] at h
          injection h with h
          injection h with h
          subst h
          by_cases hsame : smaller.commodity = larger.commodity
          · simp [registry_t.set, hsame]
          · simp [registry_t.set, hsame]
      · intro hs
        rw [if_pos hs] at h
        injection h with h
        injection h with h
        subst h
        simp [registry_t.set]
      · intro hne
        by_cases hl : commodity_bool larger.commodity = true <;>
          by_cases hs : commodity_bool smaller.commodity = true
        · rw [if_pos hl, if_pos hs] at h
          injection h with h
          injection h with h
          subst h
          simp [registry_t.set, hne]
        · rw [if_pos hl, if_neg hs] at h
          injection h with h
          injection h with h
          subst h
          simp [registry_t.set, hne]
        · rw [if_neg hl, if_pos hs] at h
          injection h with h
          injection h with h
          subst h
          simp [registry_t.set, hne]
        · rw [if_neg hl, if_neg hs] at h
          injection h with h
          injection h with h
          subst h
          rfl

/-- C22 (witness): the conversion `1.0x = 60y` under the initial registry:
`x` gets the `smaller` link `60y` and the flags of `y` with `NOMARKET`, and `y`
gets the `larger` link `60.0x`. -/
theorem C22_parse_conversion_witness :
    ∃ larger smaller reg1 reg2 rest1 rest2 product,
      amount_t.parse 0 initial_registry zero "1.0x".data AMOUNT_PARSE_NO_REDUCE =
        some (.done larger reg1 rest1) ∧
      amount_t.parse 0 reg1 zero "60y".data AMOUNT_PARSE_NO_REDUCE =
        some (.done smaller reg2 rest2) ∧
      amount_t.operator_mul_eq reg2.objects larger smaller = ⟨product, none⟩ ∧
      product.commodity_ = larger.commodity_ ∧
      (commodity_bool larger.commodity = true →
        (conversion_example.objects larger.commodity).smaller = some smaller ∧
        (conversion_example.objects larger.commodity).flags =
          (reg2.objects smaller.commodity).flags ||| COMMODITY_STYLE_NOMARKET) ∧
      (commodity_bool smaller.commodity = true →
        (conversion_example.objects smaller.commodity).larger = some product) ∧
      (smaller.commodity ≠ larger.commodity →
        (conversion_example.objects smaller.commodity).flags =
          (reg2.objects smaller.commodity).flags) :=
  C22_parse_conversion initial_registry conversion_example "1.0x".data "60y".data (by rfl)

/-! ## The unit the formatter prints in -/

/-- The loop of `operator<<` over the larger units, on a finite chain whose
amounts are all accepted as divisors: it ends, and what it leaves is the amount
in the last unit before the first one in which its absolute value is below
one. -/
theorem promote_chain (cs : commodities_t) (ls : List amount_t) :
    ∀ (last base : amount_t) (e : Nat), larger_chain cs last.commodity ls →
      (∀ l ∈ ls, amount_t.operator_bool cs l = true) →
      ∃ k, k ≤ ls.length ∧
        promote cs (ls.length + 1 + e) last base =
          some (.ok (if k = 0 then base else in_unit cs last (ls.take k))) ∧
        (∀ j, 1 ≤ j → j ≤ k → abs_below_one (in_unit cs last (ls.take j)) = false) ∧
        (k = ls.length ∨ abs_below_one (in_unit cs last (ls.take (k + 1))) = true) := by
  induction ls with
  | nil =>
    intro last base e hchain _
    refine ⟨0, le_refl _, ?_, fun j h1 h2 => absurd h2 (by omega), Or.inl rfl⟩
    have hlen : ([] : List amount_t).length + 1 + e = e + 1 := by
      simp only [List.length_nil]; omega
    have hnone : (cs last.commodity).larger = none := hchain
    rw [hlen, promote]
    simp only [hnone, if_true]
  | cons l ls ih =>
    intro last base e hchain hall
    obtain ⟨hl, hrest⟩ := hchain
    have hthrown : (amount_t.operator_div_eq cs last l).thrown = none := by
      rw [operator_div_eq_thrown, hall l (List.mem_cons_self _ _)]
      rfl
    have hlen : (l :: ls).length + 1 + e = (ls.length + 1 + e) + 1 := by
      simp only [List.length_cons]; omega
    by_cases hb : abs_below_one
        { (amount_t.operator_div_eq cs last l).self with commodity_ := l.commodity_ } = true
    · refine ⟨0, Nat.zero_le _, ?_, fun j h1 h2 => absurd h2 (by omega), Or.inr ?_⟩
      · rw [hlen, promote]
        simp only [hl, hthrown, hb, if_true]
      · simpa [in_unit] using hb
    · have hb' : abs_below_one
          { (amount_t.operator_div_eq cs last l).self with commodity_ := l.commodity_ } = false := by
        simpa using hb
      have hc : amount_t.commodity
          { (amount_t.operator_div_eq cs last l).self with commodity_ := l.commodity_ } =
          l.commodity := rfl
      obtain ⟨k, k1, k2, k3, k4⟩ :=
        ih { (amount_t.operator_div_eq cs last l).self with commodity_ := l.commodity_ }
          { (amount_t.operator_div_eq cs last l).self with commodity_ := l.commodity_ } e
          (by rw [hc]; exact hrest) (fun x hx => hall x (List.mem_cons_of_mem _ hx))
      refine ⟨k + 1, by simp only [List.length_cons]; omega, ?_, ?_, ?_⟩
      · rw [hlen, promote]
        simp only [hl, hthrown, hb', Bool.false_eq_true, if_false, k2, Nat.succ_ne_zero,
          List.take_succ_cons, in_unit]
        by_cases hk : k = 0
        · subst hk
          simp [in_unit]
        · simp [hk]
      · intro j j1 j2
        obtain ⟨i, rfl⟩ : ∃ i, j = i + 1 := ⟨j - 1, by omega⟩
        simp only [List.take_succ_cons, in_unit]
        by_cases hi : i = 0
        · subst hi
          simpa [in_unit] using hb'
        · exact k3 i (by omega) (by omega)
      · rcases k4 with h | h
        · left
          simp only [List.length_cons, h]
        · right
          simpa only [List.take_succ_cons, in_unit] using h

/-- C23 (counterexample): the conversion `1x = 0.5y` under the initial
registry gives the commodity `y` the `larger` amount 0.5 in the commodity `x`,
whose display precision is 0; that amount is false as a boolean, `operator/=`
rejects it as a divisor, and the formatter, instead of rendering the amount 3.0
of `y`, throws the divide-by-zero error. -/
theorem C23_false_larger_link_throws :
    (half_unit_registry.objects 2).symbol = "y" ∧
    (half_unit_registry.objects 2).larger = some ⟨some ⟨5, 1⟩, some 1⟩ ∧
    (half_unit_registry.objects 1).precision = 0 ∧
    amount_t.operator_bool half_unit_registry.objects ⟨some ⟨5, 1⟩, some 1⟩ = false ∧
    operator_lshift 3 half_unit_registry.objects ⟨some ⟨30, 1⟩, some 2⟩ =
      some (.error (.amount_error "Divide by zero")) := by
  refine ⟨by rfl, by rfl, by rfl, by rfl, by rfl⟩

/-- C23 (amended): for every amount with a quantity whose commodity starts a
finite chain of `larger` links, each of them true as a boolean and so accepted
by `operator/=` as a divisor, the loop of the formatter over the larger units
terminates, with any fuel above the length of the chain, and the formatter
prints the amount in the unit number `k` of the chain, where the amount is at
least one in absolute value in every unit from the first to the `k`-th and
either the chain ends there or the amount is below one in the next unit;
`k = 0`, the original unit, when the first division already gives a value below
one. -/
theorem C23_unit_promotion (cs : commodities_t) (amt : amount_t) (ls : List amount_t)
    (e : Nat) (hq : amt.quantity.isSome = true) (hchain : larger_chain cs amt.commodity ls)
    (hall : ∀ l ∈ ls, amount_t.operator_bool cs l = true) :
    ∃ k, k ≤ ls.length ∧
      promote cs (ls.length + 1 + e) amt amt = some (.ok (in_unit cs amt (ls.take k))) ∧
      operator_lshift (ls.length + 1 + e) cs amt =
        print_base (ls.length + 1 + e) cs (in_unit cs amt (ls.take k)) ∧
      (∀ j, 1 ≤ j → j ≤ k → abs_below_one (in_unit cs amt (ls.take j)) = false) ∧
      (k = ls.length ∨ abs_below_one (in_unit cs amt (ls.take (k + 1))) = true) := by
  obtain ⟨k, k1, k2, k3, k4⟩ := promote_chain cs ls amt amt e hchain hall
  have hbase : (if k = 0 then amt else in_unit cs amt (ls.take k)) =
      in_unit cs amt (ls.take k) := by
    by_cases hk : k = 0
    · subst hk
      simp [in_unit]
    · simp [hk]
  rw [hbase] at k2
  refine ⟨k, k1, k2, ?_, k3, k4⟩
  obtain ⟨q, hq'⟩ := Option.isSome_iff_exists.mp hq
  unfold operator_lshift
  rw [hq']
  simp only
  cases ls with
  | nil =>
    have hnone : (cs amt.commodity).larger = none := hchain
    simp [hnone, in_unit]
  | cons l ls =>
    have hsome : (cs amt.commodity).larger = some l := hchain.1
    simp only [hsome, k2]

/-- C23 (witness): the amount 5400 in the commodity `s` under the registry of
`_init_amounts`: the chain of larger units is `m`, `h`; the amount is 90 in `m`
and 1.5 in `h`, so it is printed in the second unit, as `1.5h`. -/
theorem C23_unit_promotion_witness :
    (∃ k, k ≤ 2 ∧
      promote time_registry.objects (2 + 1 + 0) ⟨some ⟨5400, 0⟩, some 1⟩
          ⟨some ⟨5400, 0⟩, some 1⟩ =
        some (.ok (in_unit time_registry.objects ⟨some ⟨5400, 0⟩, some 1⟩
          ([⟨some ⟨600, 1⟩, some 2⟩, ⟨some ⟨600, 1⟩, some 3⟩].take k))) ∧
      operator_lshift (2 + 1 + 0) time_registry.objects ⟨some ⟨5400, 0⟩, some 1⟩ =
        print_base (2 + 1 + 0) time_registry.objects
          (in_unit time_registry.objects ⟨some ⟨5400, 0⟩, some 1⟩
            ([⟨some ⟨600, 1⟩, some 2⟩, ⟨some ⟨600, 1⟩, some 3⟩].take k)) ∧
      (∀ j, 1 ≤ j → j ≤ k →
        abs_below_one (in_unit time_registry.objects ⟨some ⟨5400, 0⟩, some 1⟩
          ([⟨some ⟨600, 1⟩, some 2⟩, ⟨some ⟨600, 1⟩, some 3⟩].take j)) = false) ∧
      (k = 2 ∨
        abs_below_one (in_unit time_registry.objects ⟨some ⟨5400, 0⟩, some 1⟩
          ([⟨some ⟨600, 1⟩, some 2⟩, ⟨some ⟨600, 1⟩, some 3⟩].take (k + 1))) = true)) ∧
    operator_lshift 3 time_registry.objects ⟨some ⟨5400, 0⟩, some 1⟩ =
      some (.ok "1.5h".data) ∧
    in_unit time_registry.objects ⟨some ⟨5400, 0⟩, some 1⟩
        [⟨some ⟨600, 1⟩, some 2⟩, ⟨some ⟨600, 1⟩, some 3⟩] =
      ⟨some ⟨15000000, 7⟩, some 3⟩ :=
  ⟨C23_unit_promotion time_registry.objects ⟨some ⟨5400, 0⟩, some 1⟩
      [⟨some ⟨600, 1⟩, some 2⟩, ⟨some ⟨600, 1⟩, some 3⟩] 0 rfl ⟨rfl, rfl, rfl⟩
      (by
        intro l hl
        simp only [List.mem_cons, List.mem_singleton, List.not_mem_nil, or_false] at hl
        rcases hl with h | h <;> subst h <;> rfl),
    by rfl, by rfl⟩

/-! ## Decimal digits -/

/-- The digits `Nat.toDigitsCore` puts before its accumulator do not depend on
the fuel, once the fuel exceeds the number. -/
theorem toDigitsCore_eq :
    ∀ (fuel n : Nat) (ds : List Char), n < fuel →
      Nat.toDigitsCore 10 fuel n ds = Nat.toDigitsCore 10 (n + 1) n [] ++ ds := by
  intro fuel
  induction fuel using Nat.strong_induction_on with
  | _ fuel ih =>
    intro n ds hn
    cases fuel with
    | zero => omega
    | succ fuel =>
      by_cases h0 : n / 10 = 0
      · simp [Nat.toDigitsCore, h0]
      · have hlt : n / 10 < n := Nat.div_lt_self (by omega) (by decide)
        have h1 := ih fuel (Nat.lt_succ_self _) (n / 10) (Nat.digitChar (n % 10) :: ds)
          (by omega)
        have h2 := ih n (by omega) (n / 10) [Nat.digitChar (n % 10)] hlt
        simp only [Nat.toDigitsCore, h0, if_false, h1, h2, List.append_assoc,
          List.singleton_append]

theorem mpz_get_str_lt_ten (n : Nat) (h : n < 10) : mpz_get_str n = [Nat.digitChar n] := by
  have h0 : n / 10 = 0 := Nat.div_eq_of_lt h
  simp [mpz_get_str, Nat.toDigits, Nat.toDigitsCore, h0, Nat.mod_eq_of_lt h]

theorem mpz_get_str_ge_ten (n : Nat) (h : 10 ≤ n) :
    mpz_get_str n = mpz_get_str (n / 10) ++ [Nat.digitChar (n % 10)] := by
  have h0 : n / 10 ≠ 0 := by
    have : 1 ≤ n / 10 := (Nat.le_div_iff_mul_le (by decide)).mpr (by omega)
    omega
  have hlt : n / 10 < n := Nat.div_lt_self (by omega) (by decide)
  have h2 := toDigitsCore_eq n (n / 10) [Nat.digitChar (n % 10)] hlt
  simp only [mpz_get_str, Nat.toDigits, Nat.toDigitsCore, h0, if_false, h2]

theorem digitChar_facts (d : Nat) (h : d < 10) :
    isdigit (Nat.digitChar d) = true ∧ (Nat.digitChar d = '0' ↔ d = 0) ∧
      (Nat.digitChar d).toNat - 48 = d := by
  interval_cases d <;> exact ⟨by decide, by decide, by decide⟩

/-- The digits of a number below 1000. -/
theorem mpz_get_str_small (b : Nat) (h : b < 1000) :
    mpz_get_str b =
      if b < 10 then [Nat.digitChar b]
      else if b < 100 then [Nat.digitChar (b / 10), Nat.digitChar (b % 10)]
      else [Nat.digitChar (b / 100), Nat.digitChar (b / 10 % 10), Nat.digitChar (b % 10)] := by
  by_cases h1 : b < 10
  · rw [if_pos h1, mpz_get_str_lt_ten b h1]
  · rw [if_neg h1, mpz_get_str_ge_ten b (by omega)]
    by_cases h2 : b < 100
    · rw [if_pos h2, mpz_get_str_lt_ten (b / 10) (by omega)]
      rfl
    · rw [if_neg h2, mpz_get_str_ge_ten (b / 10) (by omega),
        mpz_get_str_lt_ten (b / 10 / 10) (by omega)]
      have : b / 10 / 10 = b / 100 := by omega
      rw [this]
      rfl

/-- A number below 1000 printed at the width 3 with zeros as fill: its three
digits. -/
theorem zero_filled_three (b : Nat) (h : b < 1000) :
    zero_filled 3 (mpz_get_str b) =
      [Nat.digitChar (b / 100), Nat.digitChar (b / 10 % 10), Nat.digitChar (b % 10)] := by
  rw [mpz_get_str_small b h]
  by_cases h1 : b < 10
  · have e1 : b / 100 = 0 := by omega
    have e2 : b / 10 % 10 = 0 := by omega
    have e3 : b % 10 = b := by omega
    rw [if_pos h1, e1, e2, e3]
    rfl
  · rw [if_neg h1]
    by_cases h2 : b < 100
    · have e1 : b / 100 = 0 := by omega
      have e2 : b / 10 % 10 = b / 10 := by omega
      rw [if_pos h2, e1, e2]
      rfl
    · rw [if_neg h2]
      rfl

/-- The digits of a number from 1000 on: those of its thousands, then the three
digits of the rest. -/
theorem mpz_get_str_thousands (n : Nat) (h : 1000 ≤ n) :
    mpz_get_str n = mpz_get_str (n / 1000) ++ zero_filled 3 (mpz_get_str (n % 1000)) := by
  rw [zero_filled_three (n % 1000) (Nat.mod_lt _ (by decide)),
    mpz_get_str_ge_ten n (by omega), mpz_get_str_ge_ten (n / 10) (by omega),
    mpz_get_str_ge_ten (n / 10 / 10) (by omega)]
  have e0 : n / 10 / 10 / 10 = n / 1000 := by omega
  have e1 : n / 10 / 10 % 10 = n % 1000 / 100 := by omega
  have e2 : n / 10 % 10 = n % 1000 / 10 % 10 := by omega
  have e3 : n % 10 = n % 1000 % 10 := by omega
  rw [e0, e1, e2, e3]
  simp

/-- The first group of the grouped integer part: one to three digits, the first
of which is not `0`. -/
theorem first_group (n : Nat) (h0 : 0 < n) (h : n < 1000) :
    1 ≤ (mpz_get_str n).length ∧ (mpz_get_str n).length ≤ 3 ∧
      (mpz_get_str n).head? ≠ some '0' ∧ ∀ c ∈ mpz_get_str n, isdigit c = true := by
  rw [mpz_get_str_small n h]
  by_cases h1 : n < 10
  · rw [if_pos h1]
    obtain ⟨d1, d2, _⟩ := digitChar_facts n h1
    refine ⟨by simp, by simp, ?_, ?_⟩
    · simp only [List.head?_cons, ne_eq, Option.some.injEq]
      intro hc
      have := d2.mp hc
      omega
    · intro c hc
      simp only [List.mem_singleton] at hc
      subst hc
      exact d1
  · rw [if_neg h1]
    by_cases h2 : n < 100
    · rw [if_pos h2]
      obtain ⟨d1, d2, _⟩ := digitChar_facts (n / 10) (by omega)
      obtain ⟨e1, _, _⟩ := digitChar_facts (n % 10) (by omega)
      refine ⟨by simp, by simp, ?_, ?_⟩
      · simp only [List.head?_cons, ne_eq, Option.some.injEq]
        intro hc
        have := d2.mp hc
        omega
      · intro c hc
        simp only [List.mem_cons, List.mem_singleton, List.not_mem_nil, or_false] at hc
        rcases hc with hc | hc <;> subst hc <;> assumption
    · rw [if_neg h2]
      obtain ⟨d1, d2, _⟩ := digitChar_facts (n / 100) (by omega)
      obtain ⟨e1, _, _⟩ := digitChar_facts (n / 10 % 10) (by omega)
      obtain ⟨f1, _, _⟩ := digitChar_facts (n % 10) (by omega)
      refine ⟨by simp, by simp, ?_, ?_⟩
      · simp only [List.head?_cons, ne_eq, Option.some.injEq]
        intro hc
        have := d2.mp hc
        omega
      · intro c hc
        simp only [List.mem_cons, List.mem_singleton, List.not_mem_nil, or_false] at hc
        rcases hc with hc | hc | hc <;> subst hc <;> assumption

/-- A later group: exactly three digits. -/
theorem later_group (b : Nat) (h : b < 1000) :
    (zero_filled 3 (mpz_get_str b)).length = 3 ∧
      ∀ c ∈ zero_filled 3 (mpz_get_str b), isdigit c = true := by
  rw [zero_filled_three b h]
  obtain ⟨d1, _, _⟩ := digitChar_facts (b / 100) (by omega)
  obtain ⟨e1, _, _⟩ := digitChar_facts (b / 10 % 10) (by omega)
  obtain ⟨f1, _, _⟩ := digitChar_facts (b % 10) (by omega)
  refine ⟨rfl, ?_⟩
  intro c hc
  simp only [List.mem_cons, List.mem_singleton, List.not_mem_nil, or_false] at hc
  rcases hc with hc | hc | hc <;> subst hc <;> assumption


/-! ## Groups of three digits -/

theorem print_groups_snoc (sep : Char) (y : List Char) :
    ∀ (xs : List (List Char)) (p : Bool),
      print_groups sep p (xs ++ [y]) =
        print_groups sep p xs ++
          (if p = true ∨ xs ≠ [] then sep :: zero_filled 3 y else y) := by
  intro xs
  induction xs with
  | nil =>
    intro p
    cases p <;> simp [print_groups]
  | cons x xs ih =>
    intro p
    rw [List.cons_append, print_groups, print_groups, ih true, List.append_assoc]
    simp

/-- The grouping loop of `operator<<` from the power `powers` on, with `n` the
part of the integer part that is left there, and the printing loop on what it
collects: a first group and later groups, each after a separator. -/
theorem group_loop (q : Nat) (sep : Char) :
    ∀ (f n powers : Nat), q / 10 ^ powers = n → 0 < n → n < 1000 ^ f →
      ∃ (strs : List (List Char)) (first : List Char) (rest : List (List Char)),
        group_strs q (f + 1) powers = some strs ∧
        print_groups sep false strs.reverse =
          first ++ (rest.map fun g => sep :: g).flatten ∧
        1 ≤ first.length ∧ first.length ≤ 3 ∧ first.head? ≠ some '0' ∧
        (∀ g ∈ rest, g.length = 3) ∧
        (∀ c ∈ first, isdigit c = true) ∧ (∀ g ∈ rest, ∀ c ∈ g, isdigit c = true) ∧
        first ++ rest.flatten = mpz_get_str n := by
  intro f
  induction f with
  | zero =>
    intro n powers _ h0 hlt
    simp at hlt
    omega
  | succ f ih =>
    intro n powers hn h0 hlt
    have hstep : group_strs q (f + 1 + 1) powers =
        (group_strs q (f + 1) (powers + 3)).map fun strs => mpz_get_str (n % 1000) :: strs := by
      rw [group_strs]
      by_cases hp : powers > 0
      · have hne : ¬ n = 0 := by omega
        simp only [hp, if_true, hn, hne, if_false]
      · have hp0 : powers = 0 := by omega
        subst hp0
        simp only [pow_zero, Nat.div_one] at hn
        subst hn
        simp only [gt_iff_lt, lt_self_iff_false, if_false]
    have hnext : q / 10 ^ (powers + 3) = n / 1000 := by
      rw [pow_add, ← Nat.div_div_eq_div_mul, hn]
      norm_num
    by_cases hsmall : n < 1000
    · have hz : q / 10 ^ (powers + 3) = 0 := by
        rw [hnext]
        exact Nat.div_eq_of_lt hsmall
      have hnil : group_strs q (f + 1) (powers + 3) = some [] := by
        rw [group_strs]
        simp only [gt_iff_lt, Nat.add_pos_iff_pos_or_pos, Nat.ofNat_pos, or_true, if_true, hz]
      obtain ⟨g1, g2, g3, g4⟩ := first_group n h0 hsmall
      refine ⟨[mpz_get_str n], mpz_get_str n, [], ?_, ?_, g1, g2, g3, ?_, g4, ?_, ?_⟩
      · rw [hstep, hnil, Nat.mod_eq_of_lt hsmall]
        rfl
      · simp [print_groups]
      · intro g hg
        cases hg
      · intro g hg
        cases hg
      · simp
    · have hbig : 1000 ≤ n := by omega
      have hpos : 0 < n / 1000 := Nat.div_pos hbig (by decide)
      have hlt' : n / 1000 < 1000 ^ f := by
        rw [Nat.div_lt_iff_lt_mul (by decide)]
        calc n < 1000 ^ (f + 1) := hlt
          _ = 1000 ^ f * 1000 := by rw [pow_succ]
      obtain ⟨strs, first, rest, i1, i2, i3, i4, i5, i6, i7, i8, i9⟩ :=
        ih (n / 1000) (powers + 3) hnext hpos hlt'
      obtain ⟨l1, l2⟩ := later_group (n % 1000) (Nat.mod_lt _ (by decide))
      refine ⟨mpz_get_str (n % 1000) :: strs, first,
        rest ++ [zero_filled 3 (mpz_get_str (n % 1000))], ?_, ?_, i3, i4, i5, ?_, i7, ?_, ?_⟩
      · rw [hstep, i1]
        rfl
      · rw [List.reverse_cons, print_groups_snoc, i2]
        have hne : strs.reverse ≠ [] := by
          intro hnil
          rw [hnil] at i2
          simp only [print_groups] at i2
          have hlen := congrArg List.length i2
          simp only [List.length_nil, List.length_append] at hlen
          omega
        simp [hne]
      · intro g hg
        rcases List.mem_append.mp hg with hg | hg
        · exact i6 g hg
        · simp only [List.mem_singleton] at hg
          subst hg
          exact l1
      · intro g hg
        rcases List.mem_append.mp hg with hg | hg
        · exact i8 g hg
        · simp only [List.mem_singleton] at hg
          subst hg
          exact l2
      · rw [List.flatten_append, ← List.append_assoc, i9, mpz_get_str_thousands n hbig]
        simp

/-- The text `operator<<` writes for an amount whose value at the chosen
precision is not zero: symbol and sign, integer part, fraction, symbol. -/
theorem print_base_parts (fuel : Nat) (cs : commodities_t) (base : amount_t) (Q R : Int)
    (p : Nat) (w : List Char) (hsplit : print_split cs base = .ok (Q, R, p))
    (hnz : ¬ (Q.natAbs = 0 ∧ R.natAbs = 0))
    (hw : print_whole (cs base.commodity).flags Q.natAbs fuel = some w) :
    print_base fuel cs base =
      some (.ok (print_front (cs base.commodity) (mpz_sgn Q < 0 || mpz_sgn R < 0) ++ w ++
        print_fraction (cs base.commodity).flags R.natAbs p (cs base.commodity).precision ++
        print_suffix (cs base.commodity))) := by
  unfold print_base
  simp only [hsplit, hnz, if_false, hw]

/-- An amount with a quantity whose commodity has no `larger` link is printed
as it is. -/
theorem operator_lshift_plain (fuel : Nat) (cs : commodities_t) (base : amount_t)
    (hq : base.quantity.isSome = true) (hl : (cs base.commodity).larger = none) :
    operator_lshift fuel cs base = print_base fuel cs base := by
  obtain ⟨q, hq'⟩ := Option.isSome_iff_exists.mp hq
  unfold operator_lshift
  simp only [hq', hl]

/-- C25: for every amount whose commodity has `THOUSANDS` and whose integer
part `q` at the chosen precision is positive, with fuel enough for the groups of
`q`: the integer part that `operator<<` emits is a first group followed by later
groups, each later group after the separator, `.` under `EUROPEAN` and `,`
otherwise; the first group has one to three digits and does not begin with `0`;
every later group has exactly three digits; and the groups without the
separators are the decimal digits of `q`.  The text written is this integer part
between what comes before it and the fraction and the symbol after it. -/
theorem C25_thousands_grouping (cs : commodities_t) (base : amount_t) (Q R : Int)
    (p fuel : Nat) (hsplit : print_split cs base = .ok (Q, R, p))
    (hth : (cs base.commodity).flags &&& COMMODITY_STYLE_THOUSANDS ≠ 0)
    (hq : 0 < Q.natAbs) (hfuel : Q.natAbs < 1000 ^ fuel) :
    ∃ (first : List Char) (rest : List (List Char)),
      print_whole (cs base.commodity).flags Q.natAbs (fuel + 1) =
        some (first ++ (rest.map fun g =>
          (if (cs base.commodity).flags &&& COMMODITY_STYLE_EUROPEAN ≠ 0 then '.' else ',')
            :: g).flatten) ∧
      print_base (fuel + 1) cs base =
        some (.ok (print_front (cs base.commodity) (mpz_sgn Q < 0 || mpz_sgn R < 0) ++
          (first ++ (rest.map fun g =>
            (if (cs base.commodity).flags &&& COMMODITY_STYLE_EUROPEAN ≠ 0 then '.' else ',')
              :: g).flatten) ++
          print_fraction (cs base.commodity).flags R.natAbs p (cs base.commodity).precision ++
          print_suffix (cs base.commodity))) ∧
      (base.quantity.isSome = true → (cs base.commodity).larger = none →
        operator_lshift (fuel + 1) cs base = print_base (fuel + 1) cs base) ∧
      1 ≤ first.length ∧ first.length ≤ 3 ∧ first.head? ≠ some '0' ∧
      (∀ g ∈ rest, g.length = 3) ∧
      (∀ c ∈ first, isdigit c = true) ∧ (∀ g ∈ rest, ∀ c ∈ g, isdigit c = true) ∧
      first ++ rest.flatten = mpz_get_str Q.natAbs := by
  obtain ⟨strs, first, rest, g1, g2, g3, g4, g5, g6, g7, g8, g9⟩ :=
    group_loop Q.natAbs
      (if (cs base.commodity).flags &&& COMMODITY_STYLE_EUROPEAN ≠ 0 then '.' else ',')
      fuel Q.natAbs 0 (by simp) hq hfuel
  have hw : print_whole (cs base.commodity).flags Q.natAbs (fuel + 1) =
      some (first ++ (rest.map fun g =>
        (if (cs base.commodity).flags &&& COMMODITY_STYLE_EUROPEAN ≠ 0 then '.' else ',')
          :: g).flatten) := by
    unfold print_whole
    rw [if_neg (by omega), if_neg hth, g1]
    simp only [Option.map_some', g2]
  refine ⟨first, rest, hw, ?_, fun h1 h2 => operator_lshift_plain _ cs base h1 h2,
    g3, g4, g5, g6, g7, g8, g9⟩
  exact print_base_parts _ cs base Q R p _ hsplit (by omega) hw

/-- C25 (witness): the amount 1234567 of the null commodity, which has the flag
`THOUSANDS` in the registry parsing `1,000.5` leaves: the text is `1,234,567`. -/
theorem C25_thousands_grouping_witness :
    (∃ (first : List Char) (rest : List (List Char)),
      print_whole (grouped_registry.objects null_commodity).flags 1234567 (3 + 1) =
        some (first ++ (rest.map fun g =>
          (if (grouped_registry.objects null_commodity).flags &&& COMMODITY_STYLE_EUROPEAN ≠ 0
            then '.' else ',') :: g).flatten) ∧
      print_base (3 + 1) grouped_registry.objects ⟨some ⟨1234567, 0⟩, some null_commodity⟩ =
        some (.ok (print_front (grouped_registry.objects null_commodity)
            (mpz_sgn 1234567 < 0 || mpz_sgn 0 < 0) ++
          (first ++ (rest.map fun g =>
            (if (grouped_registry.objects null_commodity).flags &&& COMMODITY_STYLE_EUROPEAN ≠ 0
              then '.' else ',') :: g).flatten) ++
          print_fraction (grouped_registry.objects null_commodity).flags 0 0
            (grouped_registry.objects null_commodity).precision ++
          print_suffix (grouped_registry.objects null_commodity))) ∧
      (true = true → (grouped_registry.objects null_commodity).larger = none →
        operator_lshift (3 + 1) grouped_registry.objects
            ⟨some ⟨1234567, 0⟩, some null_commodity⟩ =
          print_base (3 + 1) grouped_registry.objects
            ⟨some ⟨1234567, 0⟩, some null_commodity⟩) ∧
      1 ≤ first.length ∧ first.length ≤ 3 ∧ first.head? ≠ some '0' ∧
      (∀ g ∈ rest, g.length = 3) ∧
      (∀ c ∈ first, isdigit c = true) ∧ (∀ g ∈ rest, ∀ c ∈ g, isdigit c = true) ∧
      first ++ rest.flatten = mpz_get_str 1234567) ∧
    operator_lshift 4 grouped_registry.objects ⟨some ⟨1234567, 0⟩, some null_commodity⟩ =
      some (.ok "1,234,567".data) :=
  ⟨C25_thousands_grouping grouped_registry.objects ⟨some ⟨1234567, 0⟩, some null_commodity⟩
      1234567 0 0 3 rfl (by decide) (by decide) (by decide),
    by rfl⟩

/-! ## The fraction -/

theorem mpz_get_str_digits (n : Nat) : ∀ c ∈ mpz_get_str n, isdigit c = true := by
  induction n using Nat.strong_induction_on with
  | _ n ih =>
    by_cases h : n < 10
    · rw [mpz_get_str_lt_ten n h]
      intro c hc
      simp only [List.mem_singleton] at hc
      subst hc
      exact (digitChar_facts n h).1
    · rw [mpz_get_str_ge_ten n (by omega)]
      intro c hc
      rcases List.mem_append.mp hc with hc | hc
      · exact ih (n / 10) (Nat.div_lt_self (by omega) (by decide)) c hc
      · simp only [List.mem_singleton] at hc
        subst hc
        exact (digitChar_facts (n % 10) (Nat.mod_lt _ (by decide))).1

theorem mpz_get_str_length : ∀ (p n : Nat), n < 10 ^ (p + 1) → (mpz_get_str n).length ≤ p + 1 := by
  intro p
  induction p with
  | zero =>
    intro n hn
    rw [mpz_get_str_lt_ten n (by simpa using hn)]
    simp
  | succ p ih =>
    intro n hn
    by_cases h : n < 10
    · rw [mpz_get_str_lt_ten n h]
      simp
    · rw [mpz_get_str_ge_ten n (by omega)]
      have hlt : n / 10 < 10 ^ (p + 1) := by
        rw [Nat.div_lt_iff_lt_mul (by decide)]
        calc n < 10 ^ (p + 1 + 1) := hn
          _ = 10 ^ (p + 1) * 10 := by rw [pow_succ]
      have := ih (n / 10) hlt
      simp only [List.length_append, List.length_singleton]
      omega

/-- The remainder of a number below `10 ^ p`, printed at the width `p` with
zeros as fill: exactly `p` digits. -/
theorem zero_filled_remainder (p r : Nat) (hp : 0 < p) (hr : r < 10 ^ p) :
    (zero_filled p (mpz_get_str r)).length = p ∧
      ∀ c ∈ zero_filled p (mpz_get_str r), isdigit c = true := by
  obtain ⟨k, rfl⟩ : ∃ k, p = k + 1 := ⟨p - 1, by omega⟩
  have hlen := mpz_get_str_length k r hr
  constructor
  · simp only [zero_filled, List.length_append, List.length_replicate]
    omega
  · intro c hc
    simp only [zero_filled] at hc
    rcases List.mem_append.mp hc with hc | hc
    · rw [List.eq_of_mem_replicate hc]
      decide
    · exact mpz_get_str_digits r c hc

/-- A text cut behind its last character that is not `0`: what is cut off is
zeros, and what is left does not end in `0`. -/
theorem strip_zeros (s : List Char) :
    (s.reverse.dropWhile fun c => c = '0').length ≤ s.length ∧
      s = s.take (s.reverse.dropWhile fun c => c = '0').length ++
        List.replicate (s.length - (s.reverse.dropWhile fun c => c = '0').length) '0' ∧
      (0 < (s.reverse.dropWhile fun c => c = '0').length →
        (s.take (s.reverse.dropWhile fun c => c = '0').length).getLast? ≠ some '0') := by
  have hsplit := List.takeWhile_append_dropWhile (fun c => decide (c = '0')) s.reverse
  have hzeros : s.reverse.takeWhile (fun c => decide (c = '0')) =
      List.replicate (s.reverse.takeWhile fun c => decide (c = '0')).length '0' := by
    rw [List.eq_replicate_iff]
    refine ⟨rfl, ?_⟩
    intro c hc
    simpa using List.mem_takeWhile_imp hc
  have hs : s = (s.reverse.dropWhile fun c => decide (c = '0')).reverse ++
      (s.reverse.takeWhile fun c => decide (c = '0')).reverse := by
    rw [← List.reverse_append, hsplit, List.reverse_reverse]
  have hlen : s.length = (s.reverse.dropWhile fun c => decide (c = '0')).length +
      (s.reverse.takeWhile fun c => decide (c = '0')).length := by
    have := congrArg List.length hs
    simpa using this
  have htake : s.take (s.reverse.dropWhile fun c => decide (c = '0')).length =
      (s.reverse.dropWhile fun c => decide (c = '0')).reverse := by
    conv_lhs => rw [hs]
    rw [List.take_append_of_le_length (by simp)]
    rw [List.take_of_length_le (by simp)]
  refine ⟨by omega, ?_, ?_⟩
  · rw [htake]
    conv_lhs => rw [hs]
    congr 1
    rw [hzeros, List.reverse_replicate]
    congr 1
    omega
  · intro hpos
    rw [htake, List.getLast?_reverse]
    intro hhead
    have hne : s.reverse.dropWhile (fun c => decide (c = '0')) ≠ [] := by
      intro h
      rw [h] at hpos
      simp at hpos
    have := List.head_dropWhile_not (fun c => decide (c = '0')) s.reverse hne
    rw [List.head?_eq_head hne] at hhead
    simp only [Option.some.injEq] at hhead
    rw [hhead] at this
    simp at this

/-- The digits of the fraction that `operator<<` keeps: the text cut behind its
last character that is not `0`, but not to fewer than `cp` characters. -/
theorem ender_eq_take (r p cp : Nat) :
    ender r p cp =
      (zero_filled p (mpz_get_str r)).take
        (max ((zero_filled p (mpz_get_str r)).reverse.dropWhile fun c => c = '0').length cp) := by
  obtain ⟨h1, _, _⟩ := strip_zeros (zero_filled p (mpz_get_str r))
  unfold ender
  simp only
  split
  · rename_i h
    rw [List.take_of_length_le]
    rw [h]
    exact le_max_left _ _
  · split
    · rename_i h
      rw [Nat.max_eq_right (Nat.le_of_lt h)]
    · rename_i h
      rw [Nat.max_eq_left (Nat.le_of_not_lt h)]

theorem kept_digits (s : List Char) (cp : Nat) :
    ∃ k, s = s.take (max (s.reverse.dropWhile fun c => c = '0').length cp) ++
        List.replicate k '0' ∧
      min cp s.length ≤
        (s.take (max (s.reverse.dropWhile fun c => c = '0').length cp)).length ∧
      (cp < (s.take (max (s.reverse.dropWhile fun c => c = '0').length cp)).length →
        (s.take (max (s.reverse.dropWhile fun c => c = '0').length cp)).getLast? ≠
          some '0') := by
  obtain ⟨h1, h2, h3⟩ := strip_zeros s
  generalize (s.reverse.dropWhile fun c => c = '0').length = i at h1 h2 h3
  refine ⟨s.length - max i cp, ?_, ?_, ?_⟩
  · have hd : s.drop (max i cp) = List.replicate (s.length - max i cp) '0' := by
      conv_lhs => rw [h2]
      have hlen : (s.take i).length = i := by
        rw [List.length_take]
        omega
      have hm : max i cp = (s.take i).length + (max i cp - i) := by
        rw [hlen]
        have := le_max_left i cp
        omega
      rw [hm, List.drop_append, List.drop_replicate, hlen]
      congr 1
      have := le_max_left i cp
      omega
    conv_lhs => rw [← List.take_append_drop (max i cp) s]
    rw [hd]
  · rw [List.length_take]
    have := le_max_right i cp
    omega
  · intro hlt
    rw [List.length_take] at hlt
    have hi : cp < i := by
      by_contra hc
      rw [Nat.max_eq_right (by omega)] at hlt
      omega
    rw [Nat.max_eq_left (Nat.le_of_lt hi)]
    exact h3 (by omega)

/-- The remainder that `operator<<` prints is below `10 ^ precision`. -/
theorem print_split_remainder (cs : commodities_t) (base : amount_t) (Q R : Int) (p : Nat)
    (h : print_split cs base = .ok (Q, R, p)) : R.natAbs < 10 ^ p := by
  have key : ∀ (v : Int) (n : Nat), (Int.tmod v (10 ^ n)).natAbs < 10 ^ n := by
    intro v n
    obtain ⟨b1, b2, _, _⟩ := tmod_bounds v (show (0 : Int) < 10 ^ n by positivity)
    zify
    rw [abs_lt]
    exact ⟨by simpa using b1, by simpa using b2⟩
  unfold print_split at h
  simp only at h
  split at h
  · injection h with h
    simp only [Prod.mk.injEq] at h
    obtain ⟨_, h2, h3⟩ := h
    rw [← h2, ← h3]
    exact key _ _
  · split at h
    · split at h
      · cases h
      · injection h with h
        simp only [Prod.mk.injEq] at h
        obtain ⟨_, h2, h3⟩ := h
        rw [← h2, ← h3]
        exact key _ _
    · split at h
      · injection h with h
        simp only [Prod.mk.injEq] at h
        obtain ⟨_, h2, h3⟩ := h
        rw [← h2, ← h3]
        exact key _ _
      · split at h
        · injection h with h
          simp only [Prod.mk.injEq] at h
          obtain ⟨_, h2, h3⟩ := h
          rw [← h2, ← h3]
          exact key _ _
        · injection h with h
          simp only [Prod.mk.injEq] at h
          obtain ⟨_, h2, h3⟩ := h
          rw [← h2, ← h3]
          simp

/-- With fuel enough for its groups, the integer part is printed. -/
theorem print_whole_some (flags q fuel : Nat) (hfuel : q < 1000 ^ fuel) :
    ∃ w, print_whole flags q (fuel + 1) = some w := by
  unfold print_whole
  by_cases h0 : q = 0
  · exact ⟨_, by rw [if_pos h0]⟩
  · rw [if_neg h0]
    by_cases ht : flags &&& COMMODITY_STYLE_THOUSANDS = 0
    · exact ⟨_, by rw [if_pos ht]⟩
    · rw [if_neg ht]
      obtain ⟨strs, _, _, g1, _⟩ :=
        group_loop q (if flags &&& COMMODITY_STYLE_EUROPEAN ≠ 0 then '.' else ',')
          fuel q 0 (by simp) (by omega) hfuel
      exact ⟨_, by rw [g1]; rfl⟩

/-- C24: for every amount printed at a precision `p > 0` with a value that is
not zero there, and fuel enough for the integer part: the text written is the
symbol and sign, the integer part, the fraction and the symbol, where the
fraction is empty or the decimal mark (`,` under `EUROPEAN`, else `.`) followed
by the digits `e`; `e` is the remainder filled with zeros to the width `p`, with
nothing but zeros cut off at its end; at least `min (commodity.precision, p)`
digits are kept, and when more than `commodity.precision` digits are kept the
last one is not `0`.  The mark is written only in front of at least one
digit. -/
theorem C24_fraction (cs : commodities_t) (base : amount_t) (Q R : Int) (p fuel : Nat)
    (hsplit : print_split cs base = .ok (Q, R, p)) (hp : 0 < p)
    (hnz : ¬ (Q.natAbs = 0 ∧ R.natAbs = 0)) (hfuel : Q.natAbs < 1000 ^ fuel) :
    ∃ (w e : List Char) (k : Nat),
      print_whole (cs base.commodity).flags Q.natAbs (fuel + 1) = some w ∧
      print_base (fuel + 1) cs base =
        some (.ok (print_front (cs base.commodity) (mpz_sgn Q < 0 || mpz_sgn R < 0) ++ w ++
          (if e = [] then []
            else (if (cs base.commodity).flags &&& COMMODITY_STYLE_EUROPEAN ≠ 0 then ','
              else '.') :: e) ++
          print_suffix (cs base.commodity))) ∧
      (zero_filled p (mpz_get_str R.natAbs)).length = p ∧
      zero_filled p (mpz_get_str R.natAbs) = e ++ List.replicate k '0' ∧
      min (cs base.commodity).precision p ≤ e.length ∧
      ((cs base.commodity).precision < e.length → e.getLast? ≠ some '0') ∧
      (∀ c ∈ e, isdigit c = true) := by
  obtain ⟨w, hw⟩ := print_whole_some (cs base.commodity).flags Q.natAbs fuel hfuel
  obtain ⟨hlen, hdig⟩ :=
    zero_filled_remainder p R.natAbs hp (print_split_remainder cs base Q R p hsplit)
  obtain ⟨k, k1, k2, k3⟩ :=
    kept_digits (zero_filled p (mpz_get_str R.natAbs)) (cs base.commodity).precision
  rw [← ender_eq_take] at k1 k2 k3
  rw [hlen] at k2
  refine ⟨w, ender R.natAbs p (cs base.commodity).precision, k, hw, ?_, hlen, k1, k2, k3, ?_⟩
  · rw [print_base_parts _ cs base Q R p w hsplit hnz hw]
    have hf : print_fraction (cs base.commodity).flags R.natAbs p (cs base.commodity).precision =
        (if ender R.natAbs p (cs base.commodity).precision = [] then []
          else (if (cs base.commodity).flags &&& COMMODITY_STYLE_EUROPEAN ≠ 0 then ','
            else '.') :: ender R.natAbs p (cs base.commodity).precision) := by
      unfold print_fraction
      rw [if_pos (by omega)]
      by_cases he : ender R.natAbs p (cs base.commodity).precision = []
      · simp [he]
      · simp [he]
    rw [hf]
  · intro c hc
    apply hdig
    rw [k1]
    exact List.mem_append_left _ hc

/-- C24 (witness): the amounts 1.50 and 2.00 of the null commodity at the
display precision 1: the fraction of the first is `.5` and that of the second
`.0`, one digit being kept; at the display precision 0 the amount 2.00 is
written without any fraction. -/
theorem C24_fraction_witness :
    (∃ (w e : List Char) (k : Nat),
      print_whole (grouped_registry.objects null_commodity).flags 2 (1 + 1) = some w ∧
      print_base (1 + 1) grouped_registry.objects ⟨some ⟨200, 2⟩, some null_commodity⟩ =
        some (.ok (print_front (grouped_registry.objects null_commodity)
            (mpz_sgn 2 < 0 || mpz_sgn 0 < 0) ++ w ++
          (if e = [] then []
            else (if (grouped_registry.objects null_commodity).flags &&&
                COMMODITY_STYLE_EUROPEAN ≠ 0 then ',' else '.') :: e) ++
          print_suffix (grouped_registry.objects null_commodity))) ∧
      (zero_filled 2 (mpz_get_str 0)).length = 2 ∧
      zero_filled 2 (mpz_get_str 0) = e ++ List.replicate k '0' ∧
      min (grouped_registry.objects null_commodity).precision 2 ≤ e.length ∧
      ((grouped_registry.objects null_commodity).precision < e.length →
        e.getLast? ≠ some '0') ∧
      (∀ c ∈ e, isdigit c = true)) ∧
    operator_lshift 2 grouped_registry.objects ⟨some ⟨150, 2⟩, some null_commodity⟩ =
      some (.ok "1.5".data) ∧
    operator_lshift 2 grouped_registry.objects ⟨some ⟨200, 2⟩, some null_commodity⟩ =
      some (.ok "2.0".data) ∧
    operator_lshift 2 initial_registry.objects ⟨some ⟨200, 2⟩, some null_commodity⟩ =
      some (.ok "2".data) :=
  ⟨C24_fraction grouped_registry.objects ⟨some ⟨200, 2⟩, some null_commodity⟩ 2 0 2 1 rfl
      (by decide) (by decide) (by decide),
    by rfl, by rfl, by rfl⟩

/-! ## The null commodity under two handles -/

/-- C5 (failing input): the amount 5 without a commodity handle and the amount 7
with a handle on the null commodity, as `amount_t::parse` gives it to a number
without symbol.  Both have a quantity and both are in the null commodity, which
is what `commodity ()` returns for either; yet `+=` and `-=` compare the raw
handles and throw, where the sum 12 and the difference -2 were due. -/
theorem C5_null_handle_rejected :
    amount_t.commodity ⟨some ⟨5, 0⟩, none⟩ =
      amount_t.commodity ⟨some ⟨7, 0⟩, some null_commodity⟩ ∧
    parsed_t.amount (amount_t.parse_core initial_registry zero "7".data 0) =
      some ⟨some ⟨7, 0⟩, some null_commodity⟩ ∧
    amount_t.operator_plus_eq ⟨some ⟨5, 0⟩, none⟩ ⟨some ⟨7, 0⟩, some null_commodity⟩ =
      ⟨⟨some ⟨5, 0⟩, none⟩, some (.amount_error "Adding amounts with different commodities")⟩ ∧
    amount_t.operator_minus_eq ⟨some ⟨5, 0⟩, none⟩ ⟨some ⟨7, 0⟩, some null_commodity⟩ =
      ⟨⟨some ⟨5, 0⟩, none⟩,
        some (.amount_error "Subtracting amounts with different commodities")⟩ := by
  refine ⟨by rfl, by rfl, by rfl, by rfl⟩

/-- C6 (failing input): the amounts 5 without a commodity handle and 7 with a
handle on the null commodity have matching commodities: `==` holds between 5
under the one handle and 5 under the other.  Yet neither `a + b` nor `b + a`
is formed: `+=` throws in both orders. -/
theorem C6_null_handle_sum_throws :
    amount_t.operator_eq ⟨some ⟨5, 0⟩, none⟩ ⟨some ⟨5, 0⟩, some null_commodity⟩ = .ok true ∧
    (amount_t.operator_plus_eq ⟨some ⟨5, 0⟩, none⟩ ⟨some ⟨7, 0⟩, some null_commodity⟩).thrown =
      some (.amount_error "Adding amounts with different commodities") ∧
    (amount_t.operator_plus_eq ⟨some ⟨7, 0⟩, some null_commodity⟩ ⟨some ⟨5, 0⟩, none⟩).thrown =
      some (.amount_error "Adding amounts with different commodities") := by
  refine ⟨by rfl, by rfl, by rfl⟩

/-- C11 (failing input): for the amounts 5 without a commodity handle and 7
with a handle on the null commodity the commodities do not differ: `commodity ()`
is the null commodity for both, and the comparison `<` compares the two numbers
and answers true.  Yet `a += b` and `a -= b` fail with the commodity-mismatch
error. -/
theorem C11_same_commodity_mismatch :
    amount_t.commodity ⟨some ⟨5, 0⟩, none⟩ = null_commodity ∧
    amount_t.commodity ⟨some ⟨7, 0⟩, some null_commodity⟩ = null_commodity ∧
    amount_t.operator_lt ⟨some ⟨5, 0⟩, none⟩ ⟨some ⟨7, 0⟩, some null_commodity⟩ = .ok true ∧
    (amount_t.operator_plus_eq ⟨some ⟨5, 0⟩, none⟩ ⟨some ⟨7, 0⟩, some null_commodity⟩).thrown =
      some (.amount_error "Adding amounts with different commodities") ∧
    (amount_t.operator_minus_eq ⟨some ⟨5, 0⟩, none⟩ ⟨some ⟨7, 0⟩, some null_commodity⟩).thrown =
      some (.amount_error "Subtracting amounts with different commodities") := by
  refine ⟨by rfl, by rfl, by rfl, by rfl, by rfl⟩

/-! ## The round trip through the parser -/

theorem styled_registry_state :
    (((amount_t.parse 1 initial_registry zero "$100.00".data 0).bind fun r1 =>
      match r1 with
      | .done _ reg1 _ =>
        (amount_t.parse 1 reg1 zero "1.000,00 EUR".data 0).bind fun r2 =>
          match r2 with
          | .done _ reg2 _ =>
            (amount_t.parse 1 reg2 zero "-0,50".data 0).map fun r3 =>
              match r3 with
              | .done _ reg3 _ =>
                (reg3.commodities, reg3.next, reg3.default_commodity,
                  [0, 1, 2].map fun c =>
                    ((reg3.objects c).symbol, (reg3.objects c).quote,
                      (reg3.objects c).precision, (reg3.objects c).flags))
              | _ => ([], 0, none, [])
          | _ => none
      | _ => none) =
    some (styled_registry.commodities, styled_registry.next, styled_registry.default_commodity,
      [0, 1, 2].map fun c =>
        ((styled_registry.objects c).symbol, (styled_registry.objects c).quote,
          (styled_registry.objects c).precision, (styled_registry.objects c).flags))) := by
  rfl

end ledger
